import Mathlib

/-!
Binary codec, balanced term trees, protected lists, action labels and constant
parameters: a shallow embedding of

* `libraries/utilities/source/bitstream.cpp`
  (variable-length integers, the bit-packed writer and reader, strings),
* `libraries/atermpp/include/mcrl2/atermpp/aterm_balanced_tree.h`
  (balanced binary trees of terms, indexed access, iteration),
* `libraries/atermpp/include/atermpp/list.h`
  (the list container that registers itself as a protected root),
* `libraries/lts/include/mcrl2/lts/action_label_string.h`
  (hiding actions in the label of a transition), and
* `libraries/lps/include/mcrl2/lps/constelm.h`
  (the constant parameters of a linear process),

followed by theorems about them.

Conventions.  A byte is a natural number; an input stream is the list of bytes
that have not been read yet; an output stream is the list of bytes written so
far, oldest first.  `std::size_t` is 64 bits wide and `std::bitset<128>` is a
natural number below `2 ^ 128`; every operation that can lose bits carries its
reduction modulo `2 ^ 64` or `2 ^ 128` explicitly.  A thrown exception, a
failed `assert` and a read through an exhausted iterator are the result `none`.
-/

namespace mcrl2.utilities

/-! ## Variable-length integers -/

/-- The `while (value > 127)` loop of `encode_variablesize_int` together with
the final store.  `output` is the memory behind the `uint8_t*` argument (index
to byte) and `outputSize` the running count; the result is the returned count
and the memory afterwards. -/
def encode_variablesize_int_loop (value : Nat) (output : Nat → Nat) (outputSize : Nat) :
    Nat × (Nat → Nat) :=
  if 127 < value then
    encode_variablesize_int_loop (value >>> 7)
      (Function.update output outputSize ((((value &&& 127) % 256) ||| 128) % 256))
      (outputSize + 1)
  else
    (outputSize + 1, Function.update output outputSize (value % 256))
termination_by value
decreasing_by
  simp only [Nat.shiftRight_eq_div_pow]
  omega

/-- Model of `encode_variablesize_int(value, output)`: returns the number of
bytes used and the output memory. -/
def encode_variablesize_int (value : Nat) (output : Nat → Nat) : Nat × (Nat → Nat) :=
  encode_variablesize_int_loop value output 0

/-- The base-128 digits of `k`, least significant first, each but the last with
bit 7 set: the byte sequence that the encoder is to produce. -/
def varint_bytes (k : Nat) : List Nat :=
  if 127 < k then (k % 128 + 128) :: varint_bytes (k / 128) else [k]
termination_by k
decreasing_by omega

/-- The value of `sizeof(std::size_t)` on a 64-bit platform. -/
def sizeof_size_t : Nat := 8

/-- The `for` loop of `decode_variablesize_int<std::size_t>`, entered with loop
counter `i` and accumulator `value`, on the unread bytes of the stream.
`bits_needed` is the value of `bits_needed<std::size_t>()`, which the header
declares.  The result is the returned value and the bytes left unread; `none`
is the thrown `std::runtime_error`. -/
def decode_variablesize_int_loop (bits_needed : Nat) (i value : Nat) :
    List Nat → Option (Nat × List Nat)
  | [] => if i < bits_needed then none else some (value, [])
  | byte :: rest =>
    if i < bits_needed then
      let value := value ||| (((byte &&& 127) <<< (7 * i)) % 2 ^ 64)
      if byte &&& 128 = 0 then some (value, rest)
      else if i = sizeof_size_t then none
      else decode_variablesize_int_loop bits_needed (i + 1) value rest
    else some (value, byte :: rest)

/-- Model of `decode_variablesize_int<std::size_t>(stream)`. -/
def decode_variablesize_int (bits_needed : Nat) (stream : List Nat) : Option (Nat × List Nat) :=
  decode_variablesize_int_loop bits_needed 0 0 stream

/-! ## The bit-packed writer -/

/-- Subtraction `a - b` of `std::size_t` values, which wraps modulo `2 ^ 64`. -/
def size_t_sub (a b : Nat) : Nat := (a % 2 ^ 64 + (2 ^ 64 - b % 2 ^ 64)) % 2 ^ 64

/-- The value of `static_cast<std::size_t>(x) << n`.  For `n < 64` the bits
that leave the 64-bit word are dropped.  For `n ≥ 64` C++ leaves the shift
undefined; `shift_overflow x n` stands for whatever 64-bit value the platform
produces there (`0` if the bits are shifted out, `x << (n % 64)` on processors
that use the low six bits of the count). -/
def size_t_shl (shift_overflow : Nat → Nat → Nat) (x n : Nat) : Nat :=
  if n < 64 then (x <<< n) % 2 ^ 64 else shift_overflow x n % 2 ^ 64

/-- An out-of-range shift in which every bit leaves the word. -/
def shift_out : Nat → Nat → Nat := fun _ _ => 0

/-- An out-of-range shift as 64-bit x86 and ARM processors execute it: only the
low six bits of the count are used. -/
def shift_count_mod_64 : Nat → Nat → Nat := fun x n => x <<< (n % 64)

/-- The operator `<<` of `std::bitset<128>`: bits shifted past position 127 are
lost, and a shift by 128 or more gives zero. -/
def bitset_shl (x k : Nat) : Nat := if k < 128 then (x <<< k) % 2 ^ 128 else 0

/-- The operator `>>` of `std::bitset<128>`. -/
def bitset_shr (x k : Nat) : Nat := if k < 128 then x >>> k else 0

/-- Modelled from the spec: the members of `obitstream`, whose class
declaration is in `mcrl2/utilities/bitstream.h`: "an internal wide buffer (at
least 128 bits) plus a count of valid bits currently held", next to the byte
sink `stream` and the scratch memory `integer_buffer` that `write_integer`
hands to the encoder. -/
structure obitstream where
  stream : List Nat
  read_write_buffer : Nat
  bits_in_buffer : Nat
  integer_buffer : Nat → Nat

/-- A writer on an empty sink, with an empty bit buffer. -/
def obitstream.fresh : obitstream :=
  { stream := [], read_write_buffer := 0, bits_in_buffer := 0, integer_buffer := fun _ => 0 }

/-- Model of `obitstream::write_bits(val, nr_bits)`. -/
def obitstream.write_bits (shift_overflow : Nat → Nat → Nat) (s : obitstream)
    (val nr_bits : Nat) : obitstream :=
  let read_write_buffer := s.read_write_buffer |||
    bitset_shl (val &&& size_t_sub (size_t_shl shift_overflow 1 nr_bits) 1)
      (size_t_sub (size_t_sub 128 s.bits_in_buffer) nr_bits)
  let bits_in_buffer := s.bits_in_buffer + nr_bits
  if 64 ≤ bits_in_buffer then
    let write_value := bitset_shr read_write_buffer 64
    { s with
      read_write_buffer := bitset_shl read_write_buffer 64
      bits_in_buffer := bits_in_buffer - 64
      stream := s.stream ++
        [7, 6, 5, 4, 3, 2, 1, 0].map (fun i => (write_value >>> (8 * i)) &&& 255) }
  else
    { s with read_write_buffer := read_write_buffer, bits_in_buffer := bits_in_buffer }

/-- Model of `obitstream::write_integer(val)`: the encoder fills
`integer_buffer` and its first `nr_items` bytes go to the sink. -/
def obitstream.write_integer (s : obitstream) (val : Nat) : obitstream :=
  let r := encode_variablesize_int val s.integer_buffer
  { s with integer_buffer := r.2, stream := s.stream ++ (List.range r.1).map r.2 }

/-- Model of `obitstream::write_string(string)`; the string is its list of
bytes. -/
def obitstream.write_string (s : obitstream) (string : List Nat) : obitstream :=
  let s := s.write_integer string.length
  { s with stream := s.stream ++ string }

/-- Model of `obitstream::flush()`.  The loop counter runs from 8 down while it
exceeds `7 - bits_in_buffer / 8`, an unsigned difference. -/
def obitstream.flush (s : obitstream) : obitstream :=
  if 0 < s.bits_in_buffer then
    let write_value := bitset_shr s.read_write_buffer 64
    let bound := (7 + (2 ^ 32 - (s.bits_in_buffer / 8) % 2 ^ 32)) % 2 ^ 32
    { s with
      stream := s.stream ++
        ([8, 7, 6, 5, 4, 3, 2, 1].takeWhile (fun i => decide (bound < i))).map
          (fun i => (write_value >>> (8 * (i - 1))) &&& 255)
      read_write_buffer := 0
      bits_in_buffer := 0 }
  else s

/-! ## The bit-packed reader -/

/-- Modelled from the spec: the members of `ibitstream`, whose class
declaration is in `mcrl2/utilities/bitstream.h`: the byte source `stream` (the
bytes not read yet), the 128-bit buffer with its count of valid bits, and the
text buffer `m_text_buffer` that `read_string` fills and returns. -/
structure ibitstream where
  stream : List Nat
  read_write_buffer : Nat
  bits_in_buffer : Nat
  m_text_buffer : List Nat

/-- A reader at the start of `bytes`, with an empty bit buffer. -/
def ibitstream.fresh (bytes : List Nat) (text_buffer : List Nat) : ibitstream :=
  { stream := bytes, read_write_buffer := 0, bits_in_buffer := 0, m_text_buffer := text_buffer }

/-- Model of `ibitstream::read_integer()`; `none` is the exception of the
decoder. -/
def ibitstream.read_integer (bits_needed : Nat) (s : ibitstream) : Option (Nat × ibitstream) :=
  match decode_variablesize_int bits_needed s.stream with
  | none => none
  | some (value, rest) => some (value, { s with stream := rest })

/-- The `while (bits_in_buffer < nr_bits)` loop of `read_bits` on the unread
bytes: the flag is `false` when `stream.get()` failed, and the other components
are the unread bytes, the buffer and the bit count when the loop was left. -/
def read_bits_loop (nr_bits : Nat) : List Nat → Nat → Nat → Bool × List Nat × Nat × Nat
  | [], read_write_buffer, bits_in_buffer =>
    (decide (¬ bits_in_buffer < nr_bits), [], read_write_buffer, bits_in_buffer)
  | byte :: rest, read_write_buffer, bits_in_buffer =>
    if bits_in_buffer < nr_bits then
      read_bits_loop nr_bits rest
        (read_write_buffer ||| bitset_shl byte (size_t_sub (56 + 64) bits_in_buffer))
        (bits_in_buffer + 8)
    else (true, byte :: rest, read_write_buffer, bits_in_buffer)

/-- Model of `ibitstream::read_bits(val, nr_bits)`: the returned flag, the value
left in `val` and the reader afterwards; `none` is the failed assertion
`nr_bits <= 64`. -/
def ibitstream.read_bits (s : ibitstream) (nr_bits : Nat) : Option (Bool × Nat × ibitstream) :=
  if nr_bits ≤ 64 then
    match read_bits_loop nr_bits s.stream s.read_write_buffer s.bits_in_buffer with
    | (false, stream, read_write_buffer, bits_in_buffer) =>
      some (false, 0, { s with stream := stream, read_write_buffer := read_write_buffer,
                               bits_in_buffer := bits_in_buffer })
    | (true, stream, read_write_buffer, bits_in_buffer) =>
      some (true, bitset_shr read_write_buffer (size_t_sub 128 nr_bits),
        { s with stream := stream
                 read_write_buffer := bitset_shl read_write_buffer nr_bits
                 bits_in_buffer := bits_in_buffer - nr_bits })
  else none

/-- The effect of `std::vector<char>::resize(n)`: truncate, or pad with zero
bytes. -/
def vector_resize (v : List Nat) (n : Nat) : List Nat :=
  v.take n ++ List.replicate (n - v.length) 0

/-- The character string that a `const char*` pointing at `buffer` denotes: the
bytes before the first NUL. -/
def c_str (buffer : List Nat) : List Nat := buffer.takeWhile (fun b => decide (b ≠ 0))

/-- Model of `ibitstream::read_string()`.  `round_up_to_power_of_two` is the
function of `mcrl2/utilities/power_of_two.h`.  `stream.read` copies as many of
the `length` bytes as the source still holds to the front of the text buffer;
then the terminator is stored at index `length`.  The result is the string the
returned pointer denotes, and the reader afterwards. -/
def ibitstream.read_string (bits_needed : Nat) (round_up_to_power_of_two : Nat → Nat)
    (s : ibitstream) : Option (List Nat × ibitstream) :=
  match s.read_integer bits_needed with
  | none => none
  | some (length, s) =>
    let m_text_buffer :=
      if s.m_text_buffer.length < length + 1 then
        vector_resize s.m_text_buffer (round_up_to_power_of_two (length + 1))
      else s.m_text_buffer
    let got := s.stream.take length
    let m_text_buffer := got ++ m_text_buffer.drop got.length
    let m_text_buffer := m_text_buffer.set length 0
    some (c_str m_text_buffer, { s with stream := s.stream.drop length, m_text_buffer := m_text_buffer })

/-- The exact value that the bytes of a variable-length integer stand for: the
sum of `(byte_i & 127) * 128 ^ i` over the bytes, as an unbounded integer. -/
def varint_value : List Nat → Nat
  | [] => 0
  | byte :: rest => (byte &&& 127) + 128 * varint_value rest

/-! ## Sequences of calls and the bit string they carry -/

/-- The number that `bytes` write in base 256, most significant byte first. -/
def be_value (bytes : List Nat) : Nat := bytes.foldl (fun acc b => acc * 256 + b) 0

/-- One `write_bits(value, nr_bits)` call for each pair, in order. -/
def obitstream.write_bits_list (shift_overflow : Nat → Nat → Nat) (s : obitstream)
    (pairs : List (Nat × Nat)) : obitstream :=
  pairs.foldl (fun s p => s.write_bits shift_overflow p.1 p.2) s

/-- One `read_bits(val, nr_bits)` call for each width, in order: the flag and
the value of each call, `none` for a failed assertion, after which no call is
made. -/
def ibitstream.read_bits_list : ibitstream → List Nat → List (Option (Bool × Nat))
  | _, [] => []
  | s, nr_bits :: rest =>
    match s.read_bits nr_bits with
    | none => [none]
    | some (flag, val, s) => some (flag, val) :: ibitstream.read_bits_list s rest

/-- The bit string obtained by concatenating, for each pair `(value, n)`, the
`n` low bits of `value`, most significant bit first: the number it writes in
base 2 and its length. -/
def bits_concat : List (Nat × Nat) → Nat × Nat
  | [] => (0, 0)
  | (value, n) :: rest =>
    ((value % 2 ^ n) * 2 ^ (bits_concat rest).2 + (bits_concat rest).1, n + (bits_concat rest).2)

/-- The writer holds `top` as the `bits_in_buffer` valid bits of its buffer,
left-aligned, with fewer than 64 of them, and has written whole groups of eight
bytes. -/
def obitstream.aligned (s : obitstream) (top : Nat) : Prop :=
  s.bits_in_buffer ≤ 63 ∧ top < 2 ^ s.bits_in_buffer
    ∧ s.read_write_buffer = top * 2 ^ (128 - s.bits_in_buffer)
    ∧ (∀ b ∈ s.stream, b < 256) ∧ 8 ∣ s.stream.length

/-- The reader holds `top` as the `bits_in_buffer` valid bits of its buffer,
left-aligned, and its source holds bytes. -/
def ibitstream.aligned (s : ibitstream) (top : Nat) : Prop :=
  s.bits_in_buffer ≤ 128 ∧ top < 2 ^ s.bits_in_buffer
    ∧ s.read_write_buffer = top * 2 ^ (128 - s.bits_in_buffer)
    ∧ (∀ b ∈ s.stream, b < 256)

/-- One `write_integer(k)` call for each integer, in order. -/
def obitstream.write_integer_list (s : obitstream) (ks : List Nat) : obitstream :=
  ks.foldl (fun s k => s.write_integer k) s

/-- As many as `m` calls of `read_integer()`, one after the other: the values
returned, in order, and the reader afterwards; `none` when a call throws. -/
def ibitstream.read_integer_list (bits_needed : Nat) :
    Nat → ibitstream → Option (List Nat × ibitstream)
  | 0, s => some ([], s)
  | m + 1, s =>
    match s.read_integer bits_needed with
    | none => none
    | some (k, s) =>
      (ibitstream.read_integer_list bits_needed m s).map (fun r => (k :: r.1, r.2))

/-- One `read_bits(val, nr_bits)` call for each width, in order, whether the
calls succeed or not: the flags returned and the reader afterwards; `none` for a
failed assertion. -/
def ibitstream.read_bits_seq : ibitstream → List Nat → Option (List Bool × ibitstream)
  | s, [] => some ([], s)
  | s, nr_bits :: rest =>
    match s.read_bits nr_bits with
    | none => none
    | some (flag, _, s) =>
      (ibitstream.read_bits_seq s rest).map (fun r => (flag :: r.1, r.2))

end mcrl2.utilities

namespace atermpp

/-! ## Terms and balanced trees -/

/-- Modelled from the spec: the terms of the term store, which the
`atermpp` library implements outside the files at hand, seen as the balanced
tree code sees them.  A term is the application of the reserved symbol
`@empty@` (arity 0), an application of the reserved symbol `@node@` (arity 2)
to two terms, or a term with any other head symbol (`other a`; the code never
looks inside one).  The term store shares structurally equal terms ("structural
equality implies identity"), so two handles denote the identical stored term
exactly when the values of this type are equal. -/
inductive aterm (α : Type) where
  | tree_empty : aterm α
  | tree_node : aterm α → aterm α → aterm α
  | other : α → aterm α
  deriving DecidableEq, Repr

namespace aterm

variable {α : Type}

/-- Model of `term_balanced_tree::empty()`: the head symbol is `@empty@`. -/
def empty : aterm α → Bool
  | tree_empty => true
  | _ => false

/-- Model of `term_balanced_tree::is_node()`: the head symbol is `@node@`. -/
def is_node : aterm α → Bool
  | tree_node _ _ => true
  | _ => false

/-- Model of `term_balanced_tree::left_branch()`; the assertion `is_node()`
fails on any other term. -/
def left_branch : aterm α → Option (aterm α)
  | tree_node l _ => some l
  | _ => none

/-- Model of `term_balanced_tree::right_branch()`; the assertion `is_node()`
fails on any other term. -/
def right_branch : aterm α → Option (aterm α)
  | tree_node _ r => some r
  | _ => none

/-- Model of `term_balanced_tree::size()`. -/
def size : aterm α → Nat
  | tree_node l r => l.size + r.size
  | tree_empty => 0
  | other _ => 1

/-- Model of `term_balanced_tree::element_at(position, size)`.  Both
assertions are checked on entry; `left_branch()` and `right_branch()` assert
that the term is a node. -/
def element_at : aterm α → Nat → Nat → Option (aterm α)
  | tree_node l r, position, size =>
    if size = (tree_node l r).size ∧ position < size then
      if 1 < size then
        if position < (size + 1) >>> 1 then
          l.element_at position ((size + 1) >>> 1)
        else
          r.element_at (position - ((size + 1) >>> 1)) (size - ((size + 1) >>> 1))
      else some (tree_node l r)
    else none
  | t, position, size =>
    if size = t.size ∧ position < size then
      if 1 < size then none else some t
    else none

/-- Model of `term_balanced_tree::element_at(position, size)` in a build with
`NDEBUG` defined, where `assert` expands to nothing.  `none` stands for
`left_branch()` or `right_branch()` on a term that is not a node, the read of
an argument that such a term need not have. -/
def element_at_ndebug : aterm α → Nat → Nat → Option (aterm α)
  | tree_node l r, position, size =>
    if 1 < size then
      if position < (size + 1) >>> 1 then
        l.element_at_ndebug position ((size + 1) >>> 1)
      else
        r.element_at_ndebug (position - ((size + 1) >>> 1)) (size - ((size + 1) >>> 1))
    else some (tree_node l r)
  | t, _, size => if 1 < size then none else some t

/-- The calls of `element_at` that the call `element_at(position, size)` on a
term makes, itself first, each with the term it is made on and its two
arguments.  The assertions are not consulted, so that the list shows what they
would be checked on; a call with `1 < size` on a term that is not a node is the
last one listed, and is the one that invokes `left_branch()` or
`right_branch()` on a term that is not a node. -/
def element_at_calls : aterm α → Nat → Nat → List (aterm α × Nat × Nat)
  | tree_node l r, position, size =>
    (tree_node l r, position, size) ::
      (if 1 < size then
        if position < (size + 1) >>> 1 then
          l.element_at_calls position ((size + 1) >>> 1)
        else
          r.element_at_calls (position - ((size + 1) >>> 1)) (size - ((size + 1) >>> 1))
      else [])
  | t, position, size => [(t, position, size)]

end aterm

open aterm

variable {α : Type}

/-- Model of the default constructor `term_balanced_tree()`. -/
def term_balanced_tree_default : aterm α := tree_empty

/-- Model of `get_distance(begin, end)` for a range given as the list of its
elements. -/
def get_distance : List (aterm α) → Nat
  | [] => 0
  | _ :: rest => get_distance rest + 1

/-- Model of `make_tree(p, size)`.  The iterator `p` is the list of elements
from its position on; the result is the tree and the advanced iterator, and
`none` when `*p` is evaluated on an exhausted range. -/
def make_tree (p : List (aterm α)) (size : Nat) : Option (aterm α × List (aterm α)) :=
  if size = 0 then some (tree_empty, p)
  else if size = 1 then
    match p with
    | [] => none
    | result :: p => some (result, p)
  else
    match make_tree p ((size + 1) >>> 1) with
    | none => none
    | some (left_tree, p) =>
      match make_tree p (size >>> 1) with
      | none => none
      | some (right_tree, p) => some (tree_node left_tree right_tree, p)
termination_by size
decreasing_by
  all_goals simp only [Nat.shiftRight_eq_div_pow]
  all_goals omega

/-- The construction as the specification words it: no element gives the
empty-tree term, one element gives that element itself, and `n ≥ 2` elements
give a node whose left subtree is built from the first `ceil(n/2)` elements and
whose right subtree is built from the remaining `floor(n/2)`. -/
def reference_tree : List (aterm α) → aterm α
  | [] => tree_empty
  | [x] => x
  | x :: y :: rest =>
    tree_node
      (reference_tree ((x :: y :: rest).take (((x :: y :: rest).length + 1) / 2)))
      (reference_tree ((x :: y :: rest).drop (((x :: y :: rest).length + 1) / 2)))
termination_by v => v.length
decreasing_by
  all_goals simp only [List.length_take, List.length_drop, List.length_cons]
  all_goals omega

/-- The leaves of a term read as a tree, from left to right: what lies below
`@node@` applications, every other term counting as one leaf. -/
def leaves : aterm α → List (aterm α)
  | tree_node l r => leaves l ++ leaves r
  | t => [t]

/-- Model of the constructor `term_balanced_tree(first, last)` on the range
with elements `v`. -/
def term_balanced_tree_of_range (v : List (aterm α)) : Option (aterm α) :=
  (make_tree v (get_distance v)).map Prod.fst

/-- Model of the constructor `term_balanced_tree(first, size)`. -/
def term_balanced_tree_of_size (first : List (aterm α)) (size : Nat) : Option (aterm α) :=
  (make_tree first size).map Prod.fst

/-- Model of `term_balanced_tree::operator[]`. -/
def index (t : aterm α) (position : Nat) : Option (aterm α) :=
  t.element_at position t.size

/-! ## The iterator: a stack of terms, top first -/

/-- The `while` loop of `term_balanced_tree_iterator::initialise` followed by
the final push, on the stack `m_trees`. -/
def initialise_loop : aterm α → List (aterm α) → List (aterm α)
  | tree_node l r, m_trees => initialise_loop l (r :: m_trees)
  | current, m_trees => current :: m_trees

/-- Model of `term_balanced_tree_iterator::initialise(tree)` on the empty stack
of a new iterator. -/
def initialise (tree : aterm α) : List (aterm α) := initialise_loop tree []

/-- Model of `term_balanced_tree::begin()`. -/
def term_begin (tree : aterm α) : List (aterm α) := initialise tree

/-- Model of `term_balanced_tree::end()`: an iterator with an empty stack. -/
def term_end : List (aterm α) := []

/-- Model of `term_balanced_tree_iterator::dereference()`: the top of the
stack. -/
def dereference : List (aterm α) → Option (aterm α)
  | [] => none
  | top :: _ => some top

/-- The `do ... while` loop of `increment` followed by the final push, entered
with `current` the node with arguments `arg0` and `arg1`. -/
def increment_loop : aterm α → aterm α → List (aterm α) → List (aterm α)
  | tree_node l r, arg1, m_trees => increment_loop l r (arg1 :: m_trees)
  | arg0, arg1, m_trees => arg0 :: arg1 :: m_trees

/-- Model of `term_balanced_tree_iterator::increment()`; `none` is a `pop()` on
an empty stack. -/
def increment : List (aterm α) → Option (List (aterm α))
  | [] => none
  | _ :: [] => some []
  | _ :: tree_node arg0 arg1 :: m_trees => some (increment_loop arg0 arg1 m_trees)
  | _ :: current :: m_trees => some (current :: m_trees)

/-- The loop `for (i = first; i != end(); ++i)` that collects `*i`, run for at
most `fuel` rounds: the elements visited, or `none` when the rounds do not
suffice or a step fails. -/
def iterate : Nat → List (aterm α) → Option (List (aterm α))
  | _, [] => some []
  | 0, _ :: _ => none
  | fuel + 1, top :: m_trees =>
    match increment (top :: m_trees) with
    | none => none
    | some next => (iterate fuel next).map (fun visited => top :: visited)

/-- Model of `apply(l, f)`: the results of `f` on the elements visited, made
into a tree by the constructor `term_balanced_tree(first, size)`. -/
def apply (fuel : Nat) (l : aterm α) (f : aterm α → aterm α) : Option (aterm α) :=
  match iterate fuel (term_begin l) with
  | none => none
  | some visited => term_balanced_tree_of_size (visited.map f) (visited.map f).length

/-! ## Shape of a tree -/

/-- The largest number of `@node@` applications above a leaf of the term read
as a tree. -/
def depth : aterm α → Nat
  | tree_node l r => max (depth l) (depth r) + 1
  | _ => 0

/-- The balance of a term read as a tree, as the specification words it: every
node that spans `k` leaves has a left child spanning `ceil(k/2)` and a right
child spanning `floor(k/2)` leaves, and no child of a node is the empty
tree. -/
def balanced : aterm α → Bool
  | tree_node l r =>
    decide ((leaves l).length = ((leaves (tree_node l r)).length + 1) / 2) &&
    decide ((leaves r).length = (leaves (tree_node l r)).length / 2) &&
    !l.empty && !r.empty && balanced l && balanced r
  | _ => true

/-- The right arguments of the `@node@` applications inside a term. -/
def right_subtrees : aterm α → List (aterm α)
  | tree_node l r => r :: (right_subtrees l ++ right_subtrees r)
  | _ => []

/-- The iterator after `j` applications of `operator++`, `none` once one of
them is a `pop()` on an empty stack. -/
def increment_n : Nat → List (aterm α) → Option (List (aterm α))
  | 0, m_trees => some m_trees
  | j + 1, m_trees => (increment m_trees).bind (increment_n j)

/-! ## The protected list container -/

variable {T : Type}

/-- Modelled from the spec: the registry of protected containers behind
`ATprotectProtectedATerm`, which `protaterm.h` declares: the list of the
containers registered as roots, each given by its address.  A call adds one
registration of the container `this`. -/
def ATprotectProtectedATerm (protected_aterms : List Nat) (this : Nat) : List Nat :=
  this :: protected_aterms

/-- Modelled from the spec: `ATunprotectProtectedATerm`, which takes one
registration of the container `this` out of the registry. -/
def ATunprotectProtectedATerm (protected_aterms : List Nat) (this : Nat) : List Nat :=
  protected_aterms.erase this

/-- Modelled from the spec: `aterm_traits<T>::mark(t)`, which marks the term
`t` as reachable; `marked` is the collection of the terms marked so far. -/
def mark (marked : List T) (t : T) : List T := t :: marked

/-- The registry of protected containers together with the `atermpp::list`
objects that are alive, each at its address with the elements that its base
class `std::list` holds. -/
structure list_world (T : Type) where
  protected_aterms : List Nat
  objects : Nat → Option (List T)

/-- No container is registered and no `atermpp::list` object is alive. -/
def list_world.initial : list_world T :=
  { protected_aterms := [], objects := fun _ => none }

/-- What every constructor of `atermpp::list` does once the constructor of the
base class has filled the object at `this` with `elements`: the body
`ATprotectProtectedATerm(this)`. -/
def list_constructed (w : list_world T) (this : Nat) (elements : List T) : list_world T :=
  { protected_aterms := ATprotectProtectedATerm w.protected_aterms this
    objects := Function.update w.objects this (some elements) }

/-- Model of the destructor `~list()` of the object at `this`: the body
`ATunprotectProtectedATerm(this)`, after which the base class releases the
elements. -/
def list_destroyed (w : list_world T) (this : Nat) : list_world T :=
  { protected_aterms := ATunprotectProtectedATerm w.protected_aterms this
    objects := Function.update w.objects this none }

/-- The constructions and destructions of `atermpp::list` objects: the eight
constructors of the class in the order of their declaration, each with the
address `this` of the object; a range `[first, last)` is given by its elements
and an allocator is left out; and the destructor. -/
inductive list_operation (T : Type) where
  | construct_default (this : Nat)
  | construct_allocator (this : Nat)
  | construct_count (this : Nat) (count : Nat)
  | construct_count_val (this : Nat) (count : Nat) (val : T)
  | construct_count_val_allocator (this : Nat) (count : Nat) (val : T)
  | construct_copy (this : Nat) (right : Nat)
  | construct_range (this : Nat) (elements : List T)
  | construct_range_allocator (this : Nat) (elements : List T)
  | destroy (this : Nat)

/-- One construction or destruction.  `none` stands for what no program does:
the construction of an object where one is alive, a copy of an object that is
not alive, the destruction of an object that is not alive.  `T_default` is the
value of `T()`, with which `list(count)` fills the list. -/
def list_step (T_default : T) (w : list_world T) : list_operation T → Option (list_world T)
  | .construct_default this =>
    if (w.objects this).isSome then none else some (list_constructed w this [])
  | .construct_allocator this =>
    if (w.objects this).isSome then none else some (list_constructed w this [])
  | .construct_count this count =>
    if (w.objects this).isSome then none
    else some (list_constructed w this (List.replicate count T_default))
  | .construct_count_val this count val =>
    if (w.objects this).isSome then none
    else some (list_constructed w this (List.replicate count val))
  | .construct_count_val_allocator this count val =>
    if (w.objects this).isSome then none
    else some (list_constructed w this (List.replicate count val))
  | .construct_copy this right =>
    if (w.objects this).isSome then none
    else
      match w.objects right with
      | none => none
      | some elements => some (list_constructed w this elements)
  | .construct_range this elements =>
    if (w.objects this).isSome then none else some (list_constructed w this elements)
  | .construct_range_allocator this elements =>
    if (w.objects this).isSome then none else some (list_constructed w this elements)
  | .destroy this =>
    if (w.objects this).isSome then some (list_destroyed w this) else none

/-- A sequence of constructions and destructions, in order. -/
def list_run (T_default : T) : List (list_operation T) → list_world T → Option (list_world T)
  | [], w => some w
  | operation :: rest, w => (list_step T_default w operation).bind (list_run T_default rest)

/-- Model of `list::ATprotectTerms()` on an object that holds `elements`: the
loop calls `aterm_traits<T>::mark(*i)` for `i` from `begin()` to `end()`. -/
def ATprotectTerms (elements : List T) (marked : List T) : List T :=
  elements.foldl mark marked

/-- The registry holds each live object once and no other address. -/
def list_registered (w : list_world T) : Prop :=
  ∀ this : Nat, w.protected_aterms.count this = if (w.objects this).isSome then 1 else 0

/-- The address of the object that an operation constructs or destroys. -/
def list_operation.address : list_operation T → Nat
  | .construct_default this => this
  | .construct_allocator this => this
  | .construct_count this _ => this
  | .construct_count_val this _ _ => this
  | .construct_count_val_allocator this _ _ => this
  | .construct_copy this _ => this
  | .construct_range this _ => this
  | .construct_range_allocator this _ => this
  | .destroy this => this

/-- Whether an operation is the destructor. -/
def list_operation.is_destroy : list_operation T → Bool
  | .destroy _ => true
  | _ => false

/-- The live objects as the specification words them, read off the sequence of
operations alone: the `atermpp::list` object at `this` is alive after the
operations when one of them is at that address and the last such is a
construction, not the destructor. -/
def alive_after (operations : List (list_operation T)) (this : Nat) : Bool :=
  operations.foldl
    (fun alive operation => if operation.address = this then !operation.is_destroy else alive)
    false

end atermpp

namespace mcrl2.lts

/-! ## Hiding actions in an action label -/

/-- Model of `action_label_string::tau_action()`: the label `"tau"`.  A label
is the list of its characters. -/
def tau_action : List Char := ['t', 'a', 'u']

/-- The loop "Parse action name into a" of `hide_actions`: `a` is the name
collected so far, the list holds the characters from `c` on; the result is the
name and the characters from the new `c` on. -/
def parse_action_name : List Char → List Char → List Char × List Char
  | a, [] => (a, [])
  | a, ch :: c =>
    if ch ≠ '(' ∧ ch ≠ '|' then parse_action_name (a ++ [ch]) c else (a, ch :: c)

/-- The `do ... while (nd > 0 && c != end())` loop of `hide_actions`, entered
with the counter `nd`, a `std::size_t`, and the characters from `c` on; the
result is the characters from the new `c` on.  The loop is only entered with
`c != end()`. -/
def skip_parameters : Nat → List Char → List Char
  | _, [] => []
  | nd, ch :: c =>
    let nd :=
      if ch = '(' then (nd + 1) % 2 ^ 64
      else if ch = ')' then (nd + (2 ^ 64 - 1)) % 2 ^ 64
      else nd
    if 0 < nd ∧ c ≠ [] then skip_parameters nd c else c

/-- The loop `while (c != end())` of `hide_actions(string_vector)`, run for at
most `fuel` rounds, with `ns` the new label so far and the characters from
`b = c` on; the result is `ns` when the loop is left, `none` when the rounds do
not suffice. -/
def hide_actions_loop (string_vector : List (List Char)) :
    Nat → List Char → List Char → Option (List Char)
  | _, ns, [] => some ns
  | 0, _, _ :: _ => none
  | fuel + 1, ns, ch :: rest =>
    let b := ch :: rest
    let a := (parse_action_name [] b).1
    let c := (parse_action_name [] b).2
    let c := if c.head? = some '(' then skip_parameters 0 c else c
    let ns :=
      if a ∉ string_vector then
        (if ns ≠ [] then ns ++ ['|'] else ns) ++ b.take (b.length - c.length)
      else ns
    let c := if c.head? = some '|' then c.tail else c
    hide_actions_loop string_vector fuel ns c

/-- Model of `action_label_string::hide_actions(string_vector)` on the label
given: the label afterwards.  Every round of the loop moves `c` forward, so one
round for each character is enough. -/
def hide_actions (string_vector : List (List Char)) (label : List Char) : Option (List Char) :=
  match hide_actions_loop string_vector label.length [] label with
  | none => none
  | some ns => if ns = [] then some tau_action else some ns

/-- An action of a multi-action as the specification words it: a name, and the
text of its parameter list, empty when the action has none. -/
structure action where
  name : List Char
  parameters : List Char
  deriving DecidableEq, Repr

/-- The text of an action: the name followed by the parameter list. -/
def action.text (a : action) : List Char := a.name ++ a.parameters

/-- The characters after an opening parenthesis close it with their last
character and not before: `depth` parentheses are open, and reading on, the
count reaches zero exactly at the end. -/
def closes_at_end : Nat → List Char → Bool
  | _, [] => false
  | depth, ch :: rest =>
    if ch = '(' then closes_at_end (depth + 1) rest
    else if ch = ')' then
      if depth ≤ 1 then decide (rest = []) else closes_at_end (depth - 1) rest
    else closes_at_end depth rest

/-- A balanced parenthesised string: an opening parenthesis, closed by the last
character; parentheses may nest inside, and any other character may occur. -/
def balanced_parenthesised : List Char → Bool
  | [] => false
  | ch :: rest => decide (ch = '(') && closes_at_end 1 rest

/-- A well-formed action: the name is not empty and has no `(` and no `|`; the
parameter list is empty or a balanced parenthesised string. -/
def action.well_formed (a : action) : Bool :=
  decide (a.name ≠ []) && decide ('(' ∉ a.name) && decide ('|' ∉ a.name)
    && (decide (a.parameters = []) || balanced_parenthesised a.parameters)

/-- The label of a multi-action: the texts of its actions, separated by `|`. -/
def multi_action_text : List action → List Char
  | [] => []
  | [a] => a.text
  | a :: b :: rest => a.text ++ '|' :: multi_action_text (b :: rest)

end mcrl2.lts

namespace mcrl2.lps

/-! ## Constant parameters of a linear process -/

/-- Modelled from the spec: an assignment `lhs := rhs` of a summand, with the
two members that `compute_constant_parameters` reads.  `V` is the type of data
variables and `E` the type of data expressions. -/
structure data_assignment (V E : Type) where
  lhs : V
  rhs : E

/-- Modelled from the spec: a summand of a linear process, with the members
`condition()` and `assignments()` that `compute_constant_parameters` reads. -/
structure summand (V E : Type) where
  condition : E
  assignments : List (data_assignment V E)

/-- Modelled from the spec: a linear process, with the members
`process_parameters()` and `summands()` that `compute_constant_parameters`
reads. -/
structure linear_process (V E : Type) where
  process_parameters : List V
  summands : List (summand V E)

/-- Modelled from the spec: the functions of the data library, declared in the
headers under `mcrl2/old_data`, that `compute_constant_parameters` and
`compute_constant_parameters_subst` call: the constants and operators of
`old_data::data_expr`, those of `old_data::data_expr::optimized`, the
replacement of variables by their values in a map, and the conversion of a
data variable to a data expression. -/
structure old_data (V E : Type) where
  false_ : E
  true_ : E
  not_ : E → E
  or_ : E → E → E
  not_equal_to : E → E → E
  optimized_not_ : E → E
  optimized_or_ : E → E → E
  data_variable_map_replace : E → List (V × E) → E
  data_expression_of : V → E

variable {V E : Type} [DecidableEq V] [DecidableEq E]

/-- A `std::map` from data variables to data expressions is the list of its
entries, with one entry for a key.  The order of the list is the order in which
the keys were first inserted; the order in which the `std::map` iterates bears
only on the list of substitutions handed to the rewriter, which is a parameter
of the model.  This is `find`: the value stored for `k`, if any. -/
def map_find : List (V × E) → V → Option E
  | [], _ => none
  | (k', v) :: m, k => if k' = k then some v else map_find m k

/-- The assignment `m[k] = v` on a `std::map`: the value of an entry that is
there is replaced, a new entry is added otherwise. -/
def map_assign : List (V × E) → V → E → List (V × E)
  | [], k, v => [(k, v)]
  | (k', v') :: m, k, v => if k' = k then (k, v) :: m else (k', v') :: map_assign m k v

/-- The member `erase` of a `std::map`, for a key. -/
def map_erase : List (V × E) → V → List (V × E)
  | [], _ => []
  | (k', v') :: m, k => if k' = k then m else (k', v') :: map_erase m k

/-- The first loop of `compute_constant_parameters`, which stores `f(*j)` for
`*i` with `i` running over the process parameters and `j` over `init`; `f` is
the rewriter `r`, and the identity in `compute_constant_parameters_subst`.
`none` is the read of `*j` past the end of `init`. -/
def initial_replacements (f : E → E) : List V → List E → List (V × E) → Option (List (V × E))
  | [], _, replacements => some replacements
  | _ :: _, [], _ => none
  | i :: is, j :: js, replacements => initial_replacements f is js (map_assign replacements i (f j))

/-- The loop over the assignments of a summand in
`compute_constant_parameters`, with `rc` the rewritten condition; the state is
`replacements` and `has_changed`. -/
def assignments_loop (D : old_data V E) (r : E → E) (rc : E) :
    List (data_assignment V E) → List (V × E) × Bool → List (V × E) × Bool
  | [], state => state
  | j :: js, (replacements, has_changed) =>
    match map_find replacements j.lhs with
    | some k_second =>
      let gj := D.data_variable_map_replace j.rhs replacements
      if r (D.or_ (D.not_ rc) (D.not_equal_to k_second gj)) = D.true_ then
        assignments_loop D r rc js (map_erase replacements j.lhs, true)
      else assignments_loop D r rc js (replacements, has_changed)
    | none => assignments_loop D r rc js (replacements, has_changed)

/-- The loop over the summands in `compute_constant_parameters`, entered with
`has_changed == false` and left at the first summand that sets it. -/
def summands_loop (D : old_data V E) (r : E → E) :
    List (summand V E) → List (V × E) → List (V × E) × Bool
  | [], replacements => (replacements, false)
  | i :: rest, replacements =>
    let rc := r (D.data_variable_map_replace i.condition replacements)
    if rc = D.false_ then summands_loop D r rest replacements
    else
      let state := assignments_loop D r rc i.assignments (replacements, false)
      if state.2 then state else summands_loop D r rest state.1

/-- The loop `do ... while (has_changed == true)` of
`compute_constant_parameters`, its body run at most `fuel` times; `none` when
the loop asks for another round after that. -/
def do_while (D : old_data V E) (r : E → E) (summands : List (summand V E)) :
    Nat → List (V × E) → Option (List (V × E))
  | 0, _ => none
  | fuel + 1, replacements =>
    let state := summands_loop D r summands replacements
    if state.2 then do_while D r summands fuel state.1 else some state.1

/-- Model of `compute_constant_parameters(p, init, r)`, with the body of its
`do ... while` loop run at most `fuel` times. -/
def compute_constant_parameters (D : old_data V E) (r : E → E) (p : linear_process V E)
    (init : List E) (fuel : Nat) : Option (List (V × E)) :=
  match initial_replacements r p.process_parameters init [] with
  | none => none
  | some replacements => do_while D r p.summands fuel replacements

/-- The variables of `compute_constant_parameters_subst`: the map
`replacements`, the list `substitutions` of pairs of a variable and its value,
the keys of `index`, which maps a variable to the place of its substitution in
the list, and `has_changed`. -/
structure subst_state (V E : Type) where
  replacements : List (V × E)
  substitutions : List (V × E)
  index : List V
  has_changed : Bool

/-- The loop over the assignments of a summand in
`compute_constant_parameters_subst`; `r_subst x substitutions` is the call
`r(x, substitutions)` of the rewriter.  Erasing `index[d]` from the list
`substitutions` erases the substitution of `d`. -/
def assignments_loop_subst (D : old_data V E) (r_subst : E → List (V × E) → E) (rc : E) :
    List (data_assignment V E) → subst_state V E → subst_state V E
  | [], state => state
  | j :: js, state =>
    if j.lhs ∈ state.index then
      let d := D.data_expression_of j.lhs
      let g := j.rhs
      let x := D.optimized_or_ (D.optimized_not_ rc) (D.not_equal_to d g)
      if r_subst x state.substitutions = D.true_ then
        assignments_loop_subst D r_subst rc js
          { replacements := map_erase state.replacements j.lhs
            substitutions := map_erase state.substitutions j.lhs
            index := state.index.erase j.lhs
            has_changed := true }
      else assignments_loop_subst D r_subst rc js state
    else assignments_loop_subst D r_subst rc js state

/-- The loop over the summands in `compute_constant_parameters_subst`, entered
with `has_changed == false` and left at the first summand that sets it. -/
def summands_loop_subst (D : old_data V E) (r_subst : E → List (V × E) → E) :
    List (summand V E) → subst_state V E → subst_state V E
  | [], state => state
  | i :: rest, state =>
    let rc := r_subst i.condition state.substitutions
    if rc = D.false_ then summands_loop_subst D r_subst rest state
    else
      let state := assignments_loop_subst D r_subst rc i.assignments state
      if state.has_changed then state else summands_loop_subst D r_subst rest state

/-- The loop `do ... while (has_changed == true)` of
`compute_constant_parameters_subst`, its body run at most `fuel` times. -/
def do_while_subst (D : old_data V E) (r_subst : E → List (V × E) → E)
    (summands : List (summand V E)) : Nat → subst_state V E → Option (subst_state V E)
  | 0, _ => none
  | fuel + 1, state =>
    let state := summands_loop_subst D r_subst summands { state with has_changed := false }
    if state.has_changed then do_while_subst D r_subst summands fuel state else some state

/-- Model of `compute_constant_parameters_subst(p, init, r)`, with the body of
its `do ... while` loop run at most `fuel` times. -/
def compute_constant_parameters_subst (D : old_data V E) (r_subst : E → List (V × E) → E)
    (p : linear_process V E) (init : List E) (fuel : Nat) : Option (List (V × E)) :=
  match initial_replacements (fun e => e) p.process_parameters init [] with
  | none => none
  | some replacements =>
    (do_while_subst D r_subst p.summands fuel
      { replacements := replacements
        substitutions := replacements
        index := replacements.map Prod.fst
        has_changed := false }).map (fun state => state.replacements)

end mcrl2.lps

/-! # Theorems -/

namespace mcrl2.utilities

/-! ## Variable-length integers and strings -/

theorem or_shiftLeft_eq_add (v d n : Nat) (h : v < 2 ^ n) : v ||| (d <<< n) = v + d * 2 ^ n := by
  rw [Nat.shiftLeft_eq, Nat.lor_comm, Nat.mul_comm d, ← Nat.mul_add_lt_is_or h, Nat.add_comm]

theorem and_127 (x : Nat) : x &&& 127 = x % 128 := Nat.and_pow_two_sub_one_eq_mod x 7

theorem and_128_of_lt (x : Nat) (h : x < 128) : x &&& 128 = 0 := by
  apply Nat.eq_of_testBit_eq
  intro j
  rw [Nat.testBit_and, Nat.zero_testBit, show (128 : Nat) = 2 ^ 7 from rfl, Nat.testBit_two_pow]
  by_cases hj : 7 = j
  · subst hj
    rw [Nat.testBit_lt_two_pow (by simpa using h)]
    rfl
  · simp [hj]

theorem add_128_and_128 (x : Nat) (h : x < 128) : (x + 128) &&& 128 = 128 := by
  apply Nat.eq_of_testBit_eq
  intro j
  rw [Nat.testBit_and, show (128 : Nat) = 2 ^ 7 from rfl, Nat.testBit_two_pow]
  by_cases hj : 7 = j
  · subst hj
    rw [Nat.add_comm, Nat.testBit_two_pow_add_eq, Nat.testBit_lt_two_pow (by simpa using h)]
    rfl
  · simp [hj]

theorem or_128_of_lt (x : Nat) (h : x < 128) : x ||| 128 = x + 128 := by
  have := or_shiftLeft_eq_add x 1 7 (by simpa using h)
  simpa using this

theorem varint_bytes_of_le (k : Nat) (h : k ≤ 127) : varint_bytes k = [k] := by
  rw [varint_bytes, if_neg (by omega)]

theorem varint_bytes_of_lt (k : Nat) (h : 127 < k) :
    varint_bytes k = (k % 128 + 128) :: varint_bytes (k / 128) := by
  rw [varint_bytes, if_pos h]

/-- The encoder loop appends the bytes of `varint_bytes value` to the memory,
starting at index `outputSize`, and returns the index after the last one. -/
theorem encode_variablesize_int_loop_eq (value : Nat) :
    ∀ (output : Nat → Nat) (outputSize : Nat),
      (encode_variablesize_int_loop value output outputSize).1
          = outputSize + (varint_bytes value).length
      ∧ (List.range (encode_variablesize_int_loop value output outputSize).1).map
          (encode_variablesize_int_loop value output outputSize).2
          = (List.range outputSize).map output ++ varint_bytes value := by
  induction value using Nat.strong_induction_on with
  | _ value ih =>
    intro output outputSize
    rw [encode_variablesize_int_loop]
    by_cases h : 127 < value
    · have hlt : value >>> 7 < value := by
        simp only [Nat.shiftRight_eq_div_pow]; omega
      have hb : (((value &&& 127) % 256) ||| 128) % 256 = value % 128 + 128 := by
        rw [and_127, Nat.mod_eq_of_lt (by omega : value % 128 < 256),
          or_128_of_lt _ (Nat.mod_lt _ (by decide)), Nat.mod_eq_of_lt (by omega)]
      obtain ⟨e1, e2⟩ := ih _ hlt (Function.update output outputSize (value % 128 + 128))
        (outputSize + 1)
      have hdiv : value >>> 7 = value / 128 := by simp [Nat.shiftRight_eq_div_pow]
      simp only [h, if_true, hb]
      rw [hdiv] at e1 e2 ⊢
      refine ⟨?_, ?_⟩
      · rw [e1, varint_bytes_of_lt value h, List.length_cons]; omega
      · rw [e2, varint_bytes_of_lt value h, List.range_succ, List.map_append]
        simp only [List.map_cons, List.map_nil, Function.update_same, List.append_assoc,
          List.singleton_append]
        congr 1
        apply List.map_congr_left
        intro j hj
        rw [Function.update_noteq]
        have := List.mem_range.mp hj
        omega
    · simp only [h, if_false]
      rw [varint_bytes_of_le value (by omega)]
      refine ⟨rfl, ?_⟩
      rw [List.range_succ, List.map_append]
      simp only [List.map_cons, List.map_nil, Function.update_same]
      rw [Nat.mod_eq_of_lt (by omega)]
      congr 1
      apply List.map_congr_left
      intro j hj
      rw [Function.update_noteq]
      have := List.mem_range.mp hj
      omega

theorem write_integer_stream (s : obitstream) (val : Nat) :
    (s.write_integer val).stream = s.stream ++ varint_bytes val := by
  have h := (encode_variablesize_int_loop_eq val s.integer_buffer 0).2
  simp only [List.range_zero, List.map_nil, List.nil_append] at h
  simp only [obitstream.write_integer, encode_variablesize_int, h]

/-- The decoder loop on the bytes of `varint_bytes k`: they are read up to the
last one and contribute `k`, shifted to position `7 * i`. -/
theorem decode_variablesize_int_loop_varint_bytes (bits_needed : Nat) (hb : 9 ≤ bits_needed)
    (k : Nat) :
    ∀ (i value : Nat) (rest : List Nat), i ≤ 8 → k < 2 ^ (7 * (9 - i)) → value < 2 ^ (7 * i) →
      decode_variablesize_int_loop bits_needed i value (varint_bytes k ++ rest)
        = some (value + k * 2 ^ (7 * i), rest) := by
  induction k using Nat.strong_induction_on with
  | _ k ih =>
    intro i value rest hi hk hv
    have hib : i < bits_needed := by omega
    have hpow : (2 : Nat) ^ (7 * (9 - i)) * 2 ^ (7 * i) = 2 ^ 63 := by
      rw [← Nat.pow_add]; congr 1; omega
    have hfit : ∀ d, d ≤ k → d * 2 ^ (7 * i) < 2 ^ 64 := by
      intro d hd
      have h1 : d * 2 ^ (7 * i) < 2 ^ (7 * (9 - i)) * 2 ^ (7 * i) :=
        Nat.mul_lt_mul_of_lt_of_le (by omega) (le_refl _) (Nat.two_pow_pos _)
      rw [hpow] at h1
      omega
    by_cases h : 127 < k
    · rw [varint_bytes_of_lt k h, List.cons_append, decode_variablesize_int_loop]
      have hand : (k % 128 + 128) &&& 127 = k % 128 := by
        rw [and_127]; omega
      have hflag : (k % 128 + 128) &&& 128 = 128 :=
        add_128_and_128 _ (Nat.mod_lt _ (by decide))
      have hi8 : i ≠ 8 := by
        intro h8
        subst h8
        simp at hk
        omega
      have hshift : ((k % 128) <<< (7 * i)) % 2 ^ 64 = (k % 128) * 2 ^ (7 * i) := by
        rw [Nat.shiftLeft_eq]
        exact Nat.mod_eq_of_lt (hfit _ (Nat.mod_le _ _))
      have hor : value ||| (k % 128) * 2 ^ (7 * i) = value + (k % 128) * 2 ^ (7 * i) := by
        have := or_shiftLeft_eq_add value (k % 128) _ hv
        rwa [Nat.shiftLeft_eq] at this
      simp only [hib, if_true, hand, hflag, hshift, hor, sizeof_size_t, hi8, if_false]
      have hk' : k / 128 < 2 ^ (7 * (9 - (i + 1))) := by
        have : (2 : Nat) ^ (7 * (9 - i)) = 128 * 2 ^ (7 * (9 - (i + 1))) := by
          rw [show (128 : Nat) = 2 ^ 7 from rfl, ← Nat.pow_add]; congr 1; omega
        rw [this] at hk
        exact Nat.div_lt_of_lt_mul hk
      have hv' : value + (k % 128) * 2 ^ (7 * i) < 2 ^ (7 * (i + 1)) := by
        have : (2 : Nat) ^ (7 * (i + 1)) = 128 * 2 ^ (7 * i) := by
          rw [show (128 : Nat) = 2 ^ 7 from rfl, ← Nat.pow_add]; congr 1; omega
        rw [this]
        have h128 : k % 128 < 128 := Nat.mod_lt _ (by decide)
        nlinarith [Nat.two_pow_pos (7 * i)]
      rw [if_neg (by decide), ih (k / 128) (by omega) (i + 1) _ rest (by omega) hk' hv']
      congr 2
      have : (2 : Nat) ^ (7 * (i + 1)) = 128 * 2 ^ (7 * i) := by
        rw [show (128 : Nat) = 2 ^ 7 from rfl, ← Nat.pow_add]; congr 1; omega
      rw [this, Nat.add_assoc, ← Nat.mul_assoc, ← Nat.add_mul]
      congr 2
      omega
    · rw [varint_bytes_of_le k (by omega), List.singleton_append, decode_variablesize_int_loop]
      have hand : k &&& 127 = k := by rw [and_127]; omega
      have hflag : k &&& 128 = 0 := and_128_of_lt k (by omega)
      have hshift : (k <<< (7 * i)) % 2 ^ 64 = k * 2 ^ (7 * i) := by
        rw [Nat.shiftLeft_eq]
        exact Nat.mod_eq_of_lt (hfit _ (le_refl _))
      have hor : value ||| k * 2 ^ (7 * i) = value + k * 2 ^ (7 * i) := by
        have := or_shiftLeft_eq_add value k _ hv
        rwa [Nat.shiftLeft_eq] at this
      simp only [hib, if_true, hand, hflag, hshift, hor]

theorem decode_variablesize_int_varint_bytes (bits_needed : Nat) (hb : 9 ≤ bits_needed)
    (k : Nat) (hk : k < 2 ^ 63) (rest : List Nat) :
    decode_variablesize_int bits_needed (varint_bytes k ++ rest) = some (k, rest) := by
  have := decode_variablesize_int_loop_varint_bytes bits_needed hb k 0 0 rest (by omega)
    (by simpa using hk) (by simp)
  simpa [decode_variablesize_int] using this

theorem size_div_128 (k : Nat) (h : 127 < k) : Nat.size (k / 128) + 7 = Nat.size k := by
  have h7 : 7 < Nat.size k := Nat.lt_size.mpr (by omega)
  apply le_antisymm
  · have : Nat.size (k / 128) ≤ Nat.size k - 7 := by
      rw [Nat.size_le]
      have h1 := Nat.lt_size_self k
      have h2 : (2 : Nat) ^ Nat.size k = 128 * 2 ^ (Nat.size k - 7) := by
        rw [show (128 : Nat) = 2 ^ 7 from rfl, ← Nat.pow_add]; congr 1; omega
      rw [h2] at h1
      exact Nat.div_lt_of_lt_mul h1
    omega
  · rw [Nat.size_le]
    have h1 := Nat.lt_size_self (k / 128)
    have h2 : (2 : Nat) ^ (Nat.size (k / 128) + 7) = 2 ^ Nat.size (k / 128) * 128 := by
      rw [Nat.pow_add]
    rw [h2]
    omega

theorem varint_bytes_length (k : Nat) :
    (varint_bytes k).length = max 1 ((Nat.size k + 6) / 7) := by
  induction k using Nat.strong_induction_on with
  | _ k ih =>
    by_cases h : 127 < k
    · rw [varint_bytes_of_lt k h, List.length_cons, ih (k / 128) (by omega)]
      have := size_div_128 k h
      have h7 : 7 < Nat.size k := Nat.lt_size.mpr (by omega)
      omega
    · rw [varint_bytes_of_le k (by omega), List.length_singleton]
      have : Nat.size k ≤ 7 := Nat.size_le.mpr (by omega)
      omega

theorem varint_bytes_getElem? (k : Nat) :
    ∀ i, i < (varint_bytes k).length →
      (varint_bytes k)[i]? = some (k / 128 ^ i % 128 +
        if i + 1 < (varint_bytes k).length then 128 else 0) := by
  induction k using Nat.strong_induction_on with
  | _ k ih =>
    intro i hi
    by_cases h : 127 < k
    · rw [varint_bytes_of_lt k h] at hi ⊢
      cases i with
      | zero =>
        have : 0 < (varint_bytes (k / 128)).length := by
          rw [varint_bytes_length]; omega
        simp [this]
      | succ j =>
        simp only [List.length_cons, Nat.add_lt_add_iff_right] at hi
        rw [List.getElem?_cons_succ, ih (k / 128) (by omega) j hi]
        simp only [List.length_cons, Nat.add_lt_add_iff_right]
        rw [Nat.div_div_eq_div_mul, Nat.pow_succ, Nat.mul_comm]
    · rw [varint_bytes_of_le k (by omega)] at hi ⊢
      simp only [List.length_singleton] at hi
      have : i = 0 := by omega
      subst this
      simp
      omega

/-- C9: for every `k`, the encoder returns `m = max(1, ceil(bitlength(k) / 7))`
and writes exactly `m` bytes; byte `i` holds `(k >> 7i) & 127` in its low seven
bits, and its bit 7 is set exactly when it is not the last byte.  The encoding
of 300 is `[0xAC, 0x02]`, which decodes to 300 whenever the decoder may read two
bytes. -/
theorem encode_variablesize_int_digits (k : Nat) (output : Nat → Nat) :
    (encode_variablesize_int k output).1 = max 1 ((Nat.size k + 6) / 7)
    ∧ (obitstream.fresh.write_integer k).stream.length = max 1 ((Nat.size k + 6) / 7)
    ∧ (∀ i, i < max 1 ((Nat.size k + 6) / 7) →
        ∃ byte, (obitstream.fresh.write_integer k).stream[i]? = some byte ∧ byte < 256
          ∧ byte &&& 127 = (k >>> (7 * i)) &&& 127
          ∧ byte &&& 128 = if i + 1 < max 1 ((Nat.size k + 6) / 7) then 128 else 0)
    ∧ (obitstream.fresh.write_integer 300).stream = [0xAC, 0x02]
    ∧ (∀ bits_needed, 2 ≤ bits_needed →
        decode_variablesize_int bits_needed [0xAC, 0x02] = some (300, [])) := by
  have hs : ∀ n, (obitstream.fresh.write_integer n).stream = varint_bytes n := by
    intro n
    rw [write_integer_stream]
    rfl
  refine ⟨?_, ?_, ?_, ?_, ?_⟩
  · have := (encode_variablesize_int_loop_eq k output 0).1
    rw [encode_variablesize_int, this, varint_bytes_length]
    omega
  · rw [hs, varint_bytes_length]
  · intro i hi
    rw [hs]
    rw [← varint_bytes_length k] at hi ⊢
    have hd : k / 128 ^ i % 128 < 128 := Nat.mod_lt _ (by decide)
    refine ⟨_, varint_bytes_getElem? k i hi, ?_, ?_, ?_⟩
    · split <;> omega
    · rw [and_127, and_127, Nat.shiftRight_eq_div_pow, Nat.pow_mul]
      split
      · simp
      · simp
    · split
      · exact add_128_and_128 _ hd
      · rw [Nat.add_zero]; exact and_128_of_lt _ hd
  · rw [hs, varint_bytes_of_lt 300 (by decide), varint_bytes_of_le _ (by decide)]
  · intro bits_needed hb
    have h0 : 0 < bits_needed := by omega
    have h1 : 1 < bits_needed := by omega
    have e1 : (172 &&& 128 : Nat) = 128 := by decide
    have e2 : (172 &&& 127 : Nat) = 44 := by decide
    have e3 : (2 &&& 128 : Nat) = 0 := by decide
    have e4 : (2 &&& 127 : Nat) = 2 := by decide
    have e5 : (44 ||| 256 : Nat) = 300 := by decide
    simp [decode_variablesize_int, decode_variablesize_int_loop, h0, h1, sizeof_size_t,
      e1, e2, e3, e4, e5]

theorem varint_bytes_two_pow_63 :
    varint_bytes (2 ^ 63) = [128, 128, 128, 128, 128, 128, 128, 128, 128, 1] := by
  iterate 9 rw [varint_bytes_of_lt _ (by norm_num)]
  rw [varint_bytes_of_le _ (by norm_num)]
  norm_num

/-- C1, failing input: `write_integer(2^63)` puts ten bytes on the sink, nine
of them with the continuation bit set, and `decode_variablesize_int` on these
bytes never returns `2^63`: it throws when it may read nine bytes or more, and
otherwise stops early with the value 0. -/
theorem decode_write_integer_two_pow_63 (bits_needed : Nat) :
    (obitstream.fresh.write_integer (2 ^ 63)).stream
        = [128, 128, 128, 128, 128, 128, 128, 128, 128, 1]
    ∧ (decode_variablesize_int bits_needed
          (obitstream.fresh.write_integer (2 ^ 63)).stream).map Prod.fst
        = if 9 ≤ bits_needed then none else some 0 := by
  have hs : (obitstream.fresh.write_integer (2 ^ 63)).stream
      = [128, 128, 128, 128, 128, 128, 128, 128, 128, 1] := by
    rw [write_integer_stream, varint_bytes_two_pow_63]
    rfl
  refine ⟨hs, ?_⟩
  rw [hs]
  by_cases h : 9 ≤ bits_needed
  · obtain ⟨m, rfl⟩ : ∃ m, bits_needed = m + 9 := ⟨bits_needed - 9, by omega⟩
    simp [decode_variablesize_int, decode_variablesize_int_loop, sizeof_size_t]
  · rw [if_neg h]
    have : bits_needed < 9 := by omega
    interval_cases bits_needed <;>
      simp [decode_variablesize_int, decode_variablesize_int_loop, sizeof_size_t] <;>
      decide

theorem write_string_stream (w : obitstream) (s : List Nat) :
    (w.write_string s).stream = w.stream ++ varint_bytes s.length ++ s := by
  simp only [obitstream.write_string, write_integer_stream]

theorem read_integer_varint_bytes (bits_needed : Nat) (hb : 9 ≤ bits_needed) (k : Nat)
    (hk : k < 2 ^ 63) (rest : List Nat) (r : ibitstream) (hr : r.stream = varint_bytes k ++ rest) :
    r.read_integer bits_needed = some (k, { r with stream := rest }) := by
  simp only [ibitstream.read_integer, hr,
    decode_variablesize_int_varint_bytes bits_needed hb k hk rest]

theorem c_str_append_nul (s t : List Nat) (h : ∀ b ∈ s, b ≠ 0) : c_str (s ++ 0 :: t) = s := by
  induction s with
  | nil => simp [c_str]
  | cons x xs ih =>
    have hx : x ≠ 0 := h x (List.mem_cons_self _ _)
    have := ih (fun b hb => h b (List.mem_cons_of_mem _ hb))
    simpa [c_str, List.takeWhile_cons, hx] using this

theorem set_length_append (s t : List Nat) (x y : Nat) :
    (s ++ x :: t).set s.length y = s ++ y :: t := by
  induction s with
  | nil => rfl
  | cons a s ih => simp only [List.cons_append, List.length_cons, List.set_cons_succ, ih]

theorem set_append_drop (s buf : List Nat) (h : s.length < buf.length) :
    (s ++ buf.drop s.length).set s.length 0 = s ++ 0 :: buf.drop (s.length + 1) := by
  rw [List.drop_eq_getElem_cons h, set_length_append]

/-- What `read_string` does on a source that starts with the bytes written by
`write_string(s)`: the text buffer receives `s` and a terminator, the source is
advanced past the string, and the bit buffer is left alone. -/
theorem read_string_buffer (bits_needed : Nat) (round_up_to_power_of_two : Nat → Nat)
    (s rest : List Nat) (r : ibitstream)
    (hb : 9 ≤ bits_needed) (hr : ∀ n, n ≤ round_up_to_power_of_two n)
    (hlen : s.length < 2 ^ 63)
    (hst : r.stream = varint_bytes s.length ++ (s ++ rest)) :
    ∃ tail, r.read_string bits_needed round_up_to_power_of_two
        = some (c_str (s ++ 0 :: tail),
            { r with stream := rest, m_text_buffer := s ++ 0 :: tail }) := by
  have hint := read_integer_varint_bytes bits_needed hb s.length hlen (s ++ rest) r hst
  have hbuf : s.length < (if r.m_text_buffer.length < s.length + 1 then
      vector_resize r.m_text_buffer (round_up_to_power_of_two (s.length + 1))
      else r.m_text_buffer).length := by
    split
    · have := hr (s.length + 1)
      simp only [vector_resize, List.length_append, List.length_take, List.length_replicate]
      omega
    · omega
  refine ⟨List.drop (s.length + 1) (if r.m_text_buffer.length < s.length + 1 then
      vector_resize r.m_text_buffer (round_up_to_power_of_two (s.length + 1))
      else r.m_text_buffer), ?_⟩
  simp only [ibitstream.read_string, hint]
  rw [show (List.take s.length (s ++ rest)) = s from List.take_left' rfl,
    show (List.drop s.length (s ++ rest)) = rest from List.drop_left' rfl,
    set_append_drop s _ hbuf]

/-- C3, as amended: for every byte string `s` without a NUL byte (of length
below `2^63`, as every `std::string` is), `read_string` on the bytes produced by
`write_string(s)` returns `s` exactly and leaves what follows them unread.  The
decoder may read at least nine bytes and `round_up_to_power_of_two` does not
round down. -/
theorem read_string_write_string (bits_needed : Nat) (round_up_to_power_of_two : Nat → Nat)
    (s rest text_buffer : List Nat)
    (hb : 9 ≤ bits_needed) (hr : ∀ n, n ≤ round_up_to_power_of_two n)
    (hlen : s.length < 2 ^ 63) (hnul : ∀ b ∈ s, b ≠ 0) :
    ((ibitstream.fresh ((obitstream.fresh.write_string s).stream ++ rest)
        text_buffer).read_string bits_needed round_up_to_power_of_two).map
      (fun r => (r.1, r.2.stream)) = some (s, rest) := by
  have hst : (ibitstream.fresh ((obitstream.fresh.write_string s).stream ++ rest)
      text_buffer).stream = varint_bytes s.length ++ (s ++ rest) := by
    simp [ibitstream.fresh, write_string_stream, obitstream.fresh]
  obtain ⟨tail, h1⟩ := read_string_buffer bits_needed round_up_to_power_of_two
    s rest _ hb hr hlen hst
  rw [h1, Option.map_some', c_str_append_nul s tail hnul]

/-- C3, witness: the string `"hi"` with the bytes `[1, 2]` behind it, read by a
decoder that may read ten bytes into an empty text buffer. -/
theorem read_string_write_string_witness :
    ((ibitstream.fresh ((obitstream.fresh.write_string [104, 105]).stream ++ [1, 2])
        []).read_string 10 (fun n => n)).map
      (fun r => (r.1, r.2.stream)) = some ([104, 105], [1, 2]) :=
  read_string_write_string 10 (fun n => n) [104, 105] [1, 2] [] (by decide)
    (fun n => le_refl n) (by decide) (by decide)

/-- C3, counterexample: for the three-byte string `a NUL b`, `write_string`
produces the bytes `[3, 97, 0, 98]`, and the string that `read_string` returns
on them is `a`, not `a NUL b`. -/
theorem read_string_write_string_nul :
    (obitstream.fresh.write_string [97, 0, 98]).stream = [3, 97, 0, 98]
    ∧ ((ibitstream.fresh (obitstream.fresh.write_string [97, 0, 98]).stream
          (List.replicate 128 0)).read_string 10 (fun n => 2 ^ Nat.clog 2 n)).map Prod.fst
        = some [97] := by
  have hs : (obitstream.fresh.write_string [97, 0, 98]).stream = [3, 97, 0, 98] := by
    rw [write_string_stream, List.length, List.length, List.length, List.length,
      varint_bytes_of_le _ (by decide)]
    rfl
  refine ⟨hs, ?_⟩
  rw [hs]
  have e3 : (3 &&& 128 : Nat) = 0 := by decide
  have e4 : (3 &&& 127 : Nat) = 3 := by decide
  simp [ibitstream.read_string, ibitstream.read_integer, ibitstream.fresh,
    decode_variablesize_int, decode_variablesize_int_loop, e3, e4, c_str, List.replicate,
    List.takeWhile]

/-- C2, failing input: `write_bits(1, 64)` on a fresh writer, then `flush`, on
a processor that takes the shift count modulo 64.  The mask
`(1 << 64) - 1` is then 0, the sink receives eight zero bytes, and
`read_bits(64)` on a fresh reader of these bytes returns `true` with the value
0, not 1. -/
theorem read_bits_write_bits_64 :
    ((obitstream.fresh.write_bits shift_count_mod_64 1 64).flush).stream
        = [0, 0, 0, 0, 0, 0, 0, 0]
    ∧ ((ibitstream.fresh ((obitstream.fresh.write_bits shift_count_mod_64 1 64).flush).stream
          []).read_bits 64).map (fun r => (r.1, r.2.1)) = some (true, 0) := by
  decide

/-- C10, failing input: `write_bits(1, 64)` on a fresh writer, on a processor
that takes the shift count modulo 64.  The 64 bits to append are 63 zeros and a
one, so the eight bytes due on the sink are `0, 0, 0, 0, 0, 0, 0, 1`; the sink
receives eight zero bytes, and the buffer is left empty. -/
theorem write_bits_64_sink :
    (obitstream.fresh.write_bits shift_count_mod_64 1 64).stream = [0, 0, 0, 0, 0, 0, 0, 0]
    ∧ (obitstream.fresh.write_bits shift_count_mod_64 1 64).read_write_buffer = 0
    ∧ (obitstream.fresh.write_bits shift_count_mod_64 1 64).bits_in_buffer = 0 := by
  decide

/-! ## The bit buffer -/

theorem size_t_sub_eq (a b : Nat) (hb : b ≤ a) (ha : a < 2 ^ 64) : size_t_sub a b = a - b := by
  unfold size_t_sub
  rw [Nat.mod_eq_of_lt ha, Nat.mod_eq_of_lt (by omega : b < 2 ^ 64)]
  have h : a + (2 ^ 64 - b) = (a - b) + 2 ^ 64 := by omega
  rw [h, Nat.add_mod_right, Nat.mod_eq_of_lt (by omega)]

theorem two_pow_split (a b : Nat) (h : b ≤ a) : (2 : Nat) ^ a = 2 ^ (a - b) * 2 ^ b := by
  rw [← Nat.pow_add]; congr 1; omega

/-- Appending `n` bits `d` below the `b` valid bits `top` of a left-aligned
buffer. -/
theorem or_aligned (top b n d : Nat) (hbn : b + n ≤ 128) (hd : d < 2 ^ n) :
    (top * 2 ^ (128 - b)) ||| bitset_shl d (128 - b - n)
      = (top * 2 ^ n + d) * 2 ^ (128 - (b + n)) := by
  have hsplit : (2 : Nat) ^ (128 - b) = 2 ^ n * 2 ^ (128 - (b + n)) := by
    rw [← Nat.pow_add]; congr 1; omega
  have hlt : d * 2 ^ (128 - (b + n)) < 2 ^ (128 - b) := by
    rw [hsplit]
    exact Nat.mul_lt_mul_of_lt_of_le hd (le_refl _) (Nat.two_pow_pos _)
  have hshl : bitset_shl d (128 - b - n) = d * 2 ^ (128 - (b + n)) := by
    unfold bitset_shl
    have e : 128 - b - n = 128 - (b + n) := by omega
    rw [e]
    by_cases hk : 128 - (b + n) < 128
    · rw [if_pos hk, Nat.shiftLeft_eq]
      apply Nat.mod_eq_of_lt
      calc d * 2 ^ (128 - (b + n)) < 2 ^ (128 - b) := hlt
        _ ≤ 2 ^ 128 := Nat.pow_le_pow_right (by decide) (by omega)
    · have hb0 : b = 0 := by omega
      have hn0 : n = 0 := by omega
      subst hb0 hn0
      have : d = 0 := by simpa using hd
      simp [this]
  rw [hshl, Nat.mul_comm top, ← Nat.mul_add_lt_is_or hlt, hsplit]
  ring

/-- Shifting the top `k` of `b` valid bits out of a left-aligned buffer. -/
theorem shl_aligned (top b k : Nat) (hb : b ≤ 128) (hk : k ≤ b) :
    bitset_shl (top * 2 ^ (128 - b)) k = (top % 2 ^ (b - k)) * 2 ^ (128 - (b - k)) := by
  unfold bitset_shl
  by_cases h : k < 128
  · rw [if_pos h, Nat.shiftLeft_eq]
    have e1 : (2 : Nat) ^ (128 - b) * 2 ^ k = 2 ^ (128 - (b - k)) := by
      rw [← Nat.pow_add]; congr 1; omega
    have e2 : (2 : Nat) ^ (b - k) * 2 ^ (128 - (b - k)) = 2 ^ 128 := by
      rw [← Nat.pow_add]; congr 1; omega
    rw [Nat.mul_assoc, e1]
    conv_lhs => rw [← Nat.div_add_mod top (2 ^ (b - k))]
    rw [Nat.add_mul, Nat.mul_comm (2 ^ (b - k)), Nat.mul_assoc, e2, Nat.add_comm,
      Nat.add_mul_mod_self_right]
    apply Nat.mod_eq_of_lt
    rw [← e2]
    exact Nat.mul_lt_mul_of_lt_of_le (Nat.mod_lt _ (Nat.two_pow_pos _)) (le_refl _)
      (Nat.two_pow_pos _)
  · have hk128 : k = 128 := by omega
    have hb128 : b = 128 := by omega
    subst hk128 hb128
    simp [Nat.mod_one]

/-- Reading the top `k` of `b` valid bits of a left-aligned buffer. -/
theorem shr_aligned (top b k : Nat) (hb : b ≤ 128) (hk : k ≤ b) (ht : top < 2 ^ b) :
    bitset_shr (top * 2 ^ (128 - b)) (128 - k) = top / 2 ^ (b - k) := by
  unfold bitset_shr
  by_cases h : 128 - k < 128
  · rw [if_pos h, Nat.shiftRight_eq_div_pow]
    have e1 : (2 : Nat) ^ (128 - k) = 2 ^ (b - k) * 2 ^ (128 - b) := by
      rw [← Nat.pow_add]; congr 1; omega
    rw [e1, Nat.mul_div_mul_right _ _ (Nat.two_pow_pos _)]
  · have hk0 : k = 0 := by omega
    subst hk0
    rw [if_neg h, Nat.sub_zero, Nat.div_eq_of_lt ht]

/-- The upper half of a left-aligned buffer that holds fewer than 64 bits. -/
theorem shr_aligned_64 (top b : Nat) (hb : b ≤ 64) :
    bitset_shr (top * 2 ^ (128 - b)) 64 = top * 2 ^ (64 - b) := by
  unfold bitset_shr
  rw [if_pos (by decide), Nat.shiftRight_eq_div_pow]
  have e1 : (2 : Nat) ^ (128 - b) = 2 ^ (64 - b) * 2 ^ 64 := by
    rw [← Nat.pow_add]; congr 1; omega
  rw [e1, ← Nat.mul_assoc, Nat.mul_div_cancel _ (Nat.two_pow_pos _)]

theorem mask_of_lt (shift_overflow : Nat → Nat → Nat) (n : Nat) (hn : n < 64) :
    size_t_sub (size_t_shl shift_overflow 1 n) 1 = 2 ^ n - 1 := by
  have h1 : size_t_shl shift_overflow 1 n = 2 ^ n := by
    unfold size_t_shl
    rw [if_pos hn, Nat.shiftLeft_eq, Nat.one_mul]
    exact Nat.mod_eq_of_lt (Nat.pow_lt_pow_right (by decide) hn)
  rw [h1]
  exact size_t_sub_eq _ _ (Nat.one_le_two_pow) (Nat.pow_lt_pow_right (by decide) hn)

theorem mask_of_shift_out (shift_overflow : Nat → Nat → Nat)
    (h : shift_overflow 1 64 % 2 ^ 64 = 0) :
    size_t_sub (size_t_shl shift_overflow 1 64) 1 = 2 ^ 64 - 1 := by
  unfold size_t_shl
  rw [if_neg (by decide), h]
  decide

theorem be_value_append_singleton (l : List Nat) (b : Nat) :
    be_value (l ++ [b]) = be_value l * 256 + b := by
  simp [be_value, List.foldl_append]

theorem be_value_foldl (l : List Nat) (a : Nat) :
    l.foldl (fun acc b => acc * 256 + b) a = a * 256 ^ l.length + be_value l := by
  induction l generalizing a with
  | nil => simp [be_value]
  | cons x xs ih =>
    simp only [List.foldl_cons, List.length_cons, be_value]
    rw [ih (a * 256 + x), ih (0 * 256 + x)]
    ring

theorem be_value_append (l m : List Nat) :
    be_value (l ++ m) = be_value l * 256 ^ m.length + be_value m := by
  rw [be_value, List.foldl_append, be_value_foldl]
  rfl

theorem be_value_cons (b : Nat) (l : List Nat) :
    be_value (b :: l) = b * 256 ^ l.length + be_value l := by
  have := be_value_append [b] l
  simpa [be_value] using this

theorem be_value_lt (l : List Nat) (h : ∀ b ∈ l, b < 256) : be_value l < 256 ^ l.length := by
  induction l using List.reverseRecOn with
  | nil => simp [be_value]
  | append_singleton xs x ih =>
    rw [be_value_append_singleton, List.length_append, List.length_singleton, Nat.pow_succ]
    have h1 := ih (fun b hb => h b (List.mem_append_left _ hb))
    have h2 := h x (List.mem_append_right _ (List.mem_singleton_self x))
    omega

theorem and_255 (x : Nat) : x &&& 255 = x % 256 := Nat.and_pow_two_sub_one_eq_mod x 8

/-- The eight bytes that `write_bits` puts on the sink write `x` in base 256. -/
theorem be_value_put8 (x : Nat) (hx : x < 2 ^ 64) :
    be_value ([7, 6, 5, 4, 3, 2, 1, 0].map (fun i => (x >>> (8 * i)) &&& 255)) = x := by
  simp only [be_value, List.map_cons, List.map_nil, List.foldl_cons, List.foldl_nil, and_255,
    Nat.shiftRight_eq_div_pow]
  norm_num
  omega

theorem fresh_aligned : obitstream.fresh.aligned 0 := by
  refine ⟨by decide, by decide, by decide, ?_, ?_⟩
  · intro b hb; simp [obitstream.fresh] at hb
  · simp [obitstream.fresh]

/-- One `write_bits` call whose mask is computed as intended appends the `n`
low bits of `val` to the bit string that the sink and the buffer carry. -/
theorem write_bits_aligned (shift_overflow : Nat → Nat → Nat) (s : obitstream)
    (top val n : Nat) (h : s.aligned top) (hn : n ≤ 64)
    (hm : size_t_sub (size_t_shl shift_overflow 1 n) 1 = 2 ^ n - 1) :
    ∃ top', (s.write_bits shift_overflow val n).aligned top'
      ∧ be_value (s.write_bits shift_overflow val n).stream
            * 2 ^ (s.write_bits shift_overflow val n).bits_in_buffer + top'
          = (be_value s.stream * 2 ^ s.bits_in_buffer + top) * 2 ^ n + val % 2 ^ n
      ∧ 8 * (s.write_bits shift_overflow val n).stream.length
            + (s.write_bits shift_overflow val n).bits_in_buffer
          = 8 * s.stream.length + s.bits_in_buffer + n := by
  obtain ⟨hb, ht, hbuf, hbytes, hdvd⟩ := h
  have hd : val % 2 ^ n < 2 ^ n := Nat.mod_lt _ (Nat.two_pow_pos _)
  have hsh : size_t_sub (size_t_sub 128 s.bits_in_buffer) n = 128 - s.bits_in_buffer - n := by
    rw [size_t_sub_eq 128 _ (by omega) (by decide), size_t_sub_eq _ _ (by omega) (by omega)]
  have hor := or_aligned top s.bits_in_buffer n (val % 2 ^ n) (by omega) hd
  have ht1 : top * 2 ^ n + val % 2 ^ n < 2 ^ (s.bits_in_buffer + n) := by
    rw [Nat.pow_add]
    have : (top + 1) * 2 ^ n ≤ 2 ^ s.bits_in_buffer * 2 ^ n :=
      Nat.mul_le_mul_right _ ht
    rw [Nat.add_mul] at this
    omega
  unfold obitstream.write_bits
  simp only [hm, Nat.and_pow_two_sub_one_eq_mod, hsh, hbuf, hor]
  clear hor hsh hm hbuf
  by_cases h64 : 64 ≤ s.bits_in_buffer + n
  · simp only [h64, if_true]
    have hwv := shr_aligned (top * 2 ^ n + val % 2 ^ n) (s.bits_in_buffer + n) 64
      (by omega) h64 ht1
    have hshl := shl_aligned (top * 2 ^ n + val % 2 ^ n) (s.bits_in_buffer + n) 64
      (by omega) h64
    rw [show (128 : Nat) - 64 = 64 from rfl] at hwv
    rw [hwv, hshl]
    clear hwv hshl
    have hwvlt : (top * 2 ^ n + val % 2 ^ n) / 2 ^ (s.bits_in_buffer + n - 64) < 2 ^ 64 := by
      apply Nat.div_lt_of_lt_mul
      rw [← Nat.pow_add]
      have : s.bits_in_buffer + n - 64 + 64 = s.bits_in_buffer + n := by omega
      rw [this]
      exact ht1
    refine ⟨(top * 2 ^ n + val % 2 ^ n) % 2 ^ (s.bits_in_buffer + n - 64),
      ⟨by simp only; omega, Nat.mod_lt _ (Nat.two_pow_pos _), rfl, ?_, ?_⟩, ?_, ?_⟩
    · intro b hb'
      simp only [List.mem_append, List.mem_map] at hb'
      rcases hb' with hb' | ⟨i, _, rfl⟩
      · exact hbytes b hb'
      · rw [and_255]; exact Nat.mod_lt _ (by decide)
    · simp only [List.length_append, List.length_map, List.length_cons, List.length_nil]
      omega
    · rw [be_value_append, be_value_put8 _ hwvlt]
      simp only [List.length_map, List.length_cons, List.length_nil]
      have e1 : (2 : Nat) ^ s.bits_in_buffer * 2 ^ n
          = 256 ^ 8 * 2 ^ (s.bits_in_buffer + n - 64) := by
        rw [show (256 : Nat) ^ 8 = 2 ^ 64 from by norm_num, ← Nat.pow_add, ← Nat.pow_add]
        congr 1; omega
      have e2 := Nat.div_add_mod (top * 2 ^ n + val % 2 ^ n) (2 ^ (s.bits_in_buffer + n - 64))
      calc (be_value s.stream * 256 ^ (0 + 1 + 1 + 1 + 1 + 1 + 1 + 1 + 1)
              + (top * 2 ^ n + val % 2 ^ n) / 2 ^ (s.bits_in_buffer + n - 64))
              * 2 ^ (s.bits_in_buffer + n - 64)
            + (top * 2 ^ n + val % 2 ^ n) % 2 ^ (s.bits_in_buffer + n - 64)
          = be_value s.stream * (256 ^ 8 * 2 ^ (s.bits_in_buffer + n - 64))
            + (2 ^ (s.bits_in_buffer + n - 64)
                * ((top * 2 ^ n + val % 2 ^ n) / 2 ^ (s.bits_in_buffer + n - 64))
              + (top * 2 ^ n + val % 2 ^ n) % 2 ^ (s.bits_in_buffer + n - 64)) := by ring
        _ = be_value s.stream * (2 ^ s.bits_in_buffer * 2 ^ n)
            + (top * 2 ^ n + val % 2 ^ n) := by rw [e2, e1]
        _ = (be_value s.stream * 2 ^ s.bits_in_buffer + top) * 2 ^ n + val % 2 ^ n := by ring
    · simp only [List.length_append, List.length_map, List.length_cons, List.length_nil]
      omega
  · simp only [h64, if_false]
    refine ⟨top * 2 ^ n + val % 2 ^ n, ⟨by simp only; omega, ht1, rfl, hbytes, hdvd⟩, ?_, ?_⟩
    · rw [Nat.pow_add]
      ring
    · omega

theorem bits_concat_lt (pairs : List (Nat × Nat)) :
    (bits_concat pairs).1 < 2 ^ (bits_concat pairs).2 := by
  induction pairs with
  | nil => simp [bits_concat]
  | cons p rest ih =>
    obtain ⟨v, n⟩ := p
    simp only [bits_concat]
    rw [Nat.pow_add]
    have h1 : v % 2 ^ n < 2 ^ n := Nat.mod_lt _ (Nat.two_pow_pos _)
    have h2 : (v % 2 ^ n + 1) * 2 ^ (bits_concat rest).2 ≤ 2 ^ n * 2 ^ (bits_concat rest).2 :=
      Nat.mul_le_mul_right _ h1
    rw [Nat.add_mul] at h2
    omega

/-- A sequence of `write_bits` calls whose masks are computed as intended
appends the concatenated bit string to what the sink and the buffer carry. -/
theorem write_bits_list_aligned (shift_overflow : Nat → Nat → Nat)
    (pairs : List (Nat × Nat))
    (hp : ∀ p ∈ pairs, p.2 ≤ 64 ∧ size_t_sub (size_t_shl shift_overflow 1 p.2) 1 = 2 ^ p.2 - 1) :
    ∀ (s : obitstream) (top : Nat), s.aligned top →
      ∃ top', (s.write_bits_list shift_overflow pairs).aligned top'
        ∧ be_value (s.write_bits_list shift_overflow pairs).stream
              * 2 ^ (s.write_bits_list shift_overflow pairs).bits_in_buffer + top'
            = (be_value s.stream * 2 ^ s.bits_in_buffer + top) * 2 ^ (bits_concat pairs).2
                + (bits_concat pairs).1
        ∧ 8 * (s.write_bits_list shift_overflow pairs).stream.length
              + (s.write_bits_list shift_overflow pairs).bits_in_buffer
            = 8 * s.stream.length + s.bits_in_buffer + (bits_concat pairs).2 := by
  induction pairs with
  | nil =>
    intro s top h
    exact ⟨top, h, by simp [obitstream.write_bits_list, bits_concat],
      by simp [obitstream.write_bits_list, bits_concat]⟩
  | cons p rest ih =>
    intro s top h
    obtain ⟨v, n⟩ := p
    obtain ⟨hn, hm⟩ := hp (v, n) (List.mem_cons_self _ _)
    obtain ⟨top1, h1, e1, l1⟩ := write_bits_aligned shift_overflow s top v n h hn hm
    obtain ⟨top2, h2, e2, l2⟩ := ih (fun q hq => hp q (List.mem_cons_of_mem _ hq)) _ top1 h1
    have hfold : s.write_bits_list shift_overflow ((v, n) :: rest)
        = (s.write_bits shift_overflow v n).write_bits_list shift_overflow rest := rfl
    rw [hfold]
    refine ⟨top2, h2, ?_, ?_⟩
    · rw [e2, e1]
      simp only [bits_concat]
      rw [Nat.pow_add]
      ring
    · rw [l2, l1]
      simp only [bits_concat]
      omega

/-- The bytes that `flush` emits for `c + 1` bytes' worth of buffered bits are
the top `c + 1` bytes of the 64-bit word. -/
theorem flush_bytes (wv c : Nat) (hwv : wv < 2 ^ 64) (hc : c ≤ 7) :
    be_value (([8, 7, 6, 5, 4, 3, 2, 1].takeWhile (fun i => decide (7 - c < i))).map
        (fun i => (wv >>> (8 * (i - 1))) &&& 255)) = wv / 2 ^ (8 * (7 - c))
    ∧ (([8, 7, 6, 5, 4, 3, 2, 1].takeWhile (fun i => decide (7 - c < i))).map
        (fun i => (wv >>> (8 * (i - 1))) &&& 255)).length = c + 1
    ∧ ∀ b ∈ (([8, 7, 6, 5, 4, 3, 2, 1].takeWhile (fun i => decide (7 - c < i))).map
        (fun i => (wv >>> (8 * (i - 1))) &&& 255)), b < 256 := by
  refine ⟨?_, ?_, ?_⟩
  · interval_cases c <;>
      simp [List.takeWhile, be_value, and_255, Nat.shiftRight_eq_div_pow] <;> omega
  · interval_cases c <;> simp [List.takeWhile]
  · intro b hb
    simp only [List.mem_map] at hb
    obtain ⟨i, _, rfl⟩ := hb
    rw [and_255]
    exact Nat.mod_lt _ (by decide)

/-- After `flush` the sink carries the bit string of the writer, padded with
`pad` zero bits to whole bytes. -/
theorem flush_aligned (s : obitstream) (top : Nat) (h : s.aligned top) :
    ∃ pad, be_value s.flush.stream = (be_value s.stream * 2 ^ s.bits_in_buffer + top) * 2 ^ pad
      ∧ 8 * s.flush.stream.length = 8 * s.stream.length + s.bits_in_buffer + pad
      ∧ (∀ b ∈ s.flush.stream, b < 256)
      ∧ s.flush.read_write_buffer = 0 ∧ s.flush.bits_in_buffer = 0 := by
  obtain ⟨hb, ht, hbuf, hbytes, _⟩ := h
  unfold obitstream.flush
  by_cases h0 : 0 < s.bits_in_buffer
  · simp only [h0, if_true]
    have hc : s.bits_in_buffer / 8 ≤ 7 := by omega
    have hbound : (7 + (2 ^ 32 - s.bits_in_buffer / 8 % 2 ^ 32)) % 2 ^ 32
        = 7 - s.bits_in_buffer / 8 := by omega
    have hwv : bitset_shr s.read_write_buffer 64 = top * 2 ^ (64 - s.bits_in_buffer) := by
      rw [hbuf]; exact shr_aligned_64 top _ (by omega)
    have hwvlt : top * 2 ^ (64 - s.bits_in_buffer) < 2 ^ 64 := by
      rw [two_pow_split 64 (64 - s.bits_in_buffer) (by omega)]
      have : 64 - (64 - s.bits_in_buffer) = s.bits_in_buffer := by omega
      rw [this]
      exact Nat.mul_lt_mul_of_lt_of_le ht (le_refl _) (Nat.two_pow_pos _)
    rw [hbound, hwv]
    obtain ⟨f1, f2, f3⟩ := flush_bytes _ (s.bits_in_buffer / 8) hwvlt hc
    refine ⟨8 * (s.bits_in_buffer / 8 + 1) - s.bits_in_buffer, ?_, ?_, ?_, trivial, trivial⟩
    · rw [be_value_append, f1, f2]
      have e1 : (2 : Nat) ^ (64 - s.bits_in_buffer)
          = 2 ^ (8 * (s.bits_in_buffer / 8 + 1) - s.bits_in_buffer)
            * 2 ^ (8 * (7 - s.bits_in_buffer / 8)) := by
        rw [← Nat.pow_add]; congr 1; omega
      have e2 : (256 : Nat) ^ (s.bits_in_buffer / 8 + 1)
          = 2 ^ s.bits_in_buffer * 2 ^ (8 * (s.bits_in_buffer / 8 + 1) - s.bits_in_buffer) := by
        rw [show (256 : Nat) = 2 ^ 8 from rfl, ← Nat.pow_mul, ← Nat.pow_add]; congr 1; omega
      rw [e1, ← Nat.mul_assoc, Nat.mul_div_cancel _ (Nat.two_pow_pos _), e2]
      ring
    · rw [List.length_append, f2]
      omega
    · intro b hb'
      rcases List.mem_append.mp hb' with hb' | hb'
      · exact hbytes b hb'
      · exact f3 b hb'
  · have hz : s.bits_in_buffer = 0 := by omega
    have htop : top = 0 := by rw [hz] at ht; simpa using ht
    simp only [h0, if_false]
    refine ⟨0, ?_, by omega, hbytes, ?_, hz⟩
    · rw [hz, htop]; simp
    · rw [hbuf, htop]; simp

/-- The loading loop of `read_bits` keeps the bit string that the buffer and
the source carry, and ends with at least `n` bits in the buffer when the
string is that long. -/
theorem read_bits_loop_aligned (n : Nat) (hn : n ≤ 64) :
    ∀ (stream : List Nat) (top bib : Nat), top < 2 ^ bib → (∀ b ∈ stream, b < 256) →
      n ≤ bib + 8 * stream.length → bib ≤ 128 →
      ∃ stream' top' bib',
        read_bits_loop n stream (top * 2 ^ (128 - bib)) bib
            = (true, stream', top' * 2 ^ (128 - bib'), bib')
        ∧ top' < 2 ^ bib' ∧ n ≤ bib' ∧ bib' ≤ 128 ∧ (∀ b ∈ stream', b < 256)
        ∧ top' * 256 ^ stream'.length + be_value stream'
            = top * 256 ^ stream.length + be_value stream
        ∧ bib' + 8 * stream'.length = bib + 8 * stream.length
        ∧ (bib' < n + 8 ∨ bib' = bib) := by
  intro stream
  induction stream with
  | nil =>
    intro top bib ht _ hlen hb
    refine ⟨[], top, bib, ?_, ht, by simpa using hlen, hb, by simp, rfl, rfl, Or.inr rfl⟩
    have : ¬ bib < n := by simpa using hlen
    simp [read_bits_loop, this]
  | cons byte rest ih =>
    intro top bib ht hbytes hlen hb
    by_cases hlt : bib < n
    · have hbyte : byte < 2 ^ 8 := hbytes byte (List.mem_cons_self _ _)
      have hsh : size_t_sub (56 + 64) bib = 128 - bib - 8 := by
        rw [size_t_sub_eq _ _ (by omega) (by decide)]; omega
      have hor := or_aligned top bib 8 byte (by omega) hbyte
      have ht' : top * 2 ^ 8 + byte < 2 ^ (bib + 8) := by
        rw [Nat.pow_add]
        have : (top + 1) * 2 ^ 8 ≤ 2 ^ bib * 2 ^ 8 := Nat.mul_le_mul_right _ ht
        omega
      obtain ⟨stream', top', bib', e, h1, h2, h3, h4, h5, h6, h7⟩ :=
        ih (top * 2 ^ 8 + byte) (bib + 8) ht'
          (fun b hb' => hbytes b (List.mem_cons_of_mem _ hb'))
          (by simp only [List.length_cons] at hlen; omega) (by omega)
      refine ⟨stream', top', bib', ?_, h1, h2, h3, h4, ?_, ?_, ?_⟩
      · rw [read_bits_loop, if_pos hlt, hsh, hor, e]
      · rw [h5, be_value_cons, List.length_cons, Nat.pow_succ]
        ring
      · rw [h6, List.length_cons]; omega
      · rcases h7 with h7 | h7
        · exact Or.inl h7
        · exact Or.inl (by omega)
    · refine ⟨byte :: rest, top, bib, ?_, ht, by omega, hb, hbytes, rfl, rfl, Or.inr rfl⟩
      rw [read_bits_loop, if_neg hlt]

/-- One successful `read_bits` call takes the first `n` bits off the bit string
that the buffer and the source carry. -/
theorem read_bits_aligned (r : ibitstream) (top n : Nat) (h : r.aligned top) (hn : n ≤ 64)
    (hlen : n ≤ r.bits_in_buffer + 8 * r.stream.length) :
    ∃ r' top', r.read_bits n
        = some (true, (top * 256 ^ r.stream.length + be_value r.stream)
            / 2 ^ (r.bits_in_buffer + 8 * r.stream.length - n), r')
      ∧ r'.aligned top'
      ∧ top' * 256 ^ r'.stream.length + be_value r'.stream
          = (top * 256 ^ r.stream.length + be_value r.stream)
            % 2 ^ (r.bits_in_buffer + 8 * r.stream.length - n)
      ∧ r'.bits_in_buffer + 8 * r'.stream.length = r.bits_in_buffer + 8 * r.stream.length - n
      ∧ (r.bits_in_buffer ≤ 7 → r'.bits_in_buffer ≤ 7)
      ∧ r'.m_text_buffer = r.m_text_buffer := by
  obtain ⟨hb, ht, hbuf, hbytes⟩ := h
  obtain ⟨stream', top', bib', e, h1, h2, h3, h4, h5, h6, h7⟩ :=
    read_bits_loop_aligned n hn r.stream top r.bits_in_buffer ht hbytes hlen hb
  have hbe : be_value stream' < 256 ^ stream'.length := be_value_lt _ h4
  have h256 : (256 : Nat) ^ stream'.length = 2 ^ (8 * stream'.length) := by
    rw [show (256 : Nat) = 2 ^ 8 from rfl, ← Nat.pow_mul]
  have hexp : r.bits_in_buffer + 8 * r.stream.length - n
      = (bib' - n) + 8 * stream'.length := by omega
  have hval : (top * 256 ^ r.stream.length + be_value r.stream)
      / 2 ^ (r.bits_in_buffer + 8 * r.stream.length - n) = top' / 2 ^ (bib' - n) := by
    rw [← h5, hexp, Nat.pow_add, Nat.mul_comm (2 ^ (bib' - n)), ← Nat.div_div_eq_div_mul,
      ← h256, Nat.mul_comm top', Nat.mul_add_div (by positivity),
      Nat.div_eq_of_lt hbe, Nat.add_zero]
  have hmod : (top * 256 ^ r.stream.length + be_value r.stream)
      % 2 ^ (r.bits_in_buffer + 8 * r.stream.length - n)
      = (top' % 2 ^ (bib' - n)) * 256 ^ stream'.length + be_value stream' := by
    rw [← h5, hexp, Nat.pow_add, ← h256]
    have hsmall : top' % 2 ^ (bib' - n) * 256 ^ stream'.length + be_value stream'
        < 2 ^ (bib' - n) * 256 ^ stream'.length := by
      have h' : top' % 2 ^ (bib' - n) < 2 ^ (bib' - n) := Nat.mod_lt _ (Nat.two_pow_pos _)
      have : (top' % 2 ^ (bib' - n) + 1) * 256 ^ stream'.length
          ≤ 2 ^ (bib' - n) * 256 ^ stream'.length := Nat.mul_le_mul_right _ h'
      rw [Nat.add_mul] at this
      omega
    conv_lhs => rw [← Nat.div_add_mod top' (2 ^ (bib' - n))]
    have : (2 ^ (bib' - n) * (top' / 2 ^ (bib' - n)) + top' % 2 ^ (bib' - n))
          * 256 ^ stream'.length + be_value stream'
        = (top' % 2 ^ (bib' - n) * 256 ^ stream'.length + be_value stream')
          + 2 ^ (bib' - n) * 256 ^ stream'.length * (top' / 2 ^ (bib' - n)) := by ring
    rw [this, Nat.add_mul_mod_self_left, Nat.mod_eq_of_lt hsmall]
  have hshr := shr_aligned top' bib' n h3 h2 h1
  have hshl := shl_aligned top' bib' n h3 h2
  have hsub : size_t_sub 128 n = 128 - n := size_t_sub_eq _ _ (by omega) (by decide)
  refine ⟨{ r with stream := stream'
                   read_write_buffer := (top' % 2 ^ (bib' - n)) * 2 ^ (128 - (bib' - n))
                   bits_in_buffer := bib' - n }, top' % 2 ^ (bib' - n), ?_, ?_, ?_, ?_, ?_, rfl⟩
  · unfold ibitstream.read_bits
    rw [if_pos hn, hbuf, e]
    simp only [hsub, hshr, hshl, hval]
  · exact ⟨by simp only; omega, Nat.mod_lt _ (Nat.two_pow_pos _), rfl, h4⟩
  · exact hmod.symm
  · simp only; omega
  · intro h7'
    simp only
    omega

/-- Reading the widths of `pairs` off a reader that carries their bit string,
followed by `pad` more bits, returns the masked values. -/
theorem read_bits_list_aligned (pairs : List (Nat × Nat)) (hp : ∀ p ∈ pairs, p.2 ≤ 64)
    (pad : Nat) :
    ∀ (r : ibitstream) (top : Nat), r.aligned top →
      top * 256 ^ r.stream.length + be_value r.stream = (bits_concat pairs).1 * 2 ^ pad →
      r.bits_in_buffer + 8 * r.stream.length = (bits_concat pairs).2 + pad →
      r.read_bits_list (pairs.map Prod.snd)
        = pairs.map (fun p => some (true, p.1 % 2 ^ p.2)) := by
  induction pairs with
  | nil => intro r top _ _ _; rfl
  | cons p rest ih =>
    intro r top h hv hl
    obtain ⟨v, n⟩ := p
    have hn : n ≤ 64 := hp (v, n) (List.mem_cons_self _ _)
    simp only [bits_concat] at hv hl
    obtain ⟨r', top', e, h', hv', hl', _⟩ := read_bits_aligned r top n h hn (by omega)
    have hexp : r.bits_in_buffer + 8 * r.stream.length - n = (bits_concat rest).2 + pad := by
      omega
    have hlt : (bits_concat rest).1 * 2 ^ pad < 2 ^ ((bits_concat rest).2 + pad) := by
      rw [Nat.pow_add]
      exact Nat.mul_lt_mul_of_lt_of_le (bits_concat_lt rest) (le_refl _) (Nat.two_pow_pos _)
    have hsplit : (v % 2 ^ n * 2 ^ (bits_concat rest).2 + (bits_concat rest).1) * 2 ^ pad
        = (bits_concat rest).1 * 2 ^ pad + 2 ^ ((bits_concat rest).2 + pad) * (v % 2 ^ n) := by
      rw [Nat.pow_add]; ring
    rw [hv, hexp, hsplit] at e hv'
    rw [Nat.add_mul_div_left _ _ (Nat.two_pow_pos _), Nat.div_eq_of_lt hlt, Nat.zero_add] at e
    rw [Nat.add_mul_mod_self_left, Nat.mod_eq_of_lt hlt] at hv'
    rw [hexp] at hl'
    simp only [List.map_cons, ibitstream.read_bits_list, e]
    rw [ih (fun q hq => hp q (List.mem_cons_of_mem _ hq)) r' top' h' hv' hl']

/-- Round trip of bit fields whose masks are computed as intended: every width
is at most 63, or it is 64 and the out-of-range shift `1 << 64` yields 0. -/
theorem read_bits_list_write_bits_list (shift_overflow : Nat → Nat → Nat)
    (pairs : List (Nat × Nat)) (text_buffer : List Nat)
    (hp : ∀ p ∈ pairs, p.2 ≤ 63 ∨ (p.2 = 64 ∧ shift_overflow 1 64 % 2 ^ 64 = 0)) :
    (ibitstream.fresh (obitstream.fresh.write_bits_list shift_overflow pairs).flush.stream
        text_buffer).read_bits_list (pairs.map Prod.snd)
      = pairs.map (fun p => some (true, p.1 % 2 ^ p.2)) := by
  have hp' : ∀ p ∈ pairs, p.2 ≤ 64
      ∧ size_t_sub (size_t_shl shift_overflow 1 p.2) 1 = 2 ^ p.2 - 1 := by
    intro p hmem
    rcases hp p hmem with h | ⟨h, h0⟩
    · exact ⟨by omega, mask_of_lt _ _ (by omega)⟩
    · rw [h]; exact ⟨le_refl _, mask_of_shift_out _ h0⟩
  obtain ⟨top, hw, ev, el⟩ := write_bits_list_aligned shift_overflow pairs hp' _ 0 fresh_aligned
  obtain ⟨pad, fv, fl, fb, _⟩ := flush_aligned _ top hw
  have hz : be_value obitstream.fresh.stream * 2 ^ obitstream.fresh.bits_in_buffer + 0 = 0 := by
    simp [obitstream.fresh, be_value]
  have hz' : 8 * obitstream.fresh.stream.length + obitstream.fresh.bits_in_buffer = 0 := by
    simp [obitstream.fresh]
  rw [hz, Nat.zero_mul, Nat.zero_add] at ev
  rw [hz', Nat.zero_add] at el
  rw [ev] at fv
  rw [el] at fl
  apply read_bits_list_aligned pairs (fun p hmem => (hp' p hmem).1) pad _ 0
  · exact ⟨by simp [ibitstream.fresh], by simp [ibitstream.fresh], by simp [ibitstream.fresh],
      fb⟩
  · simp only [ibitstream.fresh, Nat.zero_mul, Nat.zero_add]
    exact fv
  · simp only [ibitstream.fresh, Nat.zero_add]
    exact fl

/-- Layout of the sink and the buffer after a sequence of `write_bits` calls on
a fresh writer whose masks are computed as intended, with `S` the concatenated
bit string and `N` its length: the sink holds `8 * floor(N / 64)` bytes, which
write the first `64 * floor(N / 64)` bits of `S` in base 256, and the buffer
holds the remaining `N mod 64` bits left-aligned. -/
theorem write_bits_list_layout (shift_overflow : Nat → Nat → Nat)
    (pairs : List (Nat × Nat))
    (hp : ∀ p ∈ pairs, p.2 ≤ 63 ∨ (p.2 = 64 ∧ shift_overflow 1 64 % 2 ^ 64 = 0)) :
    (obitstream.fresh.write_bits_list shift_overflow pairs).stream.length
        = 8 * ((bits_concat pairs).2 / 64)
    ∧ (∀ b ∈ (obitstream.fresh.write_bits_list shift_overflow pairs).stream, b < 256)
    ∧ be_value (obitstream.fresh.write_bits_list shift_overflow pairs).stream
        = (bits_concat pairs).1 / 2 ^ ((bits_concat pairs).2 % 64)
    ∧ (obitstream.fresh.write_bits_list shift_overflow pairs).bits_in_buffer
        = (bits_concat pairs).2 % 64
    ∧ (obitstream.fresh.write_bits_list shift_overflow pairs).read_write_buffer
        = ((bits_concat pairs).1 % 2 ^ ((bits_concat pairs).2 % 64))
          * 2 ^ (128 - (bits_concat pairs).2 % 64) := by
  have hp' : ∀ p ∈ pairs, p.2 ≤ 64
      ∧ size_t_sub (size_t_shl shift_overflow 1 p.2) 1 = 2 ^ p.2 - 1 := by
    intro p hmem
    rcases hp p hmem with h | ⟨h, h0⟩
    · exact ⟨by omega, mask_of_lt _ _ (by omega)⟩
    · rw [h]; exact ⟨le_refl _, mask_of_shift_out _ h0⟩
  obtain ⟨top, ⟨hb, ht, hbuf, hbytes, hdvd⟩, ev, el⟩ :=
    write_bits_list_aligned shift_overflow pairs hp' _ 0 fresh_aligned
  have hz : be_value obitstream.fresh.stream * 2 ^ obitstream.fresh.bits_in_buffer + 0 = 0 := by
    simp [obitstream.fresh, be_value]
  have hz' : 8 * obitstream.fresh.stream.length + obitstream.fresh.bits_in_buffer = 0 := by
    simp [obitstream.fresh]
  rw [hz, Nat.zero_mul, Nat.zero_add] at ev
  rw [hz', Nat.zero_add] at el
  have hbib : (obitstream.fresh.write_bits_list shift_overflow pairs).bits_in_buffer
      = (bits_concat pairs).2 % 64 := by omega
  have htop : top = (bits_concat pairs).1 % 2 ^ ((bits_concat pairs).2 % 64) := by
    rw [← ev, ← hbib, Nat.mul_comm, Nat.mul_add_mod, Nat.mod_eq_of_lt ht]
  refine ⟨by omega, hbytes, ?_, hbib, ?_⟩
  · rw [← ev, ← hbib, Nat.mul_comm, Nat.mul_add_div (Nat.two_pow_pos _), Nat.div_eq_of_lt ht,
      Nat.add_zero]
  · rw [hbuf, htop, hbib]

/-- Round trip of bit fields, witness: the fields `(5, 3)`, `(300, 9)` and
`(1, 63)` written and read back on a processor that takes shift counts modulo
64. -/
theorem read_bits_list_write_bits_list_witness :
    (ibitstream.fresh
        (obitstream.fresh.write_bits_list shift_count_mod_64
          [(5, 3), (300, 9), (1, 63)]).flush.stream
        []).read_bits_list [3, 9, 63]
      = [some (true, 5), some (true, 300), some (true, 1)] :=
  read_bits_list_write_bits_list shift_count_mod_64 [(5, 3), (300, 9), (1, 63)] []
    (by decide)

/-- Layout of the sink and the buffer, witness: after the fields `(1, 63)` and
`(3, 2)`, 65 bits in all, the sink holds eight bytes and one bit is
buffered. -/
theorem write_bits_list_layout_witness :
    (obitstream.fresh.write_bits_list shift_count_mod_64 [(1, 63), (3, 2)]).stream.length
        = 8 * ((bits_concat [(1, 63), (3, 2)]).2 / 64)
    ∧ (∀ b ∈ (obitstream.fresh.write_bits_list shift_count_mod_64 [(1, 63), (3, 2)]).stream,
        b < 256)
    ∧ be_value (obitstream.fresh.write_bits_list shift_count_mod_64 [(1, 63), (3, 2)]).stream
        = (bits_concat [(1, 63), (3, 2)]).1 / 2 ^ ((bits_concat [(1, 63), (3, 2)]).2 % 64)
    ∧ (obitstream.fresh.write_bits_list shift_count_mod_64 [(1, 63), (3, 2)]).bits_in_buffer
        = (bits_concat [(1, 63), (3, 2)]).2 % 64
    ∧ (obitstream.fresh.write_bits_list shift_count_mod_64 [(1, 63), (3, 2)]).read_write_buffer
        = ((bits_concat [(1, 63), (3, 2)]).1 % 2 ^ ((bits_concat [(1, 63), (3, 2)]).2 % 64))
          * 2 ^ (128 - (bits_concat [(1, 63), (3, 2)]).2 % 64) :=
  write_bits_list_layout shift_count_mod_64 [(1, 63), (3, 2)] (by decide)

/-- Round trip of integers below `2^63`: when the decoder may read nine bytes
or more, `read_integer` on the bytes written by `write_integer(k)`, whatever
follows them, returns `k` and leaves exactly what follows unread. -/
theorem read_integer_write_integer (bits_needed k : Nat) (rest text_buffer : List Nat)
    (hb : 9 ≤ bits_needed) (hk : k < 2 ^ 63) :
    ((ibitstream.fresh ((obitstream.fresh.write_integer k).stream ++ rest)
        text_buffer).read_integer bits_needed).map (fun r => (r.1, r.2.stream))
      = some (k, rest) := by
  have hs : (ibitstream.fresh ((obitstream.fresh.write_integer k).stream ++ rest)
      text_buffer).stream = varint_bytes k ++ rest := by
    simp [ibitstream.fresh, write_integer_stream, obitstream.fresh]
  rw [read_integer_varint_bytes bits_needed hb k hk rest _ hs]
  rfl

/-- Round trip of integers below `2^63`, witness: the largest such integer with
the bytes `[1, 2]` behind it. -/
theorem read_integer_write_integer_witness :
    ((ibitstream.fresh ((obitstream.fresh.write_integer (2 ^ 63 - 1)).stream ++ [1, 2])
        []).read_integer 10).map (fun r => (r.1, r.2.stream))
      = some (2 ^ 63 - 1, [1, 2]) :=
  read_integer_write_integer 10 (2 ^ 63 - 1) [1, 2] [] (by decide) (by decide)

/-- C11: for every string `s`, `write_string(s)` appends to the sink exactly
the bytes that `write_integer(|s|)` writes, the variable-length encoding of the
byte count, followed by the `|s|` bytes of `s` themselves; the number of bytes
appended is the count returned by the encoder plus `|s|`, and the bit buffer
is not touched. -/
theorem write_string_appends (w : obitstream) (s : List Nat) :
    (w.write_string s).stream
        = w.stream ++ (obitstream.fresh.write_integer s.length).stream ++ s
    ∧ (w.write_string s).stream
        = w.stream
          ++ (List.range (encode_variablesize_int s.length w.integer_buffer).1).map
              (encode_variablesize_int s.length w.integer_buffer).2
          ++ s
    ∧ (w.write_string s).stream.length
        = w.stream.length + (encode_variablesize_int s.length w.integer_buffer).1 + s.length
    ∧ (w.write_string s).read_write_buffer = w.read_write_buffer
    ∧ (w.write_string s).bits_in_buffer = w.bits_in_buffer := by
  have h1 := write_string_stream w s
  have h2 := write_integer_stream obitstream.fresh s.length
  have h3 := encode_variablesize_int_loop_eq s.length w.integer_buffer 0
  simp only [List.range_zero, List.map_nil, List.nil_append, Nat.zero_add] at h3
  refine ⟨?_, ?_, ?_, rfl, rfl⟩
  · rw [h1, h2]; rfl
  · rw [h1, encode_variablesize_int, h3.2]
  · rw [h1, encode_variablesize_int, h3.1]
    simp only [List.length_append]

/-- The decoder loop on bytes that all carry the continuation bit: it throws,
at the end of the stream or at the ninth byte. -/
theorem decode_variablesize_int_loop_all_continued (bits_needed : Nat) (hb : 9 ≤ bits_needed) :
    ∀ (stream : List Nat) (i value : Nat), i ≤ 8 → (∀ b ∈ stream, b &&& 128 ≠ 0) →
      decode_variablesize_int_loop bits_needed i value stream = none := by
  intro stream
  induction stream with
  | nil =>
    intro i value hi _
    rw [decode_variablesize_int_loop, if_pos (by omega)]
  | cons byte rest ih =>
    intro i value hi hall
    have hbyte : byte &&& 128 ≠ 0 := hall byte (List.mem_cons_self _ _)
    rw [decode_variablesize_int_loop, if_pos (by omega)]
    simp only [hbyte, if_false, sizeof_size_t]
    by_cases h8 : i = 8
    · rw [if_pos h8]
    · rw [if_neg h8]
      exact ih (i + 1) _ (by omega) (fun b hb' => hall b (List.mem_cons_of_mem _ hb'))

/-- C13: when the decoder may read nine bytes or more, `decode_variablesize_int`
throws, and returns no value, on every input that ends before a byte with bit 7
clear: on the empty stream and on every stream whose bytes all have bit 7
set. -/
theorem decode_variablesize_int_unterminated (bits_needed : Nat) (stream : List Nat)
    (hb : 9 ≤ bits_needed) (hall : ∀ b ∈ stream, b &&& 128 ≠ 0) :
    decode_variablesize_int bits_needed stream = none
    ∧ decode_variablesize_int bits_needed [] = none := by
  refine ⟨decode_variablesize_int_loop_all_continued bits_needed hb stream 0 0 (by omega) hall,
    ?_⟩
  exact decode_variablesize_int_loop_all_continued bits_needed hb [] 0 0 (by omega)
    (fun b hb' => absurd hb' (List.not_mem_nil b))

/-- C13, witness: three bytes with bit 7 set and nothing after them, read by a
decoder that may read ten bytes. -/
theorem decode_variablesize_int_unterminated_witness :
    decode_variablesize_int 10 [0x80, 0xFF, 0x81] = none
    ∧ decode_variablesize_int 10 [] = none :=
  decode_variablesize_int_unterminated 10 [0x80, 0xFF, 0x81] (by decide) (by decide)

theorem varint_value_append_singleton (pre : List Nat) (b : Nat) :
    varint_value (pre ++ [b]) = varint_value pre + (b &&& 127) * 128 ^ pre.length := by
  induction pre with
  | nil => simp [varint_value]
  | cons x xs ih =>
    rw [List.cons_append, varint_value, varint_value, ih, List.length_cons, Nat.pow_succ]
    ring

theorem and_127_lt (b : Nat) : b &&& 127 < 128 := by
  rw [and_127]; exact Nat.mod_lt _ (by decide)

theorem varint_value_lt (l : List Nat) : varint_value l < 128 ^ l.length := by
  induction l with
  | nil => simp [varint_value]
  | cons x xs ih =>
    simp only [varint_value, List.length_cons, Nat.pow_succ]
    have := and_127_lt x
    omega

/-- The decoder loop on continued bytes followed by a byte with bit 7 clear, all
within the first nine bytes: the exact value is returned. -/
theorem decode_variablesize_int_loop_terminated (bits_needed : Nat) (hb : 9 ≤ bits_needed)
    (b : Nat) (rest : List Nat) (hclear : b &&& 128 = 0) :
    ∀ (pre : List Nat) (i value : Nat), i + pre.length ≤ 8 → value < 2 ^ (7 * i) →
      (∀ x ∈ pre, x &&& 128 ≠ 0) →
      decode_variablesize_int_loop bits_needed i value (pre ++ b :: rest)
        = some (value + varint_value (pre ++ [b]) * 2 ^ (7 * i), rest) := by
  have hstep : ∀ (x i value : Nat), i ≤ 8 → value < 2 ^ (7 * i) →
      value ||| (((x &&& 127) <<< (7 * i)) % 2 ^ 64) = value + (x &&& 127) * 2 ^ (7 * i)
      ∧ value + (x &&& 127) * 2 ^ (7 * i) < 2 ^ (7 * (i + 1)) := by
    intro x i value hi hv
    have hx := and_127_lt x
    have hpow : (2 : Nat) ^ (7 * (i + 1)) = 128 * 2 ^ (7 * i) := by
      rw [show (128 : Nat) = 2 ^ 7 from rfl, ← Nat.pow_add]; congr 1; omega
    have hle : (2 : Nat) ^ (7 * (i + 1)) ≤ 2 ^ 64 :=
      Nat.pow_le_pow_right (by decide) (by omega)
    have hpos := Nat.two_pow_pos (7 * i)
    have hlt : (x &&& 127) * 2 ^ (7 * i) < 2 ^ (7 * (i + 1)) := by
      rw [hpow]; exact Nat.mul_lt_mul_of_lt_of_le hx (le_refl _) hpos
    have hsum : value + (x &&& 127) * 2 ^ (7 * i) < 2 ^ (7 * (i + 1)) := by
      rw [hpow]
      have : ((x &&& 127) + 1) * 2 ^ (7 * i) ≤ 128 * 2 ^ (7 * i) := Nat.mul_le_mul_right _ hx
      rw [Nat.add_mul] at this
      omega
    refine ⟨?_, hsum⟩
    rw [Nat.shiftLeft_eq, Nat.mod_eq_of_lt (by omega)]
    have := or_shiftLeft_eq_add value (x &&& 127) _ hv
    rwa [Nat.shiftLeft_eq] at this
  intro pre
  induction pre with
  | nil =>
    intro i value hi hv _
    obtain ⟨h1, _⟩ := hstep b i value (by omega) hv
    rw [List.nil_append, decode_variablesize_int_loop, if_pos (by omega)]
    simp only [hclear, if_true, h1]
    simp [varint_value]
  | cons x xs ih =>
    intro i value hi hv hall
    simp only [List.length_cons] at hi
    have hx : x &&& 128 ≠ 0 := hall x (List.mem_cons_self _ _)
    obtain ⟨h1, h2⟩ := hstep x i value (by omega) hv
    rw [List.cons_append, decode_variablesize_int_loop, if_pos (by omega)]
    simp only [hx, if_false, sizeof_size_t, h1]
    rw [if_neg (by omega), ih (i + 1) _ (by omega) h2
      (fun y hy => hall y (List.mem_cons_of_mem _ hy))]
    congr 2
    have hpow : (2 : Nat) ^ (7 * (i + 1)) = 128 * 2 ^ (7 * i) := by
      rw [show (128 : Nat) = 2 ^ 7 from rfl, ← Nat.pow_add]; congr 1; omega
    rw [List.cons_append, varint_value, hpow]
    ring

/-- The decoder loop on nine or more continued bytes: it throws at the ninth. -/
theorem decode_variablesize_int_loop_overlong (bits_needed : Nat) (hb : 9 ≤ bits_needed)
    (rest : List Nat) :
    ∀ (pre : List Nat) (i value : Nat), i ≤ 8 → 9 ≤ i + pre.length →
      (∀ x ∈ pre, x &&& 128 ≠ 0) →
      decode_variablesize_int_loop bits_needed i value (pre ++ rest) = none := by
  intro pre
  induction pre with
  | nil => intro i value hi h9 _; simp at h9; omega
  | cons x xs ih =>
    intro i value hi h9 hall
    simp only [List.length_cons] at h9
    have hx : x &&& 128 ≠ 0 := hall x (List.mem_cons_self _ _)
    rw [List.cons_append, decode_variablesize_int_loop, if_pos (by omega)]
    simp only [hx, if_false, sizeof_size_t]
    by_cases h8 : i = 8
    · rw [if_pos h8]
    · rw [if_neg h8]
      exact ih (i + 1) _ (by omega) (by omega) (fun y hy => hall y (List.mem_cons_of_mem _ hy))

/-- Every stream either consists of continued bytes only, or splits at its first
byte with bit 7 clear. -/
theorem split_at_first_clear (stream : List Nat) :
    (∀ x ∈ stream, x &&& 128 ≠ 0)
    ∨ ∃ pre b rest, stream = pre ++ b :: rest ∧ (∀ x ∈ pre, x &&& 128 ≠ 0) ∧ b &&& 128 = 0 := by
  induction stream with
  | nil => left; intro x hx; exact absurd hx (List.not_mem_nil x)
  | cons y ys ih =>
    by_cases hy : y &&& 128 = 0
    · right
      exact ⟨[], y, ys, rfl, fun x hx => absurd hx (List.not_mem_nil x), hy⟩
    · rcases ih with h | ⟨pre, b, rest, e, h1, h2⟩
      · left
        intro x hx
        rcases List.mem_cons.mp hx with rfl | hx
        · exact hy
        · exact h x hx
      · right
        refine ⟨y :: pre, b, rest, by rw [e]; rfl, ?_, h2⟩
        intro x hx
        rcases List.mem_cons.mp hx with rfl | hx
        · exact hy
        · exact h1 x hx

/-- C14: when the decoder may read nine bytes or more, on every input
`decode_variablesize_int` either throws, or it has consumed the bytes up to and
including the first one with bit 7 clear, at most nine of them, and returns the
exact sum of `(byte_i & 127) * 128 ^ i` over them, which is below `2 ^ 63`; and
it throws on every input that starts with nine bytes with bit 7 set. -/
theorem decode_variablesize_int_exact (bits_needed : Nat) (stream : List Nat)
    (hb : 9 ≤ bits_needed) :
    (decode_variablesize_int bits_needed stream = none
      ∨ ∃ pre b rest, stream = pre ++ b :: rest ∧ (∀ x ∈ pre, x &&& 128 ≠ 0) ∧ b &&& 128 = 0
          ∧ pre.length ≤ 8
          ∧ decode_variablesize_int bits_needed stream
              = some (varint_value (pre ++ [b]), rest)
          ∧ varint_value (pre ++ [b]) < 2 ^ 63)
    ∧ (∀ pre rest, stream = pre ++ rest → 9 ≤ pre.length → (∀ x ∈ pre, x &&& 128 ≠ 0) →
        decode_variablesize_int bits_needed stream = none) := by
  constructor
  · rcases split_at_first_clear stream with h | ⟨pre, b, rest, e, h1, h2⟩
    · left
      exact decode_variablesize_int_loop_all_continued bits_needed hb stream 0 0 (by omega) h
    · by_cases hlen : pre.length ≤ 8
      · right
        refine ⟨pre, b, rest, e, h1, h2, hlen, ?_, ?_⟩
        · have := decode_variablesize_int_loop_terminated bits_needed hb b rest h2 pre 0 0
            (by omega) (by simp) h1
          rw [e, decode_variablesize_int, this]
          simp
        · have h := varint_value_lt (pre ++ [b])
          have hle : (128 : Nat) ^ (pre ++ [b]).length ≤ 128 ^ 9 :=
            Nat.pow_le_pow_right (by decide) (by simp; omega)
          have : (128 : Nat) ^ 9 = 2 ^ 63 := by norm_num
          omega
      · left
        rw [e, decode_variablesize_int]
        exact decode_variablesize_int_loop_overlong bits_needed hb (b :: rest) pre 0 0
          (by omega) (by omega) h1
  · intro pre rest e h9 hall
    rw [e, decode_variablesize_int]
    exact decode_variablesize_int_loop_overlong bits_needed hb rest pre 0 0 (by omega)
      (by omega) hall

/-- C14, witness: the bytes `[0xAC, 0x02]` followed by `[7]`, read by a decoder
that may read ten bytes. -/
theorem decode_variablesize_int_exact_witness :
    (decode_variablesize_int 10 [0xAC, 0x02, 7] = none
      ∨ ∃ pre b rest, [0xAC, 0x02, 7] = pre ++ b :: rest ∧ (∀ x ∈ pre, x &&& 128 ≠ 0)
          ∧ b &&& 128 = 0 ∧ pre.length ≤ 8
          ∧ decode_variablesize_int 10 [0xAC, 0x02, 7] = some (varint_value (pre ++ [b]), rest)
          ∧ varint_value (pre ++ [b]) < 2 ^ 63)
    ∧ (∀ pre rest, [0xAC, 0x02, 7] = pre ++ rest → 9 ≤ pre.length →
        (∀ x ∈ pre, x &&& 128 ≠ 0) → decode_variablesize_int 10 [0xAC, 0x02, 7] = none) :=
  decode_variablesize_int_exact 10 [0xAC, 0x02, 7] (by decide)

/-- The encoder loop writes no memory outside the indices from `outputSize` up
to the index it returns. -/
theorem encode_variablesize_int_loop_frame (value : Nat) :
    ∀ (output : Nat → Nat) (outputSize j : Nat),
      j < outputSize ∨ (encode_variablesize_int_loop value output outputSize).1 ≤ j →
      (encode_variablesize_int_loop value output outputSize).2 j = output j := by
  induction value using Nat.strong_induction_on with
  | _ value ih =>
    intro output outputSize j hj
    have hlen := (encode_variablesize_int_loop_eq value output outputSize).1
    rw [encode_variablesize_int_loop] at hj ⊢
    by_cases h : 127 < value
    · have hlt : value >>> 7 < value := by
        simp only [Nat.shiftRight_eq_div_pow]; omega
      simp only [h, if_true] at hj ⊢
      have hlen' := (encode_variablesize_int_loop_eq (value >>> 7)
        (Function.update output outputSize ((((value &&& 127) % 256) ||| 128) % 256))
        (outputSize + 1)).1
      rw [ih _ hlt _ (outputSize + 1) j (by omega)]
      apply Function.update_noteq
      omega
    · simp only [h, if_false] at hj ⊢
      apply Function.update_noteq
      omega

/-- C20: the encoder returns at least 1, at most 10 for a 64-bit input and at
most 5 for a 32-bit input; the bytes at the indices below the returned count
are those of the encoding, whatever the memory held before, and no memory at
or beyond the returned count is written. -/
theorem encode_variablesize_int_bounds (value : Nat) (output : Nat → Nat) :
    1 ≤ (encode_variablesize_int value output).1
    ∧ (value < 2 ^ 64 → (encode_variablesize_int value output).1 ≤ 10)
    ∧ (value < 2 ^ 32 → (encode_variablesize_int value output).1 ≤ 5)
    ∧ (∀ j, (encode_variablesize_int value output).1 ≤ j →
        (encode_variablesize_int value output).2 j = output j)
    ∧ (List.range (encode_variablesize_int value output).1).map
        (encode_variablesize_int value output).2 = varint_bytes value
    ∧ (obitstream.fresh.write_integer value).stream.length
        = (encode_variablesize_int value output).1 := by
  have h := encode_variablesize_int_loop_eq value output 0
  simp only [List.range_zero, List.map_nil, List.nil_append, Nat.zero_add] at h
  have hlen := varint_bytes_length value
  refine ⟨?_, ?_, ?_, ?_, ?_, ?_⟩
  · rw [encode_variablesize_int, h.1, hlen]; omega
  · intro hv
    have : Nat.size value ≤ 64 := Nat.size_le.mpr hv
    rw [encode_variablesize_int, h.1, hlen]; omega
  · intro hv
    have : Nat.size value ≤ 32 := Nat.size_le.mpr hv
    rw [encode_variablesize_int, h.1, hlen]; omega
  · intro j hj
    exact encode_variablesize_int_loop_frame value output 0 j (Or.inr hj)
  · exact h.2
  · rw [write_integer_stream, encode_variablesize_int, h.1]
    simp [obitstream.fresh]

/-- C12, failing input: `write_bits(1, 8)` on a fresh writer leaves eight bits
in the buffer and nothing on the sink; `flush` then emits two bytes, the byte
`0x01` and a zero byte, where `ceil(8 / 8) = 1` byte holds the buffered bits. -/
theorem flush_after_eight_bits :
    (obitstream.fresh.write_bits shift_count_mod_64 1 8).stream = []
    ∧ (obitstream.fresh.write_bits shift_count_mod_64 1 8).bits_in_buffer = 8
    ∧ (obitstream.fresh.write_bits shift_count_mod_64 1 8).flush.stream = [1, 0]
    ∧ (obitstream.fresh.write_bits shift_count_mod_64 1 8).flush.bits_in_buffer = 0 := by
  decide

/-- C15, failing input: a source that holds the length prefix 3 and then only
one byte, `a`, read into a text buffer of eight zero bytes.  `read_string`
reports no failure: it returns the string `a` and leaves the source at its
end. -/
theorem read_string_short_source :
    ((ibitstream.fresh [3, 97] [0, 0, 0, 0, 0, 0, 0, 0]).read_string 10
        (fun n => 2 ^ Nat.clog 2 n)).map (fun r => (r.1, r.2.stream))
      = some ([97], []) := by
  decide

/-- The loading loop of `read_bits` on a source that is too short: it uses the
source up and reports the failed `get`. -/
theorem read_bits_loop_short (n : Nat) :
    ∀ (stream : List Nat) (read_write_buffer bits_in_buffer : Nat),
      bits_in_buffer + 8 * stream.length < n →
      ∃ read_write_buffer' bits_in_buffer',
        read_bits_loop n stream read_write_buffer bits_in_buffer
          = (false, [], read_write_buffer', bits_in_buffer') := by
  intro stream
  induction stream with
  | nil =>
    intro rwb bib h
    refine ⟨rwb, bib, ?_⟩
    have : bib < n := by simpa using h
    simp [read_bits_loop, this]
  | cons byte rest ih =>
    intro rwb bib h
    simp only [List.length_cons] at h
    rw [read_bits_loop, if_pos (by omega)]
    exact ih _ _ (by omega)

/-- C16: for a reader whose buffer holds `b = bits_in_buffer` valid bits `top`
and a width `n <= 64`: if `n > b` and the source holds fewer than
`ceil((n - b) / 8)` bytes, `read_bits` returns `false` with `val = 0`;
otherwise it returns `true` with `val` the first `n` bits of the bit string
made of the buffered bits followed by the bytes of the source. -/
theorem read_bits_result (r : ibitstream) (top n : Nat) (h : r.aligned top) (hn : n ≤ 64) :
    (r.bits_in_buffer < n ∧ r.stream.length < (n - r.bits_in_buffer + 7) / 8 →
        ∃ r', r.read_bits n = some (false, 0, r'))
    ∧ (¬ (r.bits_in_buffer < n ∧ r.stream.length < (n - r.bits_in_buffer + 7) / 8) →
        ∃ r', r.read_bits n
          = some (true, (top * 256 ^ r.stream.length + be_value r.stream)
              / 2 ^ (r.bits_in_buffer + 8 * r.stream.length - n), r')) := by
  constructor
  · intro hshort
    obtain ⟨rwb', bib', e⟩ := read_bits_loop_short n r.stream r.read_write_buffer
      r.bits_in_buffer (by omega)
    refine ⟨{ r with stream := [], read_write_buffer := rwb', bits_in_buffer := bib' }, ?_⟩
    unfold ibitstream.read_bits
    rw [if_pos hn, e]
  · intro hlong
    obtain ⟨r', _, e, _⟩ := read_bits_aligned r top n h hn (by omega)
    exact ⟨r', e⟩

/-- C16, witness: a fresh reader on the single byte `0xAB`, asked for four
bits. -/
theorem read_bits_result_witness :
    ((ibitstream.fresh [0xAB] []).bits_in_buffer < 4
        ∧ (ibitstream.fresh [0xAB] []).stream.length
            < (4 - (ibitstream.fresh [0xAB] []).bits_in_buffer + 7) / 8 →
        ∃ r', (ibitstream.fresh [0xAB] []).read_bits 4 = some (false, 0, r'))
    ∧ (¬ ((ibitstream.fresh [0xAB] []).bits_in_buffer < 4
        ∧ (ibitstream.fresh [0xAB] []).stream.length
            < (4 - (ibitstream.fresh [0xAB] []).bits_in_buffer + 7) / 8) →
        ∃ r', (ibitstream.fresh [0xAB] []).read_bits 4
          = some (true, (0 * 256 ^ (ibitstream.fresh [0xAB] []).stream.length
                + be_value (ibitstream.fresh [0xAB] []).stream)
              / 2 ^ ((ibitstream.fresh [0xAB] []).bits_in_buffer
                + 8 * (ibitstream.fresh [0xAB] []).stream.length - 4), r')) :=
  read_bits_result (ibitstream.fresh [0xAB] []) 0 4
    ⟨by decide, by decide, by decide, by decide⟩ (by decide)

/-- What `flush` emits: with `b` buffered bits, `0 < b < 64`, exactly
`floor(b / 8) + 1` bytes, which hold the buffered bits left-aligned and zero
bits after them; the buffer is left empty.  The count is `ceil(b / 8)` unless
`b` is a multiple of 8, when it is one more. -/
theorem flush_emits (s : obitstream) (top : Nat) (h : s.aligned top)
    (h0 : 0 < s.bits_in_buffer) :
    ∃ emitted, s.flush.stream = s.stream ++ emitted
      ∧ emitted.length = s.bits_in_buffer / 8 + 1
      ∧ (∀ x ∈ emitted, x < 256)
      ∧ be_value emitted = top * 2 ^ (8 * (s.bits_in_buffer / 8 + 1) - s.bits_in_buffer)
      ∧ (s.bits_in_buffer % 8 ≠ 0 → emitted.length = (s.bits_in_buffer + 7) / 8)
      ∧ (s.bits_in_buffer % 8 = 0 → emitted.length = (s.bits_in_buffer + 7) / 8 + 1)
      ∧ s.flush.read_write_buffer = 0 ∧ s.flush.bits_in_buffer = 0 := by
  obtain ⟨hb, ht, hbuf, _, _⟩ := h
  have hc : s.bits_in_buffer / 8 ≤ 7 := by omega
  have hbound : (7 + (2 ^ 32 - s.bits_in_buffer / 8 % 2 ^ 32)) % 2 ^ 32
      = 7 - s.bits_in_buffer / 8 := by omega
  have hwv : bitset_shr s.read_write_buffer 64 = top * 2 ^ (64 - s.bits_in_buffer) := by
    rw [hbuf]; exact shr_aligned_64 top _ (by omega)
  have hwvlt : top * 2 ^ (64 - s.bits_in_buffer) < 2 ^ 64 := by
    rw [two_pow_split 64 (64 - s.bits_in_buffer) (by omega)]
    have : 64 - (64 - s.bits_in_buffer) = s.bits_in_buffer := by omega
    rw [this]
    exact Nat.mul_lt_mul_of_lt_of_le ht (le_refl _) (Nat.two_pow_pos _)
  obtain ⟨f1, f2, f3⟩ := flush_bytes _ (s.bits_in_buffer / 8) hwvlt hc
  have e1 : (2 : Nat) ^ (64 - s.bits_in_buffer)
      = 2 ^ (8 * (s.bits_in_buffer / 8 + 1) - s.bits_in_buffer)
        * 2 ^ (8 * (7 - s.bits_in_buffer / 8)) := by
    rw [← Nat.pow_add]; congr 1; omega
  clear hbuf
  unfold obitstream.flush
  simp only [h0, if_true, hbound, hwv]
  refine ⟨_, rfl, f2, f3, ?_, ?_, ?_, trivial, trivial⟩
  · rw [f1, e1, ← Nat.mul_assoc, Nat.mul_div_cancel _ (Nat.two_pow_pos _)]
  · intro h8; rw [f2]; omega
  · intro h8; rw [f2]; omega

/-- What `flush` emits, witness: three buffered bits. -/
theorem flush_emits_witness :
    ∃ emitted, (obitstream.fresh.write_bits shift_count_mod_64 5 3).flush.stream
        = (obitstream.fresh.write_bits shift_count_mod_64 5 3).stream ++ emitted
      ∧ emitted.length = (obitstream.fresh.write_bits shift_count_mod_64 5 3).bits_in_buffer / 8 + 1
      ∧ (∀ x ∈ emitted, x < 256)
      ∧ be_value emitted = 5 * 2 ^ (8 *
          ((obitstream.fresh.write_bits shift_count_mod_64 5 3).bits_in_buffer / 8 + 1)
          - (obitstream.fresh.write_bits shift_count_mod_64 5 3).bits_in_buffer)
      ∧ ((obitstream.fresh.write_bits shift_count_mod_64 5 3).bits_in_buffer % 8 ≠ 0 →
          emitted.length
            = ((obitstream.fresh.write_bits shift_count_mod_64 5 3).bits_in_buffer + 7) / 8)
      ∧ ((obitstream.fresh.write_bits shift_count_mod_64 5 3).bits_in_buffer % 8 = 0 →
          emitted.length
            = ((obitstream.fresh.write_bits shift_count_mod_64 5 3).bits_in_buffer + 7) / 8 + 1)
      ∧ (obitstream.fresh.write_bits shift_count_mod_64 5 3).flush.read_write_buffer = 0
      ∧ (obitstream.fresh.write_bits shift_count_mod_64 5 3).flush.bits_in_buffer = 0 :=
  flush_emits (obitstream.fresh.write_bits shift_count_mod_64 5 3) 5
    ⟨by decide, by decide, by decide, by decide, by decide⟩ (by decide)

/-- The loading loop of `read_bits` on a source that is too short keeps the
buffer left-aligned. -/
theorem read_bits_loop_short_aligned (n : Nat) (hn : n ≤ 64) :
    ∀ (stream : List Nat) (top bib : Nat), top < 2 ^ bib → (∀ b ∈ stream, b < 256) →
      bib + 8 * stream.length < n →
      ∃ top' bib', read_bits_loop n stream (top * 2 ^ (128 - bib)) bib
          = (false, [], top' * 2 ^ (128 - bib'), bib')
        ∧ top' < 2 ^ bib' ∧ bib' < n := by
  intro stream
  induction stream with
  | nil =>
    intro top bib ht _ h
    refine ⟨top, bib, ?_, ht, by simpa using h⟩
    have : bib < n := by simpa using h
    simp [read_bits_loop, this]
  | cons byte rest ih =>
    intro top bib ht hbytes h
    simp only [List.length_cons] at h
    have hbyte : byte < 2 ^ 8 := hbytes byte (List.mem_cons_self _ _)
    have hsh : size_t_sub (56 + 64) bib = 128 - bib - 8 := by
      rw [size_t_sub_eq _ _ (by omega) (by decide)]; omega
    have hor := or_aligned top bib 8 byte (by omega) hbyte
    have ht' : top * 2 ^ 8 + byte < 2 ^ (bib + 8) := by
      rw [Nat.pow_add]
      have : (top + 1) * 2 ^ 8 ≤ 2 ^ bib * 2 ^ 8 := Nat.mul_le_mul_right _ ht
      omega
    obtain ⟨top', bib', e, h1, h2⟩ := ih (top * 2 ^ 8 + byte) (bib + 8) ht'
      (fun b hb' => hbytes b (List.mem_cons_of_mem _ hb')) (by omega)
    refine ⟨top', bib', ?_, h1, h2⟩
    rw [read_bits_loop, if_pos (by omega), hsh, hor, e]

/-- Every `read_bits` call with a width of at most 64 leaves the buffer of the
reader left-aligned, whether it succeeds or fails. -/
theorem read_bits_keeps_aligned (r : ibitstream) (top n : Nat) (h : r.aligned top)
    (hn : n ≤ 64) :
    ∃ flag val r' top', r.read_bits n = some (flag, val, r') ∧ r'.aligned top' := by
  by_cases hlen : n ≤ r.bits_in_buffer + 8 * r.stream.length
  · obtain ⟨r', top', e, h', _⟩ := read_bits_aligned r top n h hn hlen
    exact ⟨true, _, r', top', e, h'⟩
  · obtain ⟨_, ht, hbuf, hbytes⟩ := h
    obtain ⟨top', bib', e, h1, h2⟩ := read_bits_loop_short_aligned n hn r.stream top
      r.bits_in_buffer ht hbytes (by omega)
    refine ⟨false, 0, { r with stream := [], read_write_buffer := top' * 2 ^ (128 - bib'),
                               bits_in_buffer := bib' }, top', ?_, ?_⟩
    · unfold ibitstream.read_bits
      rw [if_pos hn, hbuf, e]
    · exact ⟨by simp only; omega, h1, rfl, by simp⟩

/-! ## Sequences of integers, and the writer's buffer invariant -/

theorem write_integer_list_stream (ks : List Nat) :
    ∀ s : obitstream, (s.write_integer_list ks).stream = s.stream ++ ks.flatMap varint_bytes := by
  induction ks with
  | nil => intro s; simp [obitstream.write_integer_list]
  | cons k ks ih =>
    intro s
    have hfold : s.write_integer_list (k :: ks) = (s.write_integer k).write_integer_list ks := rfl
    rw [hfold, ih, write_integer_stream, List.flatMap_cons, List.append_assoc]

theorem read_integer_list_varint_bytes (bits_needed : Nat) (hb : 9 ≤ bits_needed)
    (ks : List Nat) (hk : ∀ k ∈ ks, k < 2 ^ 63) (rest : List Nat) :
    ∀ r : ibitstream, r.stream = ks.flatMap varint_bytes ++ rest →
      r.read_integer_list bits_needed ks.length = some (ks, { r with stream := rest }) := by
  induction ks with
  | nil =>
    intro r hr
    simp only [List.flatMap_nil, List.nil_append] at hr
    simp only [List.length_nil, ibitstream.read_integer_list, ← hr]
  | cons k ks ih =>
    intro r hr
    rw [List.flatMap_cons, List.append_assoc] at hr
    have h1 := read_integer_varint_bytes bits_needed hb k (hk k (List.mem_cons_self _ _)) _ r hr
    have h2 := ih (fun x hx => hk x (List.mem_cons_of_mem _ hx))
      { r with stream := ks.flatMap varint_bytes ++ rest } rfl
    simp only [List.length_cons, ibitstream.read_integer_list, h1, h2, Option.map_some']

/-- C29: variable-length encodings are self-delimiting.  For integers
`k_1, ..., k_m` below `2^63`, whatever integers `more` are written after them
and whatever bytes `t` follow, `m` calls of `read_integer` on the bytes that the
`write_integer` calls produced return `k_1, ..., k_m` in order and leave unread
exactly the bytes written for `more` followed by `t`; with `more` empty, exactly
`t`.  Taking a prefix of the integers for `k_1, ..., k_m` shows that each call
consumes the bytes of one encoding and no more.  The decoder is taken to admit
nine bytes or more. -/
theorem read_integer_list_write_integer_list (bits_needed : Nat) (ks more t text_buffer : List Nat)
    (hb : 9 ≤ bits_needed) (hk : ∀ k ∈ ks, k < 2 ^ 63) :
    (ibitstream.fresh ((obitstream.fresh.write_integer_list (ks ++ more)).stream ++ t)
        text_buffer).read_integer_list bits_needed ks.length
      = some (ks,
          ibitstream.fresh ((obitstream.fresh.write_integer_list more).stream ++ t)
            text_buffer) := by
  have hs : (ibitstream.fresh ((obitstream.fresh.write_integer_list (ks ++ more)).stream ++ t)
      text_buffer).stream
        = ks.flatMap varint_bytes ++ ((obitstream.fresh.write_integer_list more).stream ++ t) := by
    simp [ibitstream.fresh, write_integer_list_stream, obitstream.fresh, List.flatMap_append]
  rw [read_integer_list_varint_bytes bits_needed hb ks hk _ _ hs]
  rfl

/-- C29, witness: the integers 300 and 5, written before the integer 1000 and
followed by the byte 7. -/
theorem read_integer_list_write_integer_list_witness :
    (ibitstream.fresh ((obitstream.fresh.write_integer_list ([300, 5] ++ [1000])).stream ++ [7])
        []).read_integer_list 10 [300, 5].length
      = some ([300, 5],
          ibitstream.fresh ((obitstream.fresh.write_integer_list [1000]).stream ++ [7]) []) :=
  read_integer_list_write_integer_list 10 [300, 5] [1000] [7] [] (by decide) (by decide)

theorem and_mask_lt (shift_overflow : Nat → Nat → Nat) (val n : Nat) (hn : n ≤ 64) :
    val &&& size_t_sub (size_t_shl shift_overflow 1 n) 1 < 2 ^ n := by
  by_cases h : n < 64
  · rw [mask_of_lt shift_overflow n h, Nat.and_pow_two_sub_one_eq_mod]
    exact Nat.mod_lt _ (Nat.two_pow_pos _)
  · have h64 : n = 64 := by omega
    subst h64
    apply Nat.lt_of_le_of_lt Nat.and_le_right
    unfold size_t_sub
    exact Nat.mod_lt _ (by decide)

/-- One `write_bits` call with at most 64 bits on a left-aligned buffer,
whatever the mask of a 64-bit call comes to: the shift amount does not wrap, the
bits that pass the mask are appended to the bit string that the sink and the
buffer carry, and no byte or eight bytes go to the sink. -/
theorem write_bits_step (shift_overflow : Nat → Nat → Nat) (s : obitstream)
    (top val n : Nat) (h : s.aligned top) (hn : n ≤ 64) :
    s.bits_in_buffer + n ≤ 128
      ∧ size_t_sub (size_t_sub 128 s.bits_in_buffer) n = 128 - (s.bits_in_buffer + n)
      ∧ ((s.write_bits shift_overflow val n).stream = s.stream
          ∨ ∃ bytes, bytes.length = 8
              ∧ (s.write_bits shift_overflow val n).stream = s.stream ++ bytes)
      ∧ ∃ top', (s.write_bits shift_overflow val n).aligned top'
        ∧ be_value (s.write_bits shift_overflow val n).stream
              * 2 ^ (s.write_bits shift_overflow val n).bits_in_buffer + top'
            = (be_value s.stream * 2 ^ s.bits_in_buffer + top) * 2 ^ n
                + (val &&& size_t_sub (size_t_shl shift_overflow 1 n) 1) := by
  obtain ⟨hb, ht, hbuf, hbytes, hdvd⟩ := h
  have hd := and_mask_lt shift_overflow val n hn
  have hsh : size_t_sub (size_t_sub 128 s.bits_in_buffer) n = 128 - s.bits_in_buffer - n := by
    rw [size_t_sub_eq 128 _ (by omega) (by decide), size_t_sub_eq _ _ (by omega) (by omega)]
  refine ⟨by omega, by rw [hsh]; omega, ?_, ?_⟩
  · unfold obitstream.write_bits
    by_cases h64 : 64 ≤ s.bits_in_buffer + n
    · simp only [h64, if_true]
      exact Or.inr ⟨_, by simp, rfl⟩
    · simp only [h64, if_false]
      exact Or.inl trivial
  unfold obitstream.write_bits
  simp only [hsh, hbuf]
  clear hsh hbuf
  generalize val &&& size_t_sub (size_t_shl shift_overflow 1 n) 1 = d at hd ⊢
  have hor := or_aligned top s.bits_in_buffer n d (by omega) hd
  have ht1 : top * 2 ^ n + d < 2 ^ (s.bits_in_buffer + n) := by
    rw [Nat.pow_add]
    have : (top + 1) * 2 ^ n ≤ 2 ^ s.bits_in_buffer * 2 ^ n :=
      Nat.mul_le_mul_right _ ht
    rw [Nat.add_mul] at this
    omega
  simp only [hor]
  clear hor
  by_cases h64 : 64 ≤ s.bits_in_buffer + n
  · simp only [h64, if_true]
    have hwv := shr_aligned (top * 2 ^ n + d) (s.bits_in_buffer + n) 64
      (by omega) h64 ht1
    have hshl := shl_aligned (top * 2 ^ n + d) (s.bits_in_buffer + n) 64
      (by omega) h64
    rw [show (128 : Nat) - 64 = 64 from rfl] at hwv
    rw [hwv, hshl]
    clear hwv hshl
    have hwvlt : (top * 2 ^ n + d) / 2 ^ (s.bits_in_buffer + n - 64) < 2 ^ 64 := by
      apply Nat.div_lt_of_lt_mul
      rw [← Nat.pow_add]
      have : s.bits_in_buffer + n - 64 + 64 = s.bits_in_buffer + n := by omega
      rw [this]
      exact ht1
    refine ⟨(top * 2 ^ n + d) % 2 ^ (s.bits_in_buffer + n - 64),
      ⟨by simp only; omega, Nat.mod_lt _ (Nat.two_pow_pos _), rfl, ?_, ?_⟩, ?_⟩
    · intro b hb'
      simp only [List.mem_append, List.mem_map] at hb'
      rcases hb' with hb' | ⟨i, _, rfl⟩
      · exact hbytes b hb'
      · rw [and_255]; exact Nat.mod_lt _ (by decide)
    · simp only [List.length_append, List.length_map, List.length_cons, List.length_nil]
      omega
    · rw [be_value_append, be_value_put8 _ hwvlt]
      simp only [List.length_map, List.length_cons, List.length_nil]
      have e1 : (2 : Nat) ^ s.bits_in_buffer * 2 ^ n
          = 256 ^ 8 * 2 ^ (s.bits_in_buffer + n - 64) := by
        rw [show (256 : Nat) ^ 8 = 2 ^ 64 from by norm_num, ← Nat.pow_add, ← Nat.pow_add]
        congr 1; omega
      have e2 := Nat.div_add_mod (top * 2 ^ n + d) (2 ^ (s.bits_in_buffer + n - 64))
      calc (be_value s.stream * 256 ^ (0 + 1 + 1 + 1 + 1 + 1 + 1 + 1 + 1)
              + (top * 2 ^ n + d) / 2 ^ (s.bits_in_buffer + n - 64))
              * 2 ^ (s.bits_in_buffer + n - 64)
            + (top * 2 ^ n + d) % 2 ^ (s.bits_in_buffer + n - 64)
          = be_value s.stream * (256 ^ 8 * 2 ^ (s.bits_in_buffer + n - 64))
            + (2 ^ (s.bits_in_buffer + n - 64)
                * ((top * 2 ^ n + d) / 2 ^ (s.bits_in_buffer + n - 64))
              + (top * 2 ^ n + d) % 2 ^ (s.bits_in_buffer + n - 64)) := by ring
        _ = be_value s.stream * (2 ^ s.bits_in_buffer * 2 ^ n)
            + (top * 2 ^ n + d) := by rw [e2, e1]
        _ = (be_value s.stream * 2 ^ s.bits_in_buffer + top) * 2 ^ n + d := by ring
  · simp only [h64, if_false]
    refine ⟨top * 2 ^ n + d, ⟨by simp only; omega, ht1, rfl, hbytes, hdvd⟩, ?_⟩
    rw [Nat.pow_add]
    ring

theorem write_bits_list_keeps_aligned (shift_overflow : Nat → Nat → Nat)
    (pairs : List (Nat × Nat)) (hp : ∀ p ∈ pairs, p.2 ≤ 64) :
    ∀ (s : obitstream) (top : Nat), s.aligned top →
      ∃ top', (s.write_bits_list shift_overflow pairs).aligned top' := by
  induction pairs with
  | nil => intro s top h; exact ⟨top, h⟩
  | cons p rest ih =>
    intro s top h
    obtain ⟨_, _, _, top1, h1, _⟩ :=
      write_bits_step shift_overflow s top p.1 p.2 h (hp p (List.mem_cons_self _ _))
    exact ih (fun q hq => hp q (List.mem_cons_of_mem _ hq)) _ top1 h1

/-- C30: the buffer invariant of the writer.  Start from an empty `obitstream`
and make any sequence of `write_bits` calls with at most 64 bits each, then one
more such call.  Before and after that call `bits_in_buffer` is at most 63; the
shift amount `(128 - bits_in_buffer) - nr_bits` of the call does not wrap below
zero; the call sends no byte or exactly eight bytes to the sink; and no bit is
lost: the bit string that the sink and the valid bits of the buffer carry
after the call is the one carried before with the bits of `val` that pass the
mask appended.  This holds whatever a 64-bit call gets for its mask. -/
theorem write_bits_buffer_invariant (shift_overflow : Nat → Nat → Nat)
    (pairs : List (Nat × Nat)) (val nr_bits : Nat)
    (hp : ∀ p ∈ pairs, p.2 ≤ 64) (hn : nr_bits ≤ 64) :
    (obitstream.fresh.write_bits_list shift_overflow pairs).bits_in_buffer ≤ 63
      ∧ ((obitstream.fresh.write_bits_list shift_overflow pairs).write_bits
            shift_overflow val nr_bits).bits_in_buffer ≤ 63
      ∧ (obitstream.fresh.write_bits_list shift_overflow pairs).bits_in_buffer + nr_bits ≤ 128
      ∧ size_t_sub
            (size_t_sub 128 (obitstream.fresh.write_bits_list shift_overflow pairs).bits_in_buffer)
            nr_bits
          = 128 - ((obitstream.fresh.write_bits_list shift_overflow pairs).bits_in_buffer
              + nr_bits)
      ∧ (((obitstream.fresh.write_bits_list shift_overflow pairs).write_bits
              shift_overflow val nr_bits).stream
            = (obitstream.fresh.write_bits_list shift_overflow pairs).stream
          ∨ ∃ bytes, bytes.length = 8
              ∧ ((obitstream.fresh.write_bits_list shift_overflow pairs).write_bits
                  shift_overflow val nr_bits).stream
                = (obitstream.fresh.write_bits_list shift_overflow pairs).stream ++ bytes)
      ∧ ∃ top top', (obitstream.fresh.write_bits_list shift_overflow pairs).aligned top
        ∧ ((obitstream.fresh.write_bits_list shift_overflow pairs).write_bits
              shift_overflow val nr_bits).aligned top'
        ∧ be_value ((obitstream.fresh.write_bits_list shift_overflow pairs).write_bits
                shift_overflow val nr_bits).stream
              * 2 ^ ((obitstream.fresh.write_bits_list shift_overflow pairs).write_bits
                shift_overflow val nr_bits).bits_in_buffer + top'
            = (be_value (obitstream.fresh.write_bits_list shift_overflow pairs).stream
                  * 2 ^ (obitstream.fresh.write_bits_list shift_overflow pairs).bits_in_buffer
                + top) * 2 ^ nr_bits
              + (val &&& size_t_sub (size_t_shl shift_overflow 1 nr_bits) 1) := by
  obtain ⟨top, h⟩ := write_bits_list_keeps_aligned shift_overflow pairs hp _ 0 fresh_aligned
  obtain ⟨h1, h2, h3, top2, h4, h5⟩ := write_bits_step shift_overflow _ top val nr_bits h hn
  exact ⟨h.1, h4.1, h1, h2, h3, top, top2, h, h4, h5⟩

/-- C30, witness: two calls of 60 and 64 bits, then one of 64 bits, on a
processor that uses the low six bits of a shift count. -/
theorem write_bits_buffer_invariant_witness :
    (obitstream.fresh.write_bits_list shift_count_mod_64 [(5, 60), (9, 64)]).bits_in_buffer ≤ 63
      ∧ ((obitstream.fresh.write_bits_list shift_count_mod_64 [(5, 60), (9, 64)]).write_bits
            shift_count_mod_64 3 64).bits_in_buffer ≤ 63 :=
  have h := write_bits_buffer_invariant shift_count_mod_64 [(5, 60), (9, 64)] 3 64
    (by decide) (by decide)
  ⟨h.1, h.2.1⟩

/-! ## The reader's buffer invariant, and what the byte-wise calls leave alone -/

/-- The counts after the loading loop of `read_bits`, whatever the bytes
are. -/
theorem read_bits_loop_count (n : Nat) :
    ∀ (stream : List Nat) (rwb bib : Nat),
      (read_bits_loop n stream rwb bib).2.2.2 + 8 * (read_bits_loop n stream rwb bib).2.1.length
          = bib + 8 * stream.length
      ∧ ((read_bits_loop n stream rwb bib).1 = true →
          n ≤ (read_bits_loop n stream rwb bib).2.2.2
          ∧ ((read_bits_loop n stream rwb bib).2.2.2 < n + 8
              ∨ (read_bits_loop n stream rwb bib).2.2.2 = bib)) := by
  intro stream
  induction stream with
  | nil =>
    intro rwb bib
    simp only [read_bits_loop, List.length_nil, decide_eq_true_eq, true_and]
    intro h
    exact ⟨by omega, Or.inr trivial⟩
  | cons byte rest ih =>
    intro rwb bib
    rw [read_bits_loop]
    by_cases hlt : bib < n
    · simp only [hlt, if_true]
      obtain ⟨h1, h2⟩ := ih (rwb ||| bitset_shl byte (size_t_sub (56 + 64) bib)) (bib + 8)
      refine ⟨by rw [h1, List.length_cons]; omega, fun hf => ?_⟩
      obtain ⟨a, b⟩ := h2 hf
      exact ⟨a, by omega⟩
    · simp only [hlt, if_false]
      exact ⟨trivial, fun _ => ⟨by omega, Or.inr trivial⟩⟩

theorem read_bits_count (r r' : ibitstream) (n val : Nat) (flag : Bool)
    (h : r.read_bits n = some (flag, val, r')) :
    (flag = true →
      r'.bits_in_buffer + 8 * r'.stream.length + n = r.bits_in_buffer + 8 * r.stream.length
      ∧ (r.bits_in_buffer ≤ 7 → r'.bits_in_buffer ≤ 7)) := by
  unfold ibitstream.read_bits at h
  split at h
  · obtain ⟨h1, h2⟩ := read_bits_loop_count n r.stream r.read_write_buffer r.bits_in_buffer
    split at h
    · rename_i e
      injection h with h
      injection h with hfl _
      intro hflag
      rw [← hfl] at hflag
      exact absurd hflag (by decide)
    · rename_i st rwb bib e
      injection h with h
      injection h with _ h
      injection h with _ h
      subst h
      rw [e] at h1 h2
      simp only at h1 h2 ⊢
      intro _
      obtain ⟨a, b⟩ := h2 trivial
      exact ⟨by omega, fun h7 => by omega⟩
  · simp at h

theorem read_bits_seq_count (widths : List Nat) :
    ∀ (r r' : ibitstream) (flags : List Bool), r.read_bits_seq widths = some (flags, r') →
      (∀ f ∈ flags, f = true) → r.bits_in_buffer ≤ 7 →
      r'.bits_in_buffer ≤ 7
      ∧ r'.bits_in_buffer + 8 * r'.stream.length + widths.sum
          = r.bits_in_buffer + 8 * r.stream.length := by
  induction widths with
  | nil =>
    intro r r' flags h _ h7
    simp only [ibitstream.read_bits_seq, Option.some.injEq, Prod.mk.injEq] at h
    obtain ⟨_, h⟩ := h
    subst h
    exact ⟨h7, by simp⟩
  | cons n rest ih =>
    intro r r' flags h hfl h7
    rw [ibitstream.read_bits_seq] at h
    cases hr : r.read_bits n with
    | none => rw [hr] at h; simp at h
    | some x =>
      obtain ⟨flag, val, r1⟩ := x
      rw [hr] at h
      simp only at h
      cases hs : r1.read_bits_seq rest with
      | none => rw [hs] at h; simp at h
      | some y =>
        obtain ⟨fl1, r2⟩ := y
        rw [hs] at h
        simp only [Option.map_some', Option.some.injEq, Prod.mk.injEq] at h
        obtain ⟨e1, e2⟩ := h
        subst e1 e2
        have hflag : flag = true := hfl flag (List.mem_cons_self _ _)
        obtain ⟨c1, c2⟩ := read_bits_count r r1 n val flag hr hflag
        obtain ⟨d1, d2⟩ := ih r1 r2 fl1 hs (fun f hf => hfl f (List.mem_cons_of_mem _ hf))
          (c2 h7)
        refine ⟨d1, ?_⟩
        simp only [List.sum_cons]
        omega

/-- C31, as amended: the buffer invariant of the reader.  Start from a fresh
`ibitstream` and make any sequence of `read_bits` calls, each with at most 64
bits (the assertion holds) and each returning `true`.  Then at most 7 bits
remain buffered, and with `M` the number of bits read in total the reader has
taken exactly `ceil(M / 8)` bytes from the source: eight times the bytes taken
is `M` plus the bits that remain buffered. -/
theorem read_bits_buffer_invariant (bytes text_buffer widths : List Nat) (flags : List Bool)
    (r' : ibitstream)
    (h : (ibitstream.fresh bytes text_buffer).read_bits_seq widths = some (flags, r'))
    (hs : ∀ f ∈ flags, f = true) :
    r'.bits_in_buffer ≤ 7
      ∧ r'.stream.length ≤ bytes.length
      ∧ 8 * (bytes.length - r'.stream.length) = widths.sum + r'.bits_in_buffer
      ∧ bytes.length - r'.stream.length = (widths.sum + 7) / 8 := by
  obtain ⟨h1, h2⟩ := read_bits_seq_count widths _ r' flags h hs (by simp [ibitstream.fresh])
  simp only [ibitstream.fresh, Nat.zero_add] at h2
  refine ⟨h1, by omega, by omega, by omega⟩

/-- C31, witness: three reads of 3, 7 and 9 bits from a source of four
bytes. -/
theorem read_bits_buffer_invariant_witness :
    ∃ flags r', (ibitstream.fresh [0xAB, 0xCD, 0xEF, 0x01] []).read_bits_seq [3, 7, 9]
        = some (flags, r')
      ∧ r'.bits_in_buffer ≤ 7
      ∧ [0xAB, 0xCD, 0xEF, 0x01].length - r'.stream.length = ([3, 7, 9].sum + 7) / 8 :=
  ⟨[true, true, true], _, rfl,
    (read_bits_buffer_invariant [0xAB, 0xCD, 0xEF, 0x01] [] [3, 7, 9] [true, true, true] _ rfl
      (by decide)).1,
    (read_bits_buffer_invariant [0xAB, 0xCD, 0xEF, 0x01] [] [3, 7, 9] [true, true, true] _ rfl
      (by decide)).2.2.2⟩

/-- C31, counterexample: on a source of two bytes, `read_bits` for 64 bits
fails after it has loaded both bytes into the buffer; the call for one bit that
follows succeeds and leaves 15 bits buffered.  One bit has been read and two
bytes have been taken from the source. -/
theorem read_bits_after_failed_read :
    ((ibitstream.fresh [0xAB, 0xCD] []).read_bits_seq [64, 1]).map
        (fun x => (x.1, x.2.bits_in_buffer, x.2.stream))
      = some ([false, true], 15, []) := by
  decide

theorem decode_variablesize_int_loop_suffix (bits_needed : Nat) :
    ∀ (stream : List Nat) (i value v : Nat) (rest : List Nat),
      decode_variablesize_int_loop bits_needed i value stream = some (v, rest) →
      ∃ taken, stream = taken ++ rest := by
  intro stream
  induction stream with
  | nil =>
    intro i value v rest h
    rw [decode_variablesize_int_loop] at h
    split at h
    · simp at h
    · simp only [Option.some.injEq, Prod.mk.injEq] at h
      exact ⟨[], by simp [h.2]⟩
  | cons byte stream ih =>
    intro i value v rest h
    rw [decode_variablesize_int_loop] at h
    split at h
    · simp only at h
      split at h
      · simp only [Option.some.injEq, Prod.mk.injEq] at h
        exact ⟨[byte], by simp [h.2]⟩
      · split at h
        · simp at h
        · obtain ⟨taken, ht⟩ := ih _ _ _ _ h
          exact ⟨byte :: taken, by rw [ht]; rfl⟩
    · simp only [Option.some.injEq, Prod.mk.injEq] at h
      exact ⟨[], by simp [h.2]⟩

theorem read_integer_frame (bits_needed : Nat) (r r' : ibitstream) (k : Nat)
    (h : r.read_integer bits_needed = some (k, r')) :
    r'.read_write_buffer = r.read_write_buffer ∧ r'.bits_in_buffer = r.bits_in_buffer
      ∧ r'.m_text_buffer = r.m_text_buffer ∧ ∃ taken, r.stream = taken ++ r'.stream := by
  unfold ibitstream.read_integer at h
  split at h
  · simp at h
  · rename_i value rest e
    simp only [Option.some.injEq, Prod.mk.injEq] at h
    obtain ⟨_, h⟩ := h
    subst h
    exact ⟨rfl, rfl, rfl, decode_variablesize_int_loop_suffix bits_needed _ _ _ _ _ e⟩

theorem read_string_frame (bits_needed : Nat) (round_up_to_power_of_two : Nat → Nat)
    (r r' : ibitstream) (s : List Nat)
    (h : r.read_string bits_needed round_up_to_power_of_two = some (s, r')) :
    r'.read_write_buffer = r.read_write_buffer ∧ r'.bits_in_buffer = r.bits_in_buffer
      ∧ ∃ taken, r.stream = taken ++ r'.stream := by
  unfold ibitstream.read_string at h
  split at h
  · simp at h
  · rename_i length r1 e
    obtain ⟨h1, h2, _, taken, h4⟩ := read_integer_frame bits_needed r r1 length e
    simp only [Option.some.injEq, Prod.mk.injEq] at h
    obtain ⟨_, h⟩ := h
    subst h
    refine ⟨h1, h2, taken ++ r1.stream.take length, ?_⟩
    simp only
    rw [List.append_assoc, List.take_append_drop, h4]

theorem flush_stream_of_buffer (s t : obitstream)
    (h1 : t.read_write_buffer = s.read_write_buffer) (h2 : t.bits_in_buffer = s.bits_in_buffer) :
    t.flush.stream = t.stream ++ s.flush.stream.drop s.stream.length := by
  unfold obitstream.flush
  rw [h1, h2]
  split
  · simp
  · simp

/-- C32: the byte-wise calls leave the bit buffer alone.  `write_integer` and
`write_string` keep `read_write_buffer` and `bits_in_buffer` and append their
bytes to the sink at once; the bytes are those written with an empty buffer,
and a writer with any other buffer does the same to the sink.  Bits that are
pending in the buffer reach the sink later, behind these bytes: a `flush` after
the call emits what it would have emitted before it.  `read_integer` and
`read_string`, when they return, keep `read_write_buffer` and `bits_in_buffer`,
take their bytes from the front of the source, and do the same with any other
buffer. -/
theorem byte_calls_leave_bit_buffer (bits_needed : Nat) (round_up_to_power_of_two : Nat → Nat)
    (w : obitstream) (r : ibitstream) (val : Nat) (string : List Nat)
    (read_write_buffer bits_in_buffer : Nat) :
    ((w.write_integer val).read_write_buffer = w.read_write_buffer
      ∧ (w.write_integer val).bits_in_buffer = w.bits_in_buffer
      ∧ (w.write_integer val).stream
          = w.stream ++ (obitstream.fresh.write_integer val).stream
      ∧ ({ w with read_write_buffer := read_write_buffer,
                  bits_in_buffer := bits_in_buffer }.write_integer val).stream
          = (w.write_integer val).stream
      ∧ (w.write_integer val).flush.stream
          = (w.write_integer val).stream ++ w.flush.stream.drop w.stream.length)
    ∧ ((w.write_string string).read_write_buffer = w.read_write_buffer
      ∧ (w.write_string string).bits_in_buffer = w.bits_in_buffer
      ∧ (w.write_string string).stream
          = w.stream ++ (obitstream.fresh.write_string string).stream
      ∧ ({ w with read_write_buffer := read_write_buffer,
                  bits_in_buffer := bits_in_buffer }.write_string string).stream
          = (w.write_string string).stream
      ∧ (w.write_string string).flush.stream
          = (w.write_string string).stream ++ w.flush.stream.drop w.stream.length)
    ∧ (∀ k r', r.read_integer bits_needed = some (k, r') →
        r'.read_write_buffer = r.read_write_buffer ∧ r'.bits_in_buffer = r.bits_in_buffer
        ∧ (∃ taken, r.stream = taken ++ r'.stream)
        ∧ { r with read_write_buffer := read_write_buffer,
                   bits_in_buffer := bits_in_buffer }.read_integer bits_needed
            = some (k, { r' with read_write_buffer := read_write_buffer,
                                 bits_in_buffer := bits_in_buffer }))
    ∧ (∀ s r', r.read_string bits_needed round_up_to_power_of_two = some (s, r') →
        r'.read_write_buffer = r.read_write_buffer ∧ r'.bits_in_buffer = r.bits_in_buffer
        ∧ (∃ taken, r.stream = taken ++ r'.stream)
        ∧ { r with read_write_buffer := read_write_buffer,
                   bits_in_buffer := bits_in_buffer }.read_string bits_needed
              round_up_to_power_of_two
            = some (s, { r' with read_write_buffer := read_write_buffer,
                                 bits_in_buffer := bits_in_buffer })) := by
  refine ⟨⟨rfl, rfl, ?_, ?_, ?_⟩, ⟨rfl, rfl, ?_, ?_, ?_⟩, ?_, ?_⟩
  · rw [write_integer_stream, write_integer_stream]
    simp [obitstream.fresh]
  · rw [write_integer_stream, write_integer_stream]
  · exact flush_stream_of_buffer w _ rfl rfl
  · rw [write_string_stream, write_string_stream]
    simp [obitstream.fresh]
  · rw [write_string_stream, write_string_stream]
  · exact flush_stream_of_buffer w _ rfl rfl
  · intro k r' h
    obtain ⟨h1, h2, _, h4⟩ := read_integer_frame bits_needed r r' k h
    refine ⟨h1, h2, h4, ?_⟩
    unfold ibitstream.read_integer at h ⊢
    simp only at h ⊢
    split at h
    · simp at h
    · rename_i value rest e
      simp only [Option.some.injEq, Prod.mk.injEq] at h
      obtain ⟨hk, hr⟩ := h
      subst hk hr
      rfl
  · intro s r' h
    obtain ⟨h1, h2, h4⟩ := read_string_frame bits_needed round_up_to_power_of_two r r' s h
    refine ⟨h1, h2, h4, ?_⟩
    unfold ibitstream.read_string ibitstream.read_integer at h ⊢
    simp only at h ⊢
    split at h
    · simp at h
    · rename_i length r1 e
      split at e
      · simp at e
      · rename_i value rest e2
        simp only [Option.some.injEq, Prod.mk.injEq] at e
        obtain ⟨hk, hr⟩ := e
        subst hk hr
        simp only [Option.some.injEq, Prod.mk.injEq] at h
        obtain ⟨hs, hr'⟩ := h
        subst hs hr'
        rfl

end mcrl2.utilities

namespace atermpp

open aterm

variable {α : Type}

/-! ## Balanced trees -/

theorem get_distance_eq_length (v : List (aterm α)) : get_distance v = v.length := by
  induction v with
  | nil => rfl
  | cons x xs ih => simp [get_distance, ih]

theorem reference_tree_of_two_le (v : List (aterm α)) (h : 2 ≤ v.length) :
    reference_tree v =
      tree_node (reference_tree (v.take ((v.length + 1) / 2)))
        (reference_tree (v.drop ((v.length + 1) / 2))) := by
  match v, h with
  | x :: y :: rest, _ => rw [reference_tree]

theorem make_tree_append (n : Nat) :
    ∀ (v rest : List (aterm α)), v.length = n →
      make_tree (v ++ rest) n = some (reference_tree v, rest) := by
  induction n using Nat.strong_induction_on with
  | _ n ih =>
    intro v rest hv
    rw [make_tree.eq_def]
    by_cases h0 : n = 0
    · subst h0
      have : v = [] := List.length_eq_zero.mp hv
      subst this
      simp [reference_tree]
    · by_cases h1 : n = 1
      · subst h1
        match v, hv with
        | [x], _ => simp [reference_tree]
      · have h2 : 2 ≤ v.length := by omega
        have hk : (n + 1) >>> 1 = (n + 1) / 2 := by simp [Nat.shiftRight_eq_div_pow]
        have hk2 : n >>> 1 = n / 2 := by simp [Nat.shiftRight_eq_div_pow]
        have hsplit : v ++ rest = v.take ((n + 1) / 2) ++ (v.drop ((n + 1) / 2) ++ rest) := by
          rw [← List.append_assoc, List.take_append_drop]
        have hl : (v.take ((n + 1) / 2)).length = (n + 1) / 2 := by
          rw [List.length_take]; omega
        have hr : (v.drop ((n + 1) / 2)).length = n / 2 := by
          rw [List.length_drop]; omega
        have e1 := ih ((n + 1) / 2) (by omega) _ (v.drop ((n + 1) / 2) ++ rest) hl
        have e2 := ih (n / 2) (by omega) _ rest hr
        simp only [h0, h1, if_false, hk, hk2]
        rw [hsplit, e1]
        simp only [e2]
        rw [reference_tree_of_two_le v h2, hv]

theorem term_balanced_tree_of_range_eq (v : List (aterm α)) :
    term_balanced_tree_of_range v = some (reference_tree v) := by
  have h := make_tree_append v.length v [] rfl
  rw [List.append_nil] at h
  simp [term_balanced_tree_of_range, get_distance_eq_length, h]

/-- Sum of `size()` over the elements of a sequence. -/
theorem size_reference_tree (n : Nat) :
    ∀ v : List (aterm α), v.length = n → (reference_tree v).size = (v.map size).sum := by
  induction n using Nat.strong_induction_on with
  | _ n ih =>
    intro v hv
    match v, hv with
    | [], _ => simp [reference_tree, size]
    | [x], _ => simp [reference_tree]
    | x :: y :: rest, hv =>
      have h2 : 2 ≤ (x :: y :: rest).length := by simp
      rw [reference_tree_of_two_le _ h2]
      have hl : ((x :: y :: rest).take (((x :: y :: rest).length + 1) / 2)).length < n := by
        rw [List.length_take]; simp only [List.length_cons] at hv ⊢; omega
      have hr : ((x :: y :: rest).drop (((x :: y :: rest).length + 1) / 2)).length < n := by
        rw [List.length_drop]; simp only [List.length_cons] at hv ⊢; omega
      rw [size, ih _ hl _ rfl, ih _ hr _ rfl, ← List.sum_append, ← List.map_append,
        List.take_append_drop]

theorem sum_map_size_eq_length (v : List (aterm α)) (h : ∀ e ∈ v, e.size = 1) :
    (v.map size).sum = v.length := by
  induction v with
  | nil => rfl
  | cons x xs ih =>
    simp only [List.map_cons, List.sum_cons, List.length_cons]
    rw [h x (List.mem_cons_self _ _), ih (fun e he => h e (List.mem_cons_of_mem _ he))]
    omega

theorem element_at_leaf (t : aterm α) (h : t.size = 1) : t.element_at 0 1 = some t := by
  cases t with
  | tree_empty => simp [size] at h
  | tree_node l r => simp [element_at, h]
  | other a => simp [element_at, size]

theorem element_at_reference_tree (n : Nat) :
    ∀ (v : List (aterm α)) (i : Nat), v.length = n → (∀ e ∈ v, e.size = 1) → i < n →
      (reference_tree v).element_at i n = v[i]? := by
  induction n using Nat.strong_induction_on with
  | _ n ih =>
    intro v i hv hs hi
    match v, hv with
    | [], hv => simp at hv; omega
    | [x], hv =>
      simp only [List.length_singleton] at hv
      subst hv
      have hi0 : i = 0 := by omega
      subst hi0
      simp only [reference_tree, List.getElem?_cons_zero]
      exact element_at_leaf x (hs x (List.mem_singleton_self x))
    | x :: y :: rest, hv =>
      have h2 : 2 ≤ (x :: y :: rest).length := by simp
      generalize hvv : x :: y :: rest = v at *
      have hk : (n + 1) >>> 1 = (n + 1) / 2 := by simp [Nat.shiftRight_eq_div_pow]
      have hl : (v.take ((n + 1) / 2)).length = (n + 1) / 2 := by
        rw [List.length_take]; omega
      have hr : (v.drop ((n + 1) / 2)).length = n - (n + 1) / 2 := by
        rw [List.length_drop]; omega
      have hsl : ∀ e ∈ v.take ((n + 1) / 2), e.size = 1 :=
        fun e he => hs e (List.mem_of_mem_take he)
      have hsr : ∀ e ∈ v.drop ((n + 1) / 2), e.size = 1 :=
        fun e he => hs e (List.mem_of_mem_drop he)
      have hsize : (reference_tree v).size = n := by
        rw [size_reference_tree _ v rfl, sum_map_size_eq_length v hs, hv]
      rw [reference_tree_of_two_le v h2] at hsize ⊢
      rw [hv] at hsize ⊢
      rw [element_at]
      have h1 : 1 < n := by omega
      simp only [hsize, hi, h1, and_self, if_true, hk, true_and]
      split
      · rename_i hlt
        rw [ih _ (by omega) _ i hl hsl hlt, List.getElem?_take_of_lt hlt]
      · rename_i hge
        rw [ih _ (by omega) _ (i - (n + 1) / 2) hr hsr (by omega), List.getElem?_drop]
        congr 1
        omega

theorem leaves_of_not_node (t : aterm α) (h : t.is_node = false) : leaves t = [t] := by
  cases t with
  | tree_empty => rfl
  | tree_node l r => simp [is_node] at h
  | other a => rfl

theorem leaves_ne_nil (t : aterm α) : leaves t ≠ [] := by
  induction t with
  | tree_empty => simp [leaves]
  | tree_node l r ihl _ => simp [leaves, ihl]
  | other a => simp [leaves]

theorem leaves_reference_tree (n : Nat) :
    ∀ v : List (aterm α), v.length = n → v ≠ [] → (∀ e ∈ v, e.is_node = false) →
      leaves (reference_tree v) = v := by
  induction n using Nat.strong_induction_on with
  | _ n ih =>
    intro v hv hne hs
    match v, hv with
    | [], _ => exact absurd rfl hne
    | [x], _ =>
      simp only [reference_tree]
      exact leaves_of_not_node x (hs x (List.mem_singleton_self x))
    | x :: y :: rest, hv =>
      have h2 : 2 ≤ (x :: y :: rest).length := by simp
      generalize hvv : x :: y :: rest = v at *
      have hl : (v.take ((v.length + 1) / 2)).length = (v.length + 1) / 2 := by
        rw [List.length_take]; omega
      have hr : (v.drop ((v.length + 1) / 2)).length = v.length - (v.length + 1) / 2 := by
        rw [List.length_drop]
      have hnl : v.take ((v.length + 1) / 2) ≠ [] := by
        intro h; rw [h] at hl; simp at hl; omega
      have hnr : v.drop ((v.length + 1) / 2) ≠ [] := by
        intro h; rw [h] at hr; simp at hr; omega
      rw [reference_tree_of_two_le v h2, leaves,
        ih _ (by omega) _ hl hnl (fun e he => hs e (List.mem_of_mem_take he)),
        ih _ (by omega) _ hr hnr (fun e he => hs e (List.mem_of_mem_drop he)),
        List.take_append_drop]

/-- The stack after `initialise_loop` holds, top first, terms whose leaves are
those of the tree followed by those of the terms that were pending. -/
theorem initialise_loop_leaves (t : aterm α) :
    ∀ m_trees : List (aterm α), ∃ top rest, initialise_loop t m_trees = top :: rest ∧
      top :: rest.flatMap leaves = leaves t ++ m_trees.flatMap leaves := by
  induction t with
  | tree_empty => intro m; exact ⟨tree_empty, m, rfl, rfl⟩
  | other a => intro m; exact ⟨other a, m, rfl, rfl⟩
  | tree_node l r ihl _ =>
    intro m
    obtain ⟨top, rest, h1, h2⟩ := ihl (r :: m)
    refine ⟨top, rest, ?_, ?_⟩
    · rw [initialise_loop, h1]
    · rw [h2, leaves, List.flatMap_cons, List.append_assoc]

theorem increment_loop_eq (arg0 arg1 : aterm α) (m_trees : List (aterm α)) :
    increment_loop arg0 arg1 m_trees = initialise_loop (tree_node arg0 arg1) m_trees := by
  induction arg0 generalizing arg1 m_trees with
  | tree_empty => rfl
  | other a => rfl
  | tree_node l r ihl _ =>
    rw [increment_loop, ihl, initialise_loop, initialise_loop, initialise_loop]

theorem increment_cons_cons (top current : aterm α) (m_trees : List (aterm α)) :
    increment (top :: current :: m_trees) = some (initialise_loop current m_trees) := by
  cases current with
  | tree_empty => rfl
  | other a => rfl
  | tree_node l r => rw [increment, increment_loop_eq]

theorem iterate_stack (fuel : Nat) :
    ∀ (top : aterm α) (rest : List (aterm α)), (rest.flatMap leaves).length < fuel →
      iterate fuel (top :: rest) = some (top :: rest.flatMap leaves) := by
  induction fuel with
  | zero => intro top rest h; omega
  | succ fuel ih =>
    intro top rest h
    cases rest with
    | nil => cases fuel <;> simp [iterate, increment]
    | cons current m_trees =>
      obtain ⟨top2, rest2, h1, h2⟩ := initialise_loop_leaves current m_trees
      have hlen : (rest2.flatMap leaves).length < fuel := by
        have := congrArg List.length h2
        simp only [List.length_cons, List.length_append, List.flatMap_cons] at this h
        omega
      rw [iterate, increment_cons_cons, h1]
      simp only [ih top2 rest2 hlen, Option.map_some', h2, List.flatMap_cons]

theorem iterate_term_begin (t : aterm α) (fuel : Nat) (h : (leaves t).length ≤ fuel) :
    iterate fuel (term_begin t) = some (leaves t) := by
  obtain ⟨top, rest, h1, h2⟩ := initialise_loop_leaves t []
  simp only [List.flatMap_nil, List.append_nil] at h2
  rw [term_begin, initialise, h1, ← h2]
  apply iterate_stack
  rw [← h2] at h
  simpa using h

theorem reference_tree_injective (n : Nat) :
    ∀ v w : List (aterm α), v.length = n → w.length = n →
      reference_tree v = reference_tree w → v = w := by
  induction n using Nat.strong_induction_on with
  | _ n ih =>
    intro v w hv hw h
    match v, w, hv, hw with
    | [], [], _, _ => rfl
    | [], _ :: _, hv, hw => simp at hv hw; omega
    | [x], [y], _, _ => simpa [reference_tree] using h
    | [x], [], hv, hw => simp at hv hw; omega
    | [x], _ :: _ :: _, hv, hw => simp at hv hw; omega
    | x :: y :: rest, w, hv, hw =>
      have h2 : 2 ≤ (x :: y :: rest).length := by simp
      generalize hvv : x :: y :: rest = v at *
      have h2w : 2 ≤ w.length := by omega
      rw [reference_tree_of_two_le v h2, reference_tree_of_two_le w h2w, hv, hw] at h
      injection h with hL hR
      have e1 := ih ((n + 1) / 2) (by omega) _ _
        (by rw [List.length_take]; omega) (by rw [List.length_take]; omega) hL
      have e2 := ih (n - (n + 1) / 2) (by omega) _ _
        (by rw [List.length_drop]; omega) (by rw [List.length_drop]; omega) hR
      rw [← List.take_append_drop ((n + 1) / 2) v, ← List.take_append_drop ((n + 1) / 2) w,
        e1, e2]

/-- C4, as amended: for every sequence `v` whose elements all have `size() = 1`
(every term that is neither a tree node nor the empty tree has) and every index
`i < |v|`, `element_at(i, |v|)` on the balanced tree constructed from `v` passes
its assertions and returns `v[i]`. -/
theorem element_at_of_range (v : List (aterm α)) (i : Nat)
    (hs : ∀ e ∈ v, e.size = 1) (hi : i < v.length) :
    (term_balanced_tree_of_range v).bind (fun t => t.element_at i v.length)
      = some (v.get ⟨i, hi⟩) := by
  rw [term_balanced_tree_of_range_eq, Option.some_bind,
    element_at_reference_tree v.length v i rfl hs hi, List.getElem?_eq_getElem hi]
  rfl

/-- C4, witness: the tree of `[a, b, c, d, e]` gives `element_at(2, 5) = c`. -/
theorem element_at_of_range_witness :
    (term_balanced_tree_of_range
        [other 'a', other 'b', other 'c', other 'd', other 'e']).bind
      (fun t => t.element_at 2 5) = some (other 'c') :=
  element_at_of_range [other 'a', other 'b', other 'c', other 'd', other 'e'] 2
    (by simp [size]) (by decide)

/-- C4, counterexample: on the tree constructed from the one-element sequence
`[@empty@]`, `element_at(0, 1)` does not return the element: the assertion
`size == this->size()` fails, because `size()` of that tree is 0. -/
theorem element_at_of_range_empty_element :
    (term_balanced_tree_of_range [(tree_empty : aterm Nat)]).bind
      (fun t => t.element_at 0 1) = none := by
  rw [term_balanced_tree_of_range_eq]
  simp [reference_tree, element_at, size]

/-- C5, as amended: for every non-empty sequence `v` none of whose elements is a
tree-node term, iterating the balanced tree constructed from `v` from `begin()`
until the iterator equals `end()` takes `|v|` rounds and yields exactly the
elements of `v`, in order. -/
theorem iterate_of_range (v : List (aterm α)) (fuel : Nat) (hne : v ≠ [])
    (hs : ∀ e ∈ v, e.is_node = false) (hf : v.length ≤ fuel) :
    (term_balanced_tree_of_range v).bind (fun t => iterate fuel (term_begin t)) = some v := by
  rw [term_balanced_tree_of_range_eq, Option.some_bind]
  have hl := leaves_reference_tree v.length v rfl hne hs
  have := iterate_term_begin (reference_tree v) fuel (by rw [hl]; exact hf)
  rw [this, hl]

/-- C5, witness: iterating the tree of `[a, b, c, d, e]` yields
`a, b, c, d, e`. -/
theorem iterate_of_range_witness :
    (term_balanced_tree_of_range
        [other 'a', other 'b', other 'c', other 'd', other 'e']).bind
      (fun t => iterate 5 (term_begin t))
      = some [other 'a', other 'b', other 'c', other 'd', other 'e'] :=
  iterate_of_range [other 'a', other 'b', other 'c', other 'd', other 'e'] 5
    (by simp) (by simp [is_node]) (by decide)

/-- C5, counterexample: iterating the tree constructed from the one-element
sequence `[@node@(a, b)]` yields the two terms `a, b` and not the element; and
iterating the tree constructed from the empty sequence yields one term, the
empty-tree term, instead of nothing. -/
theorem iterate_of_range_node_element_or_empty :
    (term_balanced_tree_of_range [tree_node (other 'a') (other 'b')]).bind
        (fun t => iterate 2 (term_begin t)) = some [other 'a', other 'b']
    ∧ (term_balanced_tree_of_range ([] : List (aterm Char))).bind
        (fun t => iterate 1 (term_begin t)) = some [tree_empty] := by
  constructor
  · rw [term_balanced_tree_of_range_eq]
    simp [reference_tree, term_begin, initialise, initialise_loop, iterate, increment]
  · rw [term_balanced_tree_of_range_eq]
    simp [reference_tree, term_begin, initialise, initialise_loop, iterate, increment]

/-- C6, as amended: for every sequence `v` whose elements all have `size() = 1`
(every term that is neither a tree node nor the empty tree has), `size()` of the
balanced tree constructed from `v` equals `|v|`. -/
theorem size_of_range (v : List (aterm α)) (hs : ∀ e ∈ v, e.size = 1) :
    (term_balanced_tree_of_range v).map size = some v.length := by
  rw [term_balanced_tree_of_range_eq, Option.map_some', size_reference_tree _ v rfl,
    sum_map_size_eq_length v hs]

/-- C6, witness: the tree of `[a, b, c, d, e]` has `size() = 5`. -/
theorem size_of_range_witness :
    (term_balanced_tree_of_range
        [other 'a', other 'b', other 'c', other 'd', other 'e']).map size = some 5 :=
  size_of_range [other 'a', other 'b', other 'c', other 'd', other 'e'] (by simp [size])

/-- C6, counterexample: the tree constructed from the one-element sequence
`[@empty@]` has `size() = 0`, not 1. -/
theorem size_of_range_empty_element :
    (term_balanced_tree_of_range [(tree_empty : aterm Nat)]).map size = some 0 := by
  rw [term_balanced_tree_of_range_eq]
  simp [reference_tree, size]

/-- C7: `make_tree(p, n)` consumes the next `n` elements `v` of the iterator and
returns the reference tree of `v`, so do both range constructors, and the
reference tree of the empty sequence is the default-constructed tree. -/
theorem make_tree_eq_reference_tree (v rest : List (aterm α)) :
    make_tree (v ++ rest) v.length = some (reference_tree v, rest)
    ∧ term_balanced_tree_of_range v = some (reference_tree v)
    ∧ term_balanced_tree_of_size (v ++ rest) v.length = some (reference_tree v)
    ∧ reference_tree ([] : List (aterm α)) = term_balanced_tree_default := by
  refine ⟨make_tree_append _ v rest rfl, term_balanced_tree_of_range_eq v, ?_, ?_⟩
  · simp [term_balanced_tree_of_size, make_tree_append _ v rest rfl]
  · simp [reference_tree, term_balanced_tree_default]

/-- C8: for sequences `v` and `w` of the same length, both constructions
succeed and the two trees are the identical term if and only if `v = w`. -/
theorem term_balanced_tree_of_range_eq_iff (v w : List (aterm α)) (h : v.length = w.length) :
    ∃ tv tw, term_balanced_tree_of_range v = some tv ∧ term_balanced_tree_of_range w = some tw
      ∧ (tv = tw ↔ v = w) := by
  refine ⟨reference_tree v, reference_tree w, term_balanced_tree_of_range_eq v,
    term_balanced_tree_of_range_eq w, ?_, ?_⟩
  · exact reference_tree_injective v.length v w rfl h.symm
  · intro e; rw [e]

/-- C8, witness: the trees of `[a, b, c]` and `[a, c, b]`. -/
theorem term_balanced_tree_of_range_eq_iff_witness :
    ∃ tv tw, term_balanced_tree_of_range [other 'a', other 'b', other 'c'] = some tv
      ∧ term_balanced_tree_of_range [other 'a', other 'c', other 'b'] = some tw
      ∧ (tv = tw ↔ [other 'a', other 'b', other 'c'] = [other 'a', other 'c', other 'b']) :=
  term_balanced_tree_of_range_eq_iff [other 'a', other 'b', other 'c']
    [other 'a', other 'c', other 'b'] rfl

/-- For every sequence `v`, `size()` of the balanced tree constructed from `v`
is the sum of `size()` over the elements of `v`. -/
theorem size_of_range_sum (v : List (aterm α)) :
    (term_balanced_tree_of_range v).map size = some (v.map size).sum := by
  rw [term_balanced_tree_of_range_eq, Option.map_some', size_reference_tree _ v rfl]

/-- Iterating any term from `begin()` until the iterator equals `end()` yields
its leaves from left to right, in as many rounds as there are leaves. -/
theorem iterate_leaves (t : aterm α) (fuel : Nat) (h : (leaves t).length ≤ fuel) :
    iterate fuel (term_begin t) = some (leaves t) ∧ (leaves t).length ≠ 0 := by
  refine ⟨iterate_term_begin t fuel h, ?_⟩
  intro h0
  exact leaves_ne_nil t (List.length_eq_zero.mp h0)

/-- Iterating any term, witness: the empty tree has one leaf, itself. -/
theorem iterate_leaves_witness :
    iterate 1 (term_begin (tree_empty : aterm Char)) = some (leaves tree_empty)
      ∧ (leaves (tree_empty : aterm Char)).length ≠ 0 :=
  iterate_leaves tree_empty 1 (by decide)

/-- C17, as amended: in a build with assertions enabled, `element_at(position,
size)` with a size argument different from `size()`, or with
`position >= size`, returns no element: an assertion fails on entry. -/
theorem element_at_rejects (t : aterm α) (position size : Nat)
    (h : size ≠ t.size ∨ size ≤ position) : t.element_at position size = none := by
  have hc : ¬ (size = t.size ∧ position < size) := by
    rintro ⟨h1, h2⟩
    rcases h with h | h
    · exact h h1
    · omega
  cases t with
  | tree_empty => simp only [element_at, hc, if_false]
  | tree_node l r => rw [element_at, if_neg hc]
  | other a => simp only [element_at, hc, if_false]

/-- C17, witness: `element_at(1, 2)` on the tree with the three leaves
`a, b, c`. -/
theorem element_at_rejects_witness :
    (tree_node (tree_node (other 'a') (other 'b')) (other 'c')).element_at 1 2 = none :=
  element_at_rejects (tree_node (tree_node (other 'a') (other 'b')) (other 'c')) 1 2
    (Or.inl (by decide))

/-- C17, counterexample: in a build with `NDEBUG`, on the tree constructed from
`[a, b, c]`, whose `size()` is 3, the call `element_at(1, 2)` returns the
element `c`, while the element at position 1 is `b`. -/
theorem element_at_ndebug_wrong_size :
    (term_balanced_tree_of_range [other 'a', other 'b', other 'c']).bind
        (fun t => t.element_at_ndebug 1 2) = some (other 'c')
    ∧ (term_balanced_tree_of_range [other 'a', other 'b', other 'c']).map size = some 3 := by
  rw [term_balanced_tree_of_range_eq]
  have e : reference_tree [other 'a', other 'b', other 'c']
      = tree_node (tree_node (other 'a') (other 'b')) (other 'c') := by
    simp [reference_tree]
  rw [e]
  decide

/-- C18, as amended: for every sequence `v` whose elements all have
`size() = 1` and every index `i < |v|`, the indexing operator on the balanced
tree `t` constructed from `v` is `element_at(i, size())` and returns `v[i]`. -/
theorem index_of_range (v : List (aterm α)) (i : Nat)
    (hs : ∀ e ∈ v, e.size = 1) (hi : i < v.length) :
    ∃ t, term_balanced_tree_of_range v = some t
      ∧ index t i = t.element_at i t.size
      ∧ index t i = some (v.get ⟨i, hi⟩) := by
  refine ⟨reference_tree v, term_balanced_tree_of_range_eq v, rfl, ?_⟩
  have hsize : (reference_tree v).size = v.length := by
    rw [size_reference_tree _ v rfl, sum_map_size_eq_length v hs]
  rw [index, hsize, element_at_reference_tree v.length v i rfl hs hi,
    List.getElem?_eq_getElem hi]
  rfl

/-- C18, witness: the tree of `[a, b, c, d, e]` indexed at 2. -/
theorem index_of_range_witness :
    ∃ t, term_balanced_tree_of_range [other 'a', other 'b', other 'c', other 'd', other 'e']
        = some t
      ∧ index t 2 = t.element_at 2 t.size
      ∧ index t 2 = some (other 'c') :=
  index_of_range [other 'a', other 'b', other 'c', other 'd', other 'e'] 2
    (by simp [size]) (by decide)

/-- C18, counterexample: on the tree constructed from the one-element sequence
`[@node@(a, b)]` the indexing operator at 0 returns `a`, not the element. -/
theorem index_of_range_node_element :
    (term_balanced_tree_of_range [tree_node (other 'a') (other 'b')]).bind
      (fun t => index t 0) = some (other 'a') := by
  rw [term_balanced_tree_of_range_eq]
  simp [reference_tree, index, element_at, size]

theorem term_balanced_tree_of_size_length (v : List (aterm α)) :
    term_balanced_tree_of_size v v.length = term_balanced_tree_of_range v := by
  rw [term_balanced_tree_of_size, term_balanced_tree_of_range, get_distance_eq_length]

/-- C19, as amended: for every non-empty sequence `v` none of whose elements is
a tree-node term and every function `f`, `apply` on the balanced tree
constructed from `v` visits `|v|` elements and returns the balanced tree
constructed from `[f(v[0]), ..., f(v[n-1])]`. -/
theorem apply_of_range (v : List (aterm α)) (f : aterm α → aterm α) (fuel : Nat)
    (hne : v ≠ []) (hs : ∀ e ∈ v, e.is_node = false) (hf : v.length ≤ fuel) :
    (term_balanced_tree_of_range v).bind (fun t => apply fuel t f)
      = term_balanced_tree_of_range (v.map f)
    ∧ (term_balanced_tree_of_range (v.map f)).isSome = true := by
  have hl := leaves_reference_tree v.length v rfl hne hs
  have hit := iterate_term_begin (reference_tree v) fuel (by rw [hl]; exact hf)
  rw [hl] at hit
  refine ⟨?_, ?_⟩
  · rw [term_balanced_tree_of_range_eq v, Option.some_bind, apply, hit]
    exact term_balanced_tree_of_size_length (v.map f)
  · rw [term_balanced_tree_of_range_eq]; rfl

/-- C19, witness: `apply` on the tree of `[a, b, c]` with the function that
wraps its argument in a node with itself. -/
theorem apply_of_range_witness :
    (term_balanced_tree_of_range [other 'a', other 'b', other 'c']).bind
        (fun t => apply 3 t (fun x => tree_node x x))
      = term_balanced_tree_of_range
          ([other 'a', other 'b', other 'c'].map (fun x => tree_node x x))
    ∧ (term_balanced_tree_of_range
          ([other 'a', other 'b', other 'c'].map (fun x => tree_node x x))).isSome = true :=
  apply_of_range [other 'a', other 'b', other 'c'] (fun x => tree_node x x) 3
    (by simp) (by simp [is_node]) (by decide)

/-- C19, counterexample: with `f` the constant function to `c`, `apply` on the
tree constructed from the one-element sequence `[@node@(a, b)]` returns
`@node@(c, c)`, the tree of two elements, and not `c`, the tree of `[f(v[0])]`;
and `apply` on the tree constructed from the empty sequence returns `c`, the
tree of one element, and not the empty tree. -/
theorem apply_of_range_node_element_or_empty :
    (term_balanced_tree_of_range [tree_node (other 'a') (other 'b')]).bind
        (fun t => apply 2 t (fun _ => other 'c')) = some (tree_node (other 'c') (other 'c'))
    ∧ term_balanced_tree_of_range
        ([tree_node (other 'a') (other 'b')].map (fun _ => other 'c')) = some (other 'c')
    ∧ (term_balanced_tree_of_range ([] : List (aterm Char))).bind
        (fun t => apply 1 t (fun _ => other 'c')) = some (other 'c')
    ∧ term_balanced_tree_of_range (([] : List (aterm Char)).map (fun _ => other 'c'))
        = some tree_empty := by
  have h2 : term_balanced_tree_of_size [other 'c', other 'c'] 2
      = some (tree_node (other 'c') (other 'c')) := by
    rw [show (2 : Nat) = [(other 'c' : aterm Char), other 'c'].length from rfl,
      term_balanced_tree_of_size_length, term_balanced_tree_of_range_eq]
    simp [reference_tree]
  have h1 : term_balanced_tree_of_size [(other 'c' : aterm Char)] 1 = some (other 'c') := by
    rw [show (1 : Nat) = [(other 'c' : aterm Char)].length from rfl,
      term_balanced_tree_of_size_length, term_balanced_tree_of_range_eq]
    simp [reference_tree]
  refine ⟨?_, ?_, ?_, ?_⟩
  · rw [term_balanced_tree_of_range_eq]
    simp [reference_tree, apply, term_begin, initialise, initialise_loop, iterate, increment,
      h2]
  · rw [term_balanced_tree_of_range_eq]
    simp [reference_tree]
  · rw [term_balanced_tree_of_range_eq]
    simp [reference_tree, apply, term_begin, initialise, initialise_loop, iterate, increment,
      h1]
  · rw [term_balanced_tree_of_range_eq]
    simp [reference_tree]

/-- In a build with `NDEBUG`, `element_at(i, n)` on the balanced tree
constructed from any `n` elements returns the element at index `i`. -/
theorem element_at_ndebug_reference_tree (n : Nat) :
    ∀ (v : List (aterm α)) (i : Nat), v.length = n → i < n →
      (reference_tree v).element_at_ndebug i n = v[i]? := by
  induction n using Nat.strong_induction_on with
  | _ n ih =>
    intro v i hv hi
    match v, hv with
    | [], hv => simp at hv; omega
    | [x], hv =>
      simp only [List.length_singleton] at hv
      subst hv
      have hi0 : i = 0 := by omega
      subst hi0
      simp only [reference_tree, List.getElem?_cons_zero]
      cases x <;> simp [element_at_ndebug]
    | x :: y :: rest, hv =>
      have h2 : 2 ≤ (x :: y :: rest).length := by simp
      generalize hvv : x :: y :: rest = v at *
      have hk : (n + 1) >>> 1 = (n + 1) / 2 := by simp [Nat.shiftRight_eq_div_pow]
      have hl : (v.take ((n + 1) / 2)).length = (n + 1) / 2 := by
        rw [List.length_take]; omega
      have hr : (v.drop ((n + 1) / 2)).length = n - (n + 1) / 2 := by
        rw [List.length_drop]; omega
      rw [reference_tree_of_two_le v h2, hv, element_at_ndebug]
      have h1 : 1 < n := by omega
      simp only [h1, if_true, hk]
      split
      · rename_i hlt
        rw [ih _ (by omega) _ i hl hlt, List.getElem?_take_of_lt hlt]
      · rename_i hge
        rw [ih _ (by omega) _ (i - (n + 1) / 2) hr (by omega), List.getElem?_drop]
        congr 1
        omega

/-- With assertions compiled out, `element_at(i, |v|)` on the balanced tree
constructed from any sequence `v` returns `v[i]` for every `i < |v|`. -/
theorem element_at_ndebug_of_range (v : List (aterm α)) (i : Nat) (hi : i < v.length) :
    (term_balanced_tree_of_range v).bind (fun t => t.element_at_ndebug i v.length)
      = some (v.get ⟨i, hi⟩) := by
  rw [term_balanced_tree_of_range_eq, Option.some_bind,
    element_at_ndebug_reference_tree v.length v i rfl hi, List.getElem?_eq_getElem hi]
  rfl

/-- With assertions compiled out, witness: the one-element sequence
`[@empty@]`. -/
theorem element_at_ndebug_of_range_witness :
    (term_balanced_tree_of_range [(tree_empty : aterm Char)]).bind
      (fun t => t.element_at_ndebug 0 1) = some tree_empty :=
  element_at_ndebug_of_range [(tree_empty : aterm Char)] 0 (by decide)

/-! ## Assertions, balance and the iterator stack -/

theorem size_of_not_node_not_empty (t : aterm α) (h : t.is_node = false ∧ t.empty = false) :
    t.size = 1 := by
  cases t with
  | tree_empty => simp [empty] at h
  | tree_node l r => simp [is_node] at h
  | other a => rfl

theorem element_at_calls_leaf (t : aterm α) (p s : Nat) (h : t.is_node = false) :
    t.element_at_calls p s = [(t, p, s)] := by
  cases t with
  | tree_empty => rfl
  | tree_node l r => simp [is_node] at h
  | other a => rfl

theorem element_at_calls_reference_tree (n : Nat) :
    ∀ (v : List (aterm α)) (i : Nat), v.length = n →
      (∀ e ∈ v, e.is_node = false ∧ e.empty = false) → i < n →
      ∀ c ∈ (reference_tree v).element_at_calls i n,
        c.2.2 = c.1.size ∧ c.2.1 < c.2.2 ∧ (1 < c.2.2 → c.1.is_node = true) := by
  induction n using Nat.strong_induction_on with
  | _ n ih =>
    intro v i hv hs hi
    match v, hv with
    | [], hv => simp at hv; omega
    | [x], hv =>
      simp only [List.length_singleton] at hv
      subst hv
      have hx := hs x (List.mem_singleton_self x)
      intro c hc
      simp only [reference_tree, element_at_calls_leaf x i 1 hx.1, List.mem_singleton] at hc
      subst hc
      simp only [size_of_not_node_not_empty x hx]
      exact ⟨trivial, hi, fun h => absurd h (by decide)⟩
    | x :: y :: rest, hv =>
      have h2 : 2 ≤ (x :: y :: rest).length := by simp
      generalize hvv : x :: y :: rest = v at *
      have hk : (n + 1) >>> 1 = (n + 1) / 2 := by simp [Nat.shiftRight_eq_div_pow]
      have hl : (v.take ((n + 1) / 2)).length = (n + 1) / 2 := by
        rw [List.length_take]; omega
      have hr : (v.drop ((n + 1) / 2)).length = n - (n + 1) / 2 := by
        rw [List.length_drop]; omega
      have hsl : ∀ e ∈ v.take ((n + 1) / 2), e.is_node = false ∧ e.empty = false :=
        fun e he => hs e (List.mem_of_mem_take he)
      have hsr : ∀ e ∈ v.drop ((n + 1) / 2), e.is_node = false ∧ e.empty = false :=
        fun e he => hs e (List.mem_of_mem_drop he)
      have hsize : (reference_tree v).size = n := by
        rw [size_reference_tree _ v rfl,
          sum_map_size_eq_length v (fun e he => size_of_not_node_not_empty e (hs e he)), hv]
      rw [reference_tree_of_two_le v h2] at hsize ⊢
      rw [hv] at hsize ⊢
      rw [element_at_calls]
      have h1 : 1 < n := by omega
      simp only [h1, if_true, hk]
      intro c hc
      rcases List.mem_cons.mp hc with hc | hc
      · subst hc
        exact ⟨hsize.symm, hi, fun _ => rfl⟩
      · split at hc
        · rename_i hlt
          exact ih _ (by omega) _ i hl hsl hlt c hc
        · rename_i hge
          exact ih _ (by omega) _ (i - (n + 1) / 2) hr hsr (by omega) c hc

theorem element_at_calls_length (t : aterm α) :
    ∀ p s : Nat, (t.element_at_calls p s).length ≤ depth t + 1 := by
  induction t with
  | tree_empty => intro p s; simp [element_at_calls]
  | other a => intro p s; simp [element_at_calls]
  | tree_node l r ihl ihr =>
    intro p s
    rw [element_at_calls, depth, List.length_cons]
    split
    · split
      · have := ihl p ((s + 1) >>> 1)
        omega
      · have := ihr (p - ((s + 1) >>> 1)) (s - ((s + 1) >>> 1))
        omega
    · simp

theorem leaves_length_reference_tree (v : List (aterm α)) (hne : v ≠ [])
    (hs : ∀ e ∈ v, e.is_node = false) : (leaves (reference_tree v)).length = v.length := by
  rw [leaves_reference_tree v.length v rfl hne hs]

theorem balanced_reference_tree (n : Nat) :
    ∀ v : List (aterm α), v.length = n → v ≠ [] →
      (∀ e ∈ v, e.is_node = false ∧ e.empty = false) →
      balanced (reference_tree v) = true ∧ (reference_tree v).empty = false ∧
        depth (reference_tree v) ≤ Nat.clog 2 n := by
  induction n using Nat.strong_induction_on with
  | _ n ih =>
    intro v hv hne hs
    match v, hv with
    | [], _ => exact absurd rfl hne
    | [x], _ =>
      have hx := hs x (List.mem_singleton_self x)
      simp only [reference_tree]
      cases x with
      | tree_empty => simp [empty] at hx
      | tree_node l r => simp [is_node] at hx
      | other a => simp [balanced, empty, depth]
    | x :: y :: rest, hv =>
      have h2 : 2 ≤ (x :: y :: rest).length := by simp
      generalize hvv : x :: y :: rest = v at *
      have hl : (v.take ((v.length + 1) / 2)).length = (v.length + 1) / 2 := by
        rw [List.length_take]; omega
      have hr : (v.drop ((v.length + 1) / 2)).length = v.length / 2 := by
        rw [List.length_drop]; omega
      have hnl : v.take ((v.length + 1) / 2) ≠ [] := by
        intro h; rw [h] at hl; simp at hl; omega
      have hnr : v.drop ((v.length + 1) / 2) ≠ [] := by
        intro h; rw [h] at hr; simp at hr; omega
      have hsl : ∀ e ∈ v.take ((v.length + 1) / 2), e.is_node = false ∧ e.empty = false :=
        fun e he => hs e (List.mem_of_mem_take he)
      have hsr : ∀ e ∈ v.drop ((v.length + 1) / 2), e.is_node = false ∧ e.empty = false :=
        fun e he => hs e (List.mem_of_mem_drop he)
      obtain ⟨bl, el, dl⟩ := ih _ (by omega) _ hl hnl hsl
      obtain ⟨br, er, dr⟩ := ih _ (by omega) _ hr hnr hsr
      have ll := leaves_length_reference_tree _ hnl (fun e he => (hsl e he).1)
      have lr := leaves_length_reference_tree _ hnr (fun e he => (hsr e he).1)
      have hc : Nat.clog 2 v.length = Nat.clog 2 ((v.length + 1) / 2) + 1 := by
        rw [Nat.clog_of_two_le (by decide) h2]
        rfl
      have hm : Nat.clog 2 (v.length / 2) ≤ Nat.clog 2 ((v.length + 1) / 2) :=
        Nat.clog_mono_right 2 (by omega)
      rw [reference_tree_of_two_le v h2]
      refine ⟨?_, rfl, ?_⟩
      · simp only [balanced, leaves, List.length_append, ll, lr, hl, hr, bl, br, el, er,
          Bool.and_true, Bool.not_false, decide_eq_true_eq, Bool.and_eq_true]
        omega
      · rw [depth, ← hv]
        omega

theorem right_subtrees_trans (t : aterm α) :
    ∀ s ∈ right_subtrees t, ∀ u ∈ right_subtrees s, u ∈ right_subtrees t := by
  induction t with
  | tree_empty => intro s hs; simp [right_subtrees] at hs
  | other a => intro s hs; simp [right_subtrees] at hs
  | tree_node l r ihl ihr =>
    intro s hs u hu
    simp only [right_subtrees, List.mem_cons, List.mem_append] at hs ⊢
    rcases hs with hs | hs | hs
    · subst hs; exact Or.inr (Or.inr hu)
    · exact Or.inr (Or.inl (ihl s hs u hu))
    · exact Or.inr (Or.inr (ihr s hs u hu))

/-- The terms below the top of the stack after `initialise_loop` are right
arguments of nodes of the tree, or were on the stack before. -/
theorem initialise_loop_pending (t : aterm α) :
    ∀ (m_trees : List (aterm α)), ∀ s ∈ (initialise_loop t m_trees).tail,
      s ∈ right_subtrees t ∨ s ∈ m_trees := by
  induction t with
  | tree_empty => intro m s hs; exact Or.inr hs
  | other a => intro m s hs; exact Or.inr hs
  | tree_node l r ihl _ =>
    intro m s hs
    rw [initialise_loop] at hs
    rcases ihl (r :: m) s hs with h | h
    · exact Or.inl (by simp [right_subtrees, h])
    · rcases List.mem_cons.mp h with h | h
      · exact Or.inl (by simp [right_subtrees, h])
      · exact Or.inr h

theorem increment_n_succ (j : Nat) :
    ∀ m_trees : List (aterm α),
      increment_n (j + 1) m_trees = (increment_n j m_trees).bind increment := by
  induction j with
  | zero => intro m; simp [increment_n]
  | succ j ih =>
    intro m
    rw [increment_n]
    cases h : increment m with
    | none => simp [increment_n, h]
    | some next =>
      have e : increment_n (j + 1) m = increment_n j next := by rw [increment_n, h]; rfl
      rw [Option.some_bind, e, ih next]

/-- The stack of the iterator of the tree of `v` after `j < |v|` increments. -/
theorem increment_n_reference_tree (v : List (aterm α)) (hne : v ≠ [])
    (hs : ∀ e ∈ v, e.is_node = false) :
    ∀ j, j < v.length → ∃ top rest,
      increment_n j (term_begin (reference_tree v)) = some (top :: rest) ∧
      top :: rest.flatMap leaves = v.drop j ∧
      ∀ s ∈ rest, s ∈ right_subtrees (reference_tree v) := by
  intro j
  induction j with
  | zero =>
    intro _
    obtain ⟨top, rest, h1, h2⟩ := initialise_loop_leaves (reference_tree v) []
    refine ⟨top, rest, ?_, ?_, ?_⟩
    · simp [increment_n, term_begin, initialise, h1]
    · simpa [leaves_reference_tree v.length v rfl hne hs] using h2
    · intro s hs2
      have := initialise_loop_pending (reference_tree v) [] s (by rw [h1]; exact hs2)
      simpa using this
  | succ j ih =>
    intro hj
    obtain ⟨top, rest, h1, h2, h3⟩ := ih (by omega)
    cases rest with
    | nil =>
      exfalso
      have := congrArg List.length h2
      simp at this
      omega
    | cons current m_trees =>
      obtain ⟨top2, rest2, e1, e2⟩ := initialise_loop_leaves current m_trees
      refine ⟨top2, rest2, ?_, ?_, ?_⟩
      · rw [increment_n_succ, h1, Option.some_bind, increment_cons_cons, e1]
      · rw [e2, ← List.flatMap_cons, ← List.drop_drop 1 j v, ← h2]
        rfl
      · intro s hs2
        rcases initialise_loop_pending current m_trees s (by rw [e1]; exact hs2) with h | h
        · exact right_subtrees_trans _ current (h3 current (List.mem_cons_self _ _)) s h
        · exact h3 s (List.mem_cons_of_mem _ h)

theorem increment_n_reference_tree_end (v : List (aterm α)) (hne : v ≠ [])
    (hs : ∀ e ∈ v, e.is_node = false) :
    increment_n v.length (term_begin (reference_tree v)) = some term_end := by
  have hpos : 0 < v.length := List.length_pos.mpr hne
  obtain ⟨k, hk⟩ : ∃ k, v.length = k + 1 := ⟨v.length - 1, by omega⟩
  obtain ⟨top, rest, h1, h2, _⟩ := increment_n_reference_tree v hne hs k (by omega)
  have hlen := congrArg List.length h2
  simp only [List.length_cons, List.length_drop] at hlen
  have hr : rest = [] := by
    cases rest with
    | nil => rfl
    | cons c m =>
      exfalso
      have := leaves_ne_nil c
      have h0 : 0 < (leaves c).length := List.length_pos.mpr this
      simp only [List.flatMap_cons, List.length_append] at hlen
      omega
  subst hr
  rw [hk, increment_n_succ, h1]
  rfl

/-- C26: for every sequence `v` none of whose elements is a tree-node or
empty-tree term and every `position < |v|` (so `|v| ≥ 1`), the call
`element_at(position, |v|)` on the balanced tree constructed from `v` meets
both assertions in every call of the recursion, `size == this->size()` and
`position < size`; every call that goes on to `left_branch()` or
`right_branch()`, one with `1 < size`, is made on a node term; and the call
returns. -/
theorem element_at_assertions_hold (v : List (aterm α)) (position : Nat)
    (hs : ∀ e ∈ v, e.is_node = false ∧ e.empty = false) (hp : position < v.length) :
    ∃ t, term_balanced_tree_of_range v = some t
      ∧ (∀ c ∈ t.element_at_calls position v.length,
          c.2.2 = c.1.size ∧ c.2.1 < c.2.2 ∧ (1 < c.2.2 → c.1.is_node = true))
      ∧ (t.element_at position v.length).isSome = true := by
  refine ⟨reference_tree v, term_balanced_tree_of_range_eq v,
    element_at_calls_reference_tree v.length v position rfl hs hp, ?_⟩
  rw [element_at_reference_tree v.length v position rfl
    (fun e he => size_of_not_node_not_empty e (hs e he)) hp, List.getElem?_eq_getElem hp]
  rfl

/-- C26, witness: position 3 in the tree of `[a, b, c, d, e]`. -/
theorem element_at_assertions_hold_witness :
    ∃ t, term_balanced_tree_of_range [other 'a', other 'b', other 'c', other 'd', other 'e']
        = some t
      ∧ (∀ c ∈ t.element_at_calls 3
            [other 'a', other 'b', other 'c', other 'd', other 'e'].length,
          c.2.2 = c.1.size ∧ c.2.1 < c.2.2 ∧ (1 < c.2.2 → c.1.is_node = true))
      ∧ (t.element_at 3
            [other 'a', other 'b', other 'c', other 'd', other 'e'].length).isSome = true :=
  element_at_assertions_hold [other 'a', other 'b', other 'c', other 'd', other 'e'] 3
    (by simp [is_node, empty]) (by decide)

/-- C27, as amended: the tree constructed from a non-empty sequence `v` none of
whose elements is a tree-node or empty-tree term is balanced: every node that
spans `k` leaves has a left child spanning `ceil(k/2)` and a right child
spanning `floor(k/2)` leaves, and no child of a node is the empty tree.  Every
leaf lies below at most `ceil(log2 |v|)` nodes, and a call of `element_at` on
the tree makes at most that many recursive calls after the first. -/
theorem balanced_of_range (v : List (aterm α)) (hne : v ≠ [])
    (hs : ∀ e ∈ v, e.is_node = false ∧ e.empty = false) :
    ∃ t, term_balanced_tree_of_range v = some t
      ∧ balanced t = true
      ∧ depth t ≤ Nat.clog 2 v.length
      ∧ ∀ position size : Nat,
          (t.element_at_calls position size).length ≤ Nat.clog 2 v.length + 1 := by
  obtain ⟨hb, _, hd⟩ := balanced_reference_tree v.length v rfl hne hs
  refine ⟨reference_tree v, term_balanced_tree_of_range_eq v, hb, hd, ?_⟩
  intro position size
  have := element_at_calls_length (reference_tree v) position size
  omega

/-- C27, witness: the tree of `[a, b, c, d, e]`. -/
theorem balanced_of_range_witness :
    ∃ t, term_balanced_tree_of_range [other 'a', other 'b', other 'c', other 'd', other 'e']
        = some t
      ∧ balanced t = true
      ∧ depth t ≤ Nat.clog 2 [other 'a', other 'b', other 'c', other 'd', other 'e'].length
      ∧ ∀ position size : Nat,
          (t.element_at_calls position size).length
            ≤ Nat.clog 2 [other 'a', other 'b', other 'c', other 'd', other 'e'].length + 1 :=
  balanced_of_range [other 'a', other 'b', other 'c', other 'd', other 'e']
    (by simp) (by simp [is_node, empty])

/-- C27, counterexample: the tree constructed from the two elements `@empty@`
and `a` is a node whose left child is the empty tree, so it is not balanced;
and the tree constructed from the one element `@node@(@node@(a, b), c)` has a
leaf below two nodes, more than `ceil(log2 1) = 0`. -/
theorem balanced_of_range_empty_or_node_element :
    (term_balanced_tree_of_range [(tree_empty : aterm Nat), other 0]
        = some (tree_node tree_empty (other 0))
      ∧ balanced (tree_node (tree_empty : aterm Nat) (other 0)) = false)
    ∧ (term_balanced_tree_of_range [tree_node (tree_node (other 0) (other 1)) (other 2)]
        = some (tree_node (tree_node (other 0) (other 1)) (other 2))
      ∧ Nat.clog 2 [tree_node (tree_node (other 0) (other 1)) (other 2)].length
        < depth (tree_node (tree_node (other 0) (other 1)) (other 2))) := by
  refine ⟨⟨?_, by decide⟩, ?_, ?_⟩
  · rw [term_balanced_tree_of_range_eq]
    simp [reference_tree]
  · rw [term_balanced_tree_of_range_eq]
    simp [reference_tree]
  · simp [depth]

/-- C28: for every non-empty sequence `v` whose elements are neither tree-node
nor empty-tree terms, the iterator from `begin()` of the tree `t` of `v`,
after `j < |v|` increments, is not equal to `end()` and dereferences to `v[j]`
(to `v[0]` at the start); its stack holds `v[j]` on top of terms that are right
arguments of nodes of `t` and whose leaves, read from the top of the stack
down and each from left to right, are `v[j+1], ..., v[|v|-1]`; and after
exactly `|v|` increments the stack is empty, the iterator equal to `end()`. -/
theorem iterator_of_range (v : List (aterm α)) (hne : v ≠ [])
    (hs : ∀ e ∈ v, e.is_node = false ∧ e.empty = false) :
    ∃ t, term_balanced_tree_of_range v = some t
      ∧ (∀ (j : Nat) (hj : j < v.length),
          (increment_n j (term_begin t)).bind dereference = some (v.get ⟨j, hj⟩)
          ∧ increment_n j (term_begin t) ≠ some term_end
          ∧ ∃ rest, increment_n j (term_begin t) = some (v.get ⟨j, hj⟩ :: rest)
              ∧ rest.flatMap leaves = v.drop (j + 1)
              ∧ ∀ s ∈ rest, s ∈ right_subtrees t)
      ∧ increment_n v.length (term_begin t) = some term_end := by
  have hn : ∀ e ∈ v, e.is_node = false := fun e he => (hs e he).1
  refine ⟨reference_tree v, term_balanced_tree_of_range_eq v, ?_,
    increment_n_reference_tree_end v hne hn⟩
  intro j hj
  obtain ⟨top, rest, h1, h2, h3⟩ := increment_n_reference_tree v hne hn j hj
  rw [List.drop_eq_getElem_cons hj] at h2
  injection h2 with e1 e2
  subst e1
  refine ⟨?_, ?_, rest, h1, e2, h3⟩
  · rw [h1]; rfl
  · rw [h1]; simp [term_end]

/-- C28, witness: the iterator of the tree of `[a, b, c]` is at `end()` after
three increments. -/
theorem iterator_of_range_witness :
    ∃ t, term_balanced_tree_of_range [other 'a', other 'b', other 'c'] = some t
      ∧ increment_n [other 'a', other 'b', other 'c'].length (term_begin t) = some term_end :=
  (iterator_of_range [other 'a', other 'b', other 'c'] (by simp)
    (by simp [is_node, empty])).imp (fun _ h => ⟨h.1, h.2.2⟩)

/-! ## The protected list container -/

variable {T : Type}

theorem ATprotectTerms_eq (elements : List T) :
    ∀ marked : List T, ATprotectTerms elements marked = elements.reverse ++ marked := by
  induction elements with
  | nil => intro marked; rfl
  | cons x xs ih =>
    intro marked
    have := ih (x :: marked)
    simp only [ATprotectTerms, List.foldl_cons, mark] at this ⊢
    rw [this]
    simp

theorem list_constructed_registered (w : list_world T) (this : Nat) (elements : List T)
    (h : list_registered w) (hn : (w.objects this).isSome = false) :
    list_registered (list_constructed w this elements) := by
  intro a
  have ha := h a
  have ht := h this
  rw [hn] at ht
  simp only [list_constructed, ATprotectProtectedATerm, List.count_cons]
  by_cases e : a = this
  · subst e
    simp [ht]
  · have e2 : ¬ (this = a) := fun h => e h.symm
    simp [Function.update_noteq e, ha, e2]

theorem list_destroyed_registered (w : list_world T) (this : Nat)
    (h : list_registered w) : list_registered (list_destroyed w this) := by
  intro a
  have ha := h a
  simp only [list_destroyed, ATunprotectProtectedATerm]
  by_cases e : a = this
  · subst e
    rw [List.count_erase_self]
    simp only [Function.update_same, Option.isSome_none, Bool.false_eq_true, if_false]
    rw [ha]
    split <;> rfl
  · rw [List.count_erase_of_ne e]
    simp only [Function.update_noteq e]
    exact ha

theorem list_step_registered (T_default : T) (w w2 : list_world T) (operation : list_operation T)
    (h : list_registered w) (hs : list_step T_default w operation = some w2) :
    list_registered w2 := by
  cases operation with
  | construct_copy this right =>
    simp only [list_step] at hs
    split at hs
    · simp at hs
    · rename_i hn
      split at hs
      · simp at hs
      · injection hs with hs
        subst hs
        exact list_constructed_registered w this _ h (by simpa using hn)
  | destroy this =>
    simp only [list_step] at hs
    split at hs
    · injection hs with hs
      subst hs
      exact list_destroyed_registered w this h
    · simp at hs
  | _ =>
    simp only [list_step] at hs
    split at hs
    · simp at hs
    · rename_i hn
      injection hs with hs
      subst hs
      exact list_constructed_registered w _ _ h (by simpa using hn)

theorem list_run_registered (T_default : T) :
    ∀ (operations : List (list_operation T)) (w w2 : list_world T), list_registered w →
      list_run T_default operations w = some w2 → list_registered w2 := by
  intro operations
  induction operations with
  | nil =>
    intro w w2 h hr
    simp only [list_run, Option.some.injEq] at hr
    subst hr
    exact h
  | cons operation rest ih =>
    intro w w2 h hr
    rw [list_run] at hr
    cases hs : list_step T_default w operation with
    | none => rw [hs] at hr; simp at hr
    | some w1 =>
      rw [hs, Option.some_bind] at hr
      exact ih w1 w2 (list_step_registered T_default w w1 operation h hs) hr

theorem list_constructed_objects (w : list_world T) (this : Nat) (elements : List T) (a : Nat) :
    ((list_constructed w this elements).objects a).isSome
      = if this = a then true else (w.objects a).isSome := by
  simp only [list_constructed]
  by_cases e : this = a
  · subst e; simp
  · have e2 : a ≠ this := fun h => e h.symm
    simp [e, Function.update_noteq e2]

theorem list_destroyed_objects (w : list_world T) (this : Nat) (a : Nat) :
    ((list_destroyed w this).objects a).isSome
      = if this = a then false else (w.objects a).isSome := by
  simp only [list_destroyed]
  by_cases e : this = a
  · subst e; simp
  · have e2 : a ≠ this := fun h => e h.symm
    simp [e, Function.update_noteq e2]

/-- What a construction or destruction does to the objects: the object at the
address of the operation is alive after a construction and not after the
destructor, and the others are as before. -/
theorem list_step_objects (T_default : T) (w w2 : list_world T) (operation : list_operation T)
    (hs : list_step T_default w operation = some w2) (a : Nat) :
    (w2.objects a).isSome
      = if operation.address = a then !operation.is_destroy else (w.objects a).isSome := by
  cases operation with
  | construct_copy this right =>
    simp only [list_step] at hs
    split at hs
    · simp at hs
    · split at hs
      · simp at hs
      · injection hs with hs
        subst hs
        simp [list_constructed_objects, list_operation.address, list_operation.is_destroy]
  | destroy this =>
    simp only [list_step] at hs
    split at hs
    · injection hs with hs
      subst hs
      simp [list_destroyed_objects, list_operation.address, list_operation.is_destroy]
    · simp at hs
  | _ =>
    simp only [list_step] at hs
    split at hs
    · simp at hs
    · injection hs with hs
      subst hs
      simp [list_constructed_objects, list_operation.address, list_operation.is_destroy]

theorem list_run_objects (T_default : T) (a : Nat) :
    ∀ (operations : List (list_operation T)) (w w2 : list_world T),
      list_run T_default operations w = some w2 →
      (w2.objects a).isSome
        = operations.foldl
            (fun alive operation =>
              if operation.address = a then !operation.is_destroy else alive)
            (w.objects a).isSome := by
  intro operations
  induction operations with
  | nil =>
    intro w w2 hr
    simp only [list_run, Option.some.injEq] at hr
    subst hr
    rfl
  | cons operation rest ih =>
    intro w w2 hr
    rw [list_run] at hr
    cases hs : list_step T_default w operation with
    | none => rw [hs] at hr; simp at hr
    | some w1 =>
      rw [hs, Option.some_bind] at hr
      rw [ih w1 w2 hr, list_step_objects T_default w w1 operation hs a, List.foldl_cons]

theorem list_run_alive (T_default : T) (operations : List (list_operation T))
    (w : list_world T) (h : list_run T_default operations list_world.initial = some w)
    (a : Nat) : (w.objects a).isSome = alive_after operations a := by
  rw [list_run_objects T_default a operations list_world.initial w h]
  rfl

/-- C21: `atermpp::list` is a pinning guard.  Take any sequence of
constructions, by any of the eight constructors, and destructions of
`atermpp::list` objects, started with no object alive and an empty registry.
After it the registered containers are exactly the live objects, those whose
last operation in the sequence is a construction, and each of them is
registered exactly once; an object that has been destroyed is not registered.
A destructor that follows takes its object out of the registry and leaves the
other registrations as they are, and a constructor that follows registers its
object exactly once.  On a live object, `ATprotectTerms` marks every element
that the list holds: it calls `mark` once for each element, in order. -/
theorem list_is_pinning_guard (T_default : T) (operations : List (list_operation T))
    (w : list_world T) (h : list_run T_default operations list_world.initial = some w) :
    (∀ this : Nat,
        w.protected_aterms.count this = if alive_after operations this = true then 1 else 0)
    ∧ (∀ this : Nat, this ∈ w.protected_aterms ↔ alive_after operations this = true)
    ∧ (∀ this : Nat, this ∈ w.protected_aterms ↔ (w.objects this).isSome = true)
    ∧ (∀ this : Nat, (w.objects this).isSome = true → w.protected_aterms.count this = 1)
    ∧ (∀ (this : Nat) (w2 : list_world T),
        list_step T_default w (.destroy this) = some w2 →
        this ∉ w2.protected_aterms
        ∧ ∀ a : Nat, a ≠ this → w2.protected_aterms.count a = w.protected_aterms.count a)
    ∧ (∀ (operation : list_operation T) (w2 : list_world T),
        operation.is_destroy = false → list_step T_default w operation = some w2 →
        w2.protected_aterms.count operation.address = 1
        ∧ ∀ a : Nat, a ≠ operation.address →
            w2.protected_aterms.count a = w.protected_aterms.count a)
    ∧ ∀ (this : Nat) (elements marked : List T), w.objects this = some elements →
        (∀ x ∈ elements, x ∈ ATprotectTerms elements marked)
        ∧ ATprotectTerms elements marked = elements.reverse ++ marked := by
  have hreg : list_registered w :=
    list_run_registered T_default operations list_world.initial w
      (by intro this; simp [list_world.initial]) h
  have halive := list_run_alive T_default operations w h
  have hstep : ∀ (operation : list_operation T) (w2 : list_world T),
      list_step T_default w operation = some w2 → ∀ a : Nat,
      w2.protected_aterms.count a
        = if operation.address = a then (if operation.is_destroy = true then 0 else 1)
          else w.protected_aterms.count a := by
    intro operation w2 hs a
    have h2 := list_step_registered T_default w w2 operation hreg hs a
    have h3 := list_step_objects T_default w w2 operation hs a
    rw [h2, h3]
    by_cases e : operation.address = a
    · simp only [e, if_true]
      cases operation.is_destroy <;> simp
    · simp only [e, if_false]
      exact (hreg a).symm
  refine ⟨?_, ?_, ?_, ?_, ?_, ?_, ?_⟩
  · intro this
    rw [← halive this]
    exact hreg this
  · intro this
    have hc := hreg this
    rw [← halive this, ← List.count_pos_iff]
    split at hc <;> simp_all
  · intro this
    have := hreg this
    rw [← List.count_pos_iff]
    split at this <;> simp_all
  · intro this hl
    have := hreg this
    rw [hl] at this
    simpa using this
  · intro this w2 hs
    refine ⟨?_, ?_⟩
    · have := hstep _ w2 hs this
      simp only [list_operation.address, list_operation.is_destroy, if_true] at this
      exact List.count_eq_zero.mp this
    · intro a ha
      have := hstep _ w2 hs a
      simp only [list_operation.address] at this
      rw [this, if_neg (fun e => ha e.symm)]
  · intro operation w2 hd hs
    refine ⟨?_, ?_⟩
    · have := hstep operation w2 hs operation.address
      rw [this]
      simp [hd]
    · intro a ha
      have := hstep operation w2 hs a
      rw [this, if_neg (fun e => ha e.symm)]
  · intro this elements marked _
    refine ⟨?_, ATprotectTerms_eq elements marked⟩
    intro x hx
    rw [ATprotectTerms_eq]
    simp [hx]

/-- C21, witness: a list of `a` and `b` is constructed from a range at address
1 and copied to address 2; then the first object is destroyed.  The registry
then holds the copy alone, and `ATprotectTerms` on the copy marks `a` and
`b`. -/
theorem list_is_pinning_guard_witness :
    ∃ w : list_world Char,
      list_run 'x' [.construct_range 1 ['a', 'b'], .construct_copy 2 1, .destroy 1]
        list_world.initial = some w
      ∧ w.protected_aterms = [2]
      ∧ w.objects 1 = none
      ∧ w.objects 2 = some ['a', 'b']
      ∧ ATprotectTerms ['a', 'b'] [] = ['b', 'a']
      ∧ alive_after
          ([.construct_range 1 ['a', 'b'], .construct_copy 2 1, .destroy 1] :
            List (list_operation Char)) 1 = false
      ∧ (∀ this : Nat, this ∈ w.protected_aterms ↔
          alive_after [.construct_range 1 ['a', 'b'], .construct_copy 2 1, .destroy 1] this
            = true) :=
  ⟨_, rfl, rfl, rfl, rfl, rfl, rfl, (list_is_pinning_guard 'x'
    [.construct_range 1 ['a', 'b'], .construct_copy 2 1, .destroy 1] _ rfl).2.1⟩

end atermpp

namespace mcrl2.lts

/-! ## Hiding actions in an action label -/

theorem parse_action_name_append (name : List Char) (h1 : '(' ∉ name) (h2 : '|' ∉ name)
    (rest : List Char) (hr : rest = [] ∨ rest.head? = some '(' ∨ rest.head? = some '|') :
    ∀ a : List Char, parse_action_name a (name ++ rest) = (a ++ name, rest) := by
  induction name with
  | nil =>
    intro a
    rcases hr with hr | hr | hr
    · subst hr; simp [parse_action_name]
    · cases rest with
      | nil => simp at hr
      | cons ch c =>
        simp only [List.head?_cons, Option.some.injEq] at hr
        subst hr
        simp [parse_action_name]
    · cases rest with
      | nil => simp at hr
      | cons ch c =>
        simp only [List.head?_cons, Option.some.injEq] at hr
        subst hr
        simp [parse_action_name]
  | cons ch name ih =>
    intro a
    simp only [List.mem_cons, not_or] at h1 h2
    have e1 : ch ≠ '(' := fun h => h1.1 h.symm
    have e2 : ch ≠ '|' := fun h => h2.1 h.symm
    rw [List.cons_append, parse_action_name, if_pos ⟨e1, e2⟩, ih h1.2 h2.2]
    simp

theorem closes_at_end_ne_nil (depth : Nat) (q : List Char) (h : closes_at_end depth q = true) :
    q ≠ [] := by
  intro hq
  subst hq
  simp [closes_at_end] at h

theorem skip_parameters_closes (q : List Char) (rest : List Char) :
    ∀ nd : Nat, 1 ≤ nd → nd + q.length < 2 ^ 64 → closes_at_end nd q = true →
      skip_parameters nd (q ++ rest) = rest := by
  induction q with
  | nil => intro nd _ _ h; simp [closes_at_end] at h
  | cons ch q ih =>
    intro nd h1 hlen h
    simp only [List.length_cons] at hlen
    rw [closes_at_end] at h
    rw [List.cons_append, skip_parameters]
    by_cases hc1 : ch = '('
    · simp only [hc1, if_true] at h ⊢
      have hq := closes_at_end_ne_nil _ _ h
      have e : (nd + 1) % 2 ^ 64 = nd + 1 := Nat.mod_eq_of_lt (by omega)
      have hne : q ++ rest ≠ [] := by simp [hq]
      rw [e, if_pos ⟨by omega, hne⟩]
      exact ih (nd + 1) (by omega) (by omega) h
    · by_cases hc2 : ch = ')'
      · simp only [hc1, hc2, if_false, if_true] at h ⊢
        have hc3 : ¬ ((')' : Char) = '(') := by decide
        simp only [hc3, if_false] at h ⊢
        by_cases hd : nd ≤ 1
        · have hnd : nd = 1 := by omega
          subst hnd
          simp only [le_refl, if_true, decide_eq_true_eq] at h
          subst h
          have e : (1 + (2 ^ 64 - 1)) % 2 ^ 64 = 0 := by decide
          simp [e]
        · simp only [hd, if_false] at h
          have hq := closes_at_end_ne_nil _ _ h
          have e : (nd + (2 ^ 64 - 1)) % 2 ^ 64 = nd - 1 := by omega
          have hne : q ++ rest ≠ [] := by simp [hq]
          rw [e, if_pos ⟨by omega, hne⟩]
          exact ih (nd - 1) (by omega) (by omega) h
      · simp only [hc1, hc2, if_false] at h ⊢
        have hq := closes_at_end_ne_nil _ _ h
        have hne : q ++ rest ≠ [] := by simp [hq]
        rw [if_pos ⟨by omega, hne⟩]
        exact ih nd h1 (by omega) h

theorem skip_parameters_balanced (p rest : List Char) (h : balanced_parenthesised p = true)
    (hlen : p.length < 2 ^ 64) : skip_parameters 0 (p ++ rest) = rest := by
  cases p with
  | nil => simp [balanced_parenthesised] at h
  | cons ch q =>
    simp only [balanced_parenthesised, Bool.and_eq_true, decide_eq_true_eq] at h
    obtain ⟨hc, hq⟩ := h
    subst hc
    simp only [List.length_cons] at hlen
    have hne : q ++ rest ≠ [] := by simp [closes_at_end_ne_nil _ _ hq]
    rw [List.cons_append, skip_parameters]
    simp only [if_true]
    have e : (0 + 1) % 2 ^ 64 = 1 := by decide
    rw [e, if_pos ⟨by decide, hne⟩]
    exact skip_parameters_closes q rest 1 (le_refl _) (by omega) hq

theorem hide_actions_loop_cons (string_vector : List (List Char)) (fuel : Nat)
    (ns b : List Char) (hb : b ≠ []) :
    hide_actions_loop string_vector (fuel + 1) ns b =
      hide_actions_loop string_vector fuel
        (if (parse_action_name [] b).1 ∉ string_vector then
          (if ns ≠ [] then ns ++ ['|'] else ns) ++
            b.take (b.length -
              (if (parse_action_name [] b).2.head? = some '('
                then skip_parameters 0 (parse_action_name [] b).2
                else (parse_action_name [] b).2).length)
        else ns)
        (if (if (parse_action_name [] b).2.head? = some '('
              then skip_parameters 0 (parse_action_name [] b).2
              else (parse_action_name [] b).2).head? = some '|'
          then (if (parse_action_name [] b).2.head? = some '('
              then skip_parameters 0 (parse_action_name [] b).2
              else (parse_action_name [] b).2).tail
          else (if (parse_action_name [] b).2.head? = some '('
              then skip_parameters 0 (parse_action_name [] b).2
              else (parse_action_name [] b).2)) := by
  cases b with
  | nil => exact absurd rfl hb
  | cons ch rest => rfl

/-- One round of the loop on the text of a well-formed action followed by
nothing or by `|` and further text. -/
theorem hide_actions_loop_action (string_vector : List (List Char)) (fuel : Nat)
    (ns : List Char) (a : action) (ha : a.well_formed = true) (more : List Char)
    (hlen : a.parameters.length < 2 ^ 64) :
    (hide_actions_loop string_vector (fuel + 1) ns a.text =
      hide_actions_loop string_vector fuel
        (if a.name ∉ string_vector then (if ns ≠ [] then ns ++ ['|'] else ns) ++ a.text else ns)
        [])
    ∧ (hide_actions_loop string_vector (fuel + 1) ns (a.text ++ '|' :: more) =
      hide_actions_loop string_vector fuel
        (if a.name ∉ string_vector then (if ns ≠ [] then ns ++ ['|'] else ns) ++ a.text else ns)
        more) := by
  simp only [action.well_formed, Bool.and_eq_true, decide_eq_true_eq, Bool.or_eq_true] at ha
  obtain ⟨⟨⟨hn, h1⟩, h2⟩, hp⟩ := ha
  have key : ∀ tail : List Char, (tail = [] ∨ tail.head? = some '|') →
      hide_actions_loop string_vector (fuel + 1) ns (a.text ++ tail) =
      hide_actions_loop string_vector fuel
        (if a.name ∉ string_vector then (if ns ≠ [] then ns ++ ['|'] else ns) ++ a.text else ns)
        (if tail.head? = some '|' then tail.tail else tail) := by
    intro tail ht
    have hb : a.text ++ tail ≠ [] := by simp [action.text, hn]
    have hhead : (a.parameters ++ tail) = [] ∨ (a.parameters ++ tail).head? = some '('
        ∨ (a.parameters ++ tail).head? = some '|' := by
      rcases hp with hp | hp
      · rw [hp, List.nil_append]
        rcases ht with ht | ht
        · exact Or.inl ht
        · exact Or.inr (Or.inr ht)
      · cases hq : a.parameters with
        | nil => rw [hq] at hp; simp [balanced_parenthesised] at hp
        | cons ch q =>
          rw [hq] at hp
          simp only [balanced_parenthesised, Bool.and_eq_true, decide_eq_true_eq] at hp
          exact Or.inr (Or.inl (by simp [hp.1]))
    have hparse : parse_action_name [] (a.text ++ tail) = (a.name, a.parameters ++ tail) := by
      rw [action.text, List.append_assoc, parse_action_name_append a.name h1 h2 _ hhead]
      simp
    have hskip : (if (a.parameters ++ tail).head? = some '('
        then skip_parameters 0 (a.parameters ++ tail) else a.parameters ++ tail) = tail := by
      rcases hp with hp | hp
      · rw [hp, List.nil_append]
        rcases ht with ht | ht
        · subst ht; simp [skip_parameters]
        · have : ¬ (tail.head? = some '(') := by rw [ht]; decide
          rw [if_neg this]
      · have : (a.parameters ++ tail).head? = some '(' := by
          cases hq : a.parameters with
          | nil => rw [hq] at hp; simp [balanced_parenthesised] at hp
          | cons ch q =>
            rw [hq] at hp
            simp only [balanced_parenthesised, Bool.and_eq_true, decide_eq_true_eq] at hp
            simp [hp.1]
        rw [if_pos this]
        exact skip_parameters_balanced _ _ hp hlen
    have htake : (a.text ++ tail).take ((a.text ++ tail).length - tail.length) = a.text := by
      simp
    rw [hide_actions_loop_cons _ _ _ _ hb, hparse]
    simp only [hskip, htake]
  constructor
  · have := key [] (Or.inl rfl)
    simpa using this
  · have := key ('|' :: more) (Or.inr rfl)
    simpa using this

theorem hide_actions_loop_nil (string_vector : List (List Char)) (fuel : Nat) (ns : List Char) :
    hide_actions_loop string_vector fuel ns [] = some ns := by
  cases fuel <;> rfl

theorem text_ne_nil (a : action) (ha : a.well_formed = true) : a.text ≠ [] := by
  simp only [action.well_formed, Bool.and_eq_true, decide_eq_true_eq] at ha
  simp [action.text, ha.1.1.1]

theorem multi_action_text_cons_cons (a b : action) (rest : List action) :
    multi_action_text (a :: b :: rest) = a.text ++ '|' :: multi_action_text (b :: rest) := rfl

theorem multi_action_text_ne_nil (acts : List action) (hw : ∀ a ∈ acts, a.well_formed = true)
    (hne : acts ≠ []) : multi_action_text acts ≠ [] := by
  match acts, hne with
  | [a], _ => exact text_ne_nil a (hw a (List.mem_singleton_self a))
  | a :: b :: rest, _ =>
    rw [multi_action_text_cons_cons]
    simp

/-- The loop on the label of well-formed actions appends to `ns`, in order, the
texts of the actions whose name is not in `string_vector`, each after a `|` when
`ns` is not empty. -/
theorem hide_actions_loop_text (string_vector : List (List Char)) :
    ∀ (acts : List action) (fuel : Nat) (ns : List Char),
      (∀ a ∈ acts, a.well_formed = true) → (multi_action_text acts).length ≤ fuel →
      (multi_action_text acts).length < 2 ^ 64 →
      hide_actions_loop string_vector fuel ns (multi_action_text acts) =
        some ((acts.filter (fun a => decide (a.name ∉ string_vector))).foldl
          (fun ns a => (if ns ≠ [] then ns ++ ['|'] else ns) ++ a.text) ns) := by
  intro acts
  induction acts with
  | nil => intro fuel ns _ _ _; exact hide_actions_loop_nil _ _ _
  | cons a rest ih =>
    intro fuel ns hw hf hlen
    have ha := hw a (List.mem_cons_self _ _)
    have hta := text_ne_nil a ha
    have htl : 0 < a.text.length := List.length_pos.mpr hta
    cases rest with
    | nil =>
      simp only [multi_action_text] at hf hlen ⊢
      obtain ⟨f, rfl⟩ : ∃ f, fuel = f + 1 := ⟨fuel - 1, by omega⟩
      have hpl : a.parameters.length < 2 ^ 64 := by
        simp only [action.text, List.length_append] at hlen; omega
      rw [(hide_actions_loop_action string_vector f ns a ha [] hpl).1, hide_actions_loop_nil]
      by_cases hin : a.name ∈ string_vector <;> simp [hin]
    | cons b rest =>
      rw [multi_action_text_cons_cons] at hf hlen ⊢
      simp only [List.length_append, List.length_cons] at hf hlen
      obtain ⟨f, rfl⟩ : ∃ f, fuel = f + 1 := ⟨fuel - 1, by omega⟩
      have hpl : a.parameters.length < 2 ^ 64 := by
        simp only [action.text, List.length_append] at hlen; omega
      rw [(hide_actions_loop_action string_vector f ns a ha _ hpl).2,
        ih f _ (fun x hx => hw x (List.mem_cons_of_mem _ hx)) (by omega) (by omega)]
      by_cases hin : a.name ∈ string_vector <;> simp [hin]

theorem foldl_text (kept : List action) :
    ∀ ns : List Char, (∀ a ∈ kept, a.text ≠ []) →
      kept.foldl (fun ns a => (if ns ≠ [] then ns ++ ['|'] else ns) ++ a.text) ns =
        if kept = [] then ns
        else if ns = [] then multi_action_text kept
        else ns ++ '|' :: multi_action_text kept := by
  induction kept with
  | nil => intro ns _; rfl
  | cons a kept ih =>
    intro ns hk
    have hta := hk a (List.mem_cons_self _ _)
    have hstep : (if ns ≠ [] then ns ++ ['|'] else ns) ++ a.text ≠ [] := by simp [hta]
    rw [List.foldl_cons, ih _ (fun x hx => hk x (List.mem_cons_of_mem _ hx))]
    cases kept with
    | nil =>
      by_cases hns : ns = [] <;> simp [hns, multi_action_text]
    | cons b kept =>
      rw [multi_action_text_cons_cons]
      by_cases hns : ns = [] <;> simp [hns, hta]

/-- C23: for every well-formed multi-action label `a_1 p_1 | ... | a_m p_m`,
each name non-empty and free of `(` and `|`, each parameter list empty or a
balanced parenthesised string, whatever other characters it holds,
`hide_actions(H)` sets the label to the texts `a_i p_i` whose name `a_i` is not
an element of `H`, in their original order and separated by `|`, provided at
least one remains.  The label, a `std::string`, has fewer than `2^64`
characters. -/
theorem hide_actions_keeps (H : List (List Char)) (acts : List action)
    (hw : ∀ a ∈ acts, a.well_formed = true) (hlen : (multi_action_text acts).length < 2 ^ 64)
    (hk : acts.filter (fun a => decide (a.name ∉ H)) ≠ []) :
    hide_actions H (multi_action_text acts)
      = some (multi_action_text (acts.filter (fun a => decide (a.name ∉ H)))) := by
  have hwk : ∀ a ∈ acts.filter (fun a => decide (a.name ∉ H)), a.well_formed = true :=
    fun a ha => hw a (List.mem_of_mem_filter ha)
  have hne := multi_action_text_ne_nil _ hwk hk
  rw [hide_actions, hide_actions_loop_text H acts _ [] hw (le_refl _) hlen,
    foldl_text _ [] (fun a ha => text_ne_nil a (hwk a ha))]
  simp only [hk, if_false, if_true, hne]

/-- C23, witness: hiding `b` and `d` in `a(f(1),2)|b(3)|c|d` leaves
`a(f(1),2)|c`. -/
theorem hide_actions_keeps_witness :
    hide_actions ["b".toList, "d".toList]
        (multi_action_text [⟨"a".toList, "(f(1),2)".toList⟩, ⟨"b".toList, "(3)".toList⟩,
          ⟨"c".toList, []⟩, ⟨"d".toList, []⟩])
      = some (multi_action_text ([⟨"a".toList, "(f(1),2)".toList⟩, ⟨"b".toList, "(3)".toList⟩,
          ⟨"c".toList, []⟩, ⟨"d".toList, []⟩].filter
            (fun a => decide (a.name ∉ ["b".toList, "d".toList])))) :=
  hide_actions_keeps ["b".toList, "d".toList]
    [⟨"a".toList, "(f(1),2)".toList⟩, ⟨"b".toList, "(3)".toList⟩,
      ⟨"c".toList, []⟩, ⟨"d".toList, []⟩]
    (by decide) (by decide) (by decide)

/-- C22: for every well-formed multi-action label, actions optionally followed
by a balanced parenthesised parameter list and separated by `|`, in which every
action name occurs in `string_vector`, `hide_actions(string_vector)` sets the
label to exactly `"tau"`.  The label, a `std::string`, has fewer than `2^64`
characters. -/
theorem hide_actions_all_hidden (string_vector : List (List Char)) (acts : List action)
    (hw : ∀ a ∈ acts, a.well_formed = true) (hlen : (multi_action_text acts).length < 2 ^ 64)
    (hall : ∀ a ∈ acts, a.name ∈ string_vector) :
    hide_actions string_vector (multi_action_text acts) = some tau_action := by
  have hf : acts.filter (fun a => decide (a.name ∉ string_vector)) = [] := by
    rw [List.filter_eq_nil_iff]
    intro a ha
    simp [hall a ha]
  rw [hide_actions, hide_actions_loop_text string_vector acts _ [] hw (le_refl _) hlen, hf]
  rfl

/-- C22, witness: hiding `a` and `b` in `a(1)|b|a((2),3)` leaves `tau`. -/
theorem hide_actions_all_hidden_witness :
    hide_actions ["a".toList, "b".toList]
        (multi_action_text [⟨"a".toList, "(1)".toList⟩, ⟨"b".toList, []⟩,
          ⟨"a".toList, "((2),3)".toList⟩])
      = some tau_action :=
  hide_actions_all_hidden ["a".toList, "b".toList]
    [⟨"a".toList, "(1)".toList⟩, ⟨"b".toList, []⟩, ⟨"a".toList, "((2),3)".toList⟩]
    (by decide) (by decide) (by decide)

theorem parse_action_name_length (c : List Char) :
    ∀ a : List Char, (parse_action_name a c).2.length ≤ c.length := by
  induction c with
  | nil => intro a; simp [parse_action_name]
  | cons ch c ih =>
    intro a
    rw [parse_action_name]
    split
    · have := ih (a ++ [ch])
      simp only [List.length_cons]
      omega
    · simp

theorem skip_parameters_length (c : List Char) :
    ∀ nd : Nat, (skip_parameters nd c).length ≤ c.length - 1 := by
  induction c with
  | nil => intro nd; simp [skip_parameters]
  | cons ch c ih =>
    intro nd
    rw [skip_parameters]
    simp only [List.length_cons, Nat.add_sub_cancel]
    generalize (if ch = '(' then (nd + 1) % 2 ^ 64
      else if ch = ')' then (nd + (2 ^ 64 - 1)) % 2 ^ 64 else nd) = nd2
    by_cases h : 0 < nd2 ∧ c ≠ []
    · rw [if_pos h]
      exact Nat.le_trans (ih _) (Nat.sub_le _ _)
    · rw [if_neg h]

theorem tail_of_head? (c : List Char) (ch : Char) (h : c.head? = some ch) :
    c.tail.length + 1 = c.length := by
  cases c with
  | nil => simp at h
  | cons x xs => simp

/-- Every round of the loop of `hide_actions` moves `c` forward. -/
theorem round_moves_forward (b : List Char) (hb : b ≠ []) :
    (if (if (parse_action_name [] b).2.head? = some '('
              then skip_parameters 0 (parse_action_name [] b).2
              else (parse_action_name [] b).2).head? = some '|'
          then (if (parse_action_name [] b).2.head? = some '('
              then skip_parameters 0 (parse_action_name [] b).2
              else (parse_action_name [] b).2).tail
          else (if (parse_action_name [] b).2.head? = some '('
              then skip_parameters 0 (parse_action_name [] b).2
              else (parse_action_name [] b).2)).length < b.length := by
  have hpos : 0 < b.length := List.length_pos.mpr hb
  have hp := parse_action_name_length b []
  by_cases h1 : (parse_action_name [] b).2.head? = some '('
  · have hs := skip_parameters_length (parse_action_name [] b).2 0
    simp only [h1, if_true]
    split
    · simp only [List.length_tail]; omega
    · omega
  · simp only [h1, if_false]
    split
    · rename_i h2
      have := tail_of_head? _ _ h2
      omega
    · rename_i h2
      cases b with
      | nil => exact absurd rfl hb
      | cons ch rest =>
        by_cases hch : ch ≠ '(' ∧ ch ≠ '|'
        · rw [parse_action_name, if_pos hch]
          have := parse_action_name_length rest ([] ++ [ch])
          simp only [List.length_cons]
          omega
        · exfalso
          rw [parse_action_name, if_neg hch] at h1 h2
          simp only [List.head?_cons, Option.some.injEq] at h1 h2
          exact hch ⟨h1, h2⟩

theorem hide_actions_loop_returns (string_vector : List (List Char)) :
    ∀ (fuel : Nat) (ns b : List Char), b.length ≤ fuel →
      (hide_actions_loop string_vector fuel ns b).isSome = true := by
  intro fuel
  induction fuel with
  | zero =>
    intro ns b hb
    have : b = [] := List.length_eq_zero.mp (by omega)
    subst this
    rfl
  | succ fuel ih =>
    intro ns b hb
    by_cases hnil : b = []
    · subst hnil; rfl
    · rw [hide_actions_loop_cons _ _ _ _ hnil]
      apply ih
      have := round_moves_forward b hnil
      omega

/-- The function `hide_actions` returns on every label and every
`string_vector`: the loop ends within one round for each character. -/
theorem hide_actions_returns (string_vector : List (List Char)) (label : List Char) :
    (hide_actions string_vector label).isSome = true := by
  have h := hide_actions_loop_returns string_vector label.length [] label (le_refl _)
  rw [hide_actions]
  cases hl : hide_actions_loop string_vector label.length [] label with
  | none => rw [hl] at h; simp at h
  | some ns => by_cases hns : ns = [] <;> simp [hns]

end mcrl2.lts

namespace mcrl2.lps

/-! ## Constant parameters of a linear process -/

variable {V E : Type}

theorem zip_value_of_nodup (ds : List V) (vs : List E) (hnd : ds.Nodup)
    (j : Nat) (h1 : j < ds.length) (h2 : j < vs.length) (e : E)
    (h : (ds.get ⟨j, h1⟩, e) ∈ List.zip ds vs) : e = vs.get ⟨j, h2⟩ := by
  obtain ⟨i, hi, hx⟩ := List.mem_iff_getElem.mp h
  rw [List.getElem_zip] at hx
  injection hx with hx1 hx2
  have hil : i < ds.length := by
    rw [List.length_zip] at hi; omega
  have hij : i = j := (List.Nodup.getElem_inj_iff hnd).mp hx1
  subst hij
  exact hx2.symm

variable [DecidableEq V]

theorem map_erase_sublist (m : List (V × E)) (k : V) : (map_erase m k).Sublist m := by
  induction m with
  | nil => exact List.Sublist.refl _
  | cons x m ih =>
    obtain ⟨k', v'⟩ := x
    rw [map_erase]
    split
    · exact List.sublist_cons_self _ _
    · exact ih.cons₂ _

theorem map_find_mem (m : List (V × E)) (k : V) (v : E) (h : map_find m k = some v) :
    (k, v) ∈ m := by
  induction m with
  | nil => simp [map_find] at h
  | cons x m ih =>
    obtain ⟨k', v'⟩ := x
    rw [map_find] at h
    split at h
    · rename_i hk
      injection h with h
      subst hk h
      exact List.mem_cons_self _ _
    · exact List.mem_cons_of_mem _ (ih h)

theorem map_erase_length (m : List (V × E)) (k : V) (v : E) (h : map_find m k = some v) :
    (map_erase m k).length + 1 = m.length := by
  induction m with
  | nil => simp [map_find] at h
  | cons x m ih =>
    obtain ⟨k', v'⟩ := x
    rw [map_find] at h
    rw [map_erase]
    split
    · rfl
    · rename_i hk
      rw [if_neg hk] at h
      simp only [List.length_cons]
      rw [ih h]

theorem map_assign_append (m : List (V × E)) (k : V) (v : E) (h : k ∉ m.map Prod.fst) :
    map_assign m k v = m ++ [(k, v)] := by
  induction m with
  | nil => rfl
  | cons x m ih =>
    obtain ⟨k', v'⟩ := x
    simp only [List.map_cons, List.mem_cons, not_or] at h
    rw [map_assign, if_neg (fun e => h.1 e.symm), ih h.2]
    rfl

theorem initial_replacements_zip (f : E → E) :
    ∀ (ds : List V) (es : List E) (m : List (V × E)), ds.Nodup →
      (∀ d ∈ ds, d ∉ m.map Prod.fst) → ds.length ≤ es.length →
      initial_replacements f ds es m = some (m ++ List.zip ds (es.map f)) := by
  intro ds
  induction ds with
  | nil => intro es m _ _ _; simp [initial_replacements]
  | cons d ds ih =>
    intro es m hnd hdis hlen
    cases es with
    | nil => simp at hlen
    | cons e es =>
      rw [List.nodup_cons] at hnd
      simp only [List.length_cons, Nat.add_le_add_iff_right] at hlen
      rw [initial_replacements, map_assign_append m d (f e) (hdis d (List.mem_cons_self _ _)),
        ih es _ hnd.2 ?_ hlen]
      · simp
      · intro x hx
        simp only [List.map_append, List.map_cons, List.map_nil, List.mem_append,
          List.mem_singleton, not_or]
        exact ⟨hdis x (List.mem_cons_of_mem _ hx), fun h => hnd.1 (h ▸ hx)⟩

theorem sublist_zip_values (ds : List V) (vs : List E) (m : List (V × E)) (hnd : ds.Nodup)
    (hs : m.Sublist (List.zip ds vs)) :
    (∀ d e, map_find m d = some e → d ∈ ds)
    ∧ ∀ (j : Nat) (h1 : j < ds.length) (h2 : j < vs.length) (e : E),
        map_find m (ds.get ⟨j, h1⟩) = some e → e = vs.get ⟨j, h2⟩ := by
  constructor
  · intro d e h
    exact (List.of_mem_zip (hs.subset (map_find_mem m d e h))).1
  · intro j h1 h2 e h
    exact zip_value_of_nodup ds vs hnd j h1 h2 e (hs.subset (map_find_mem m _ e h))

theorem map_assign_length (m : List (V × E)) (k : V) (v : E) :
    (map_assign m k v).length ≤ m.length + 1 := by
  induction m with
  | nil => simp [map_assign]
  | cons x m ih =>
    obtain ⟨k', v'⟩ := x
    rw [map_assign]
    split
    · simp
    · simp only [List.length_cons]
      omega

theorem map_erase_keys (m : List (V × E)) (k : V) :
    (map_erase m k).map Prod.fst = (m.map Prod.fst).erase k := by
  induction m with
  | nil => rfl
  | cons x m ih =>
    obtain ⟨k', v'⟩ := x
    rw [map_erase]
    by_cases h : k' = k
    · subst h
      simp
    · rw [if_neg h, List.map_cons, List.map_cons, ih, List.erase_cons_tail]
      simpa using h

theorem initial_replacements_returns (f : E → E) :
    ∀ (ds : List V) (es : List E) (m : List (V × E)), ds.length ≤ es.length →
      ∃ m', initial_replacements f ds es m = some m' ∧ m'.length ≤ m.length + ds.length := by
  intro ds
  induction ds with
  | nil => intro es m _; exact ⟨m, by simp [initial_replacements], by simp⟩
  | cons d ds ih =>
    intro es m hlen
    cases es with
    | nil => simp at hlen
    | cons e es =>
      simp only [List.length_cons, Nat.add_le_add_iff_right] at hlen
      obtain ⟨m', h1, h2⟩ := ih es (map_assign m d (f e)) hlen
      refine ⟨m', ?_, ?_⟩
      · rw [initial_replacements, h1]
      · have := map_assign_length m d (f e)
        simp only [List.length_cons]
        omega

variable [DecidableEq E]

theorem assignments_loop_sublist (D : old_data V E) (r : E → E) (rc : E) :
    ∀ (js : List (data_assignment V E)) (state : List (V × E) × Bool),
      (assignments_loop D r rc js state).1.Sublist state.1
      ∧ (assignments_loop D r rc js state).1.length ≤ state.1.length
      ∧ ((assignments_loop D r rc js state).2 = true →
          state.2 = true ∨ (assignments_loop D r rc js state).1.length < state.1.length) := by
  intro js
  induction js with
  | nil => intro state; exact ⟨List.Sublist.refl _, le_refl _, fun h => Or.inl h⟩
  | cons j js ih =>
    intro state
    obtain ⟨replacements, has_changed⟩ := state
    rw [assignments_loop]
    cases hf : map_find replacements j.lhs with
    | none => exact ih _
    | some k_second =>
      simp only
      split
      · obtain ⟨h1, h2, _⟩ := ih (map_erase replacements j.lhs, true)
        have hl := map_erase_length replacements j.lhs k_second hf
        refine ⟨h1.trans (map_erase_sublist _ _), ?_, fun _ => Or.inr ?_⟩
        · simp only at h2 ⊢; omega
        · simp only at h2 ⊢; omega
      · exact ih _

theorem summands_loop_sublist (D : old_data V E) (r : E → E) :
    ∀ (summands : List (summand V E)) (replacements : List (V × E)),
      (summands_loop D r summands replacements).1.Sublist replacements
      ∧ ((summands_loop D r summands replacements).2 = true →
          (summands_loop D r summands replacements).1.length < replacements.length) := by
  intro summands
  induction summands with
  | nil => intro m; exact ⟨List.Sublist.refl _, fun h => by simp [summands_loop] at h⟩
  | cons i rest ih =>
    intro m
    rw [summands_loop]
    simp only
    split
    · exact ih m
    · obtain ⟨h1, h2, h3⟩ := assignments_loop_sublist D r
        (r (D.data_variable_map_replace i.condition m)) i.assignments (m, false)
      split
      · rename_i hc
        refine ⟨h1, fun _ => ?_⟩
        rcases h3 hc with h | h
        · simp at h
        · exact h
      · obtain ⟨e1, e2⟩ := ih
          (assignments_loop D r (r (D.data_variable_map_replace i.condition m))
            i.assignments (m, false)).1
        exact ⟨e1.trans h1, fun h => Nat.lt_of_lt_of_le (e2 h) h2⟩

theorem do_while_sublist (D : old_data V E) (r : E → E) (summands : List (summand V E)) :
    ∀ (fuel : Nat) (replacements result : List (V × E)),
      do_while D r summands fuel replacements = some result → result.Sublist replacements := by
  intro fuel
  induction fuel with
  | zero => intro m res h; simp [do_while] at h
  | succ fuel ih =>
    intro m res h
    rw [do_while] at h
    have h1 := (summands_loop_sublist D r summands m).1
    split at h
    · exact (ih _ _ h).trans h1
    · injection h with h
      rw [← h]
      exact h1

theorem do_while_returns (D : old_data V E) (r : E → E) (summands : List (summand V E)) :
    ∀ (fuel : Nat) (replacements : List (V × E)), replacements.length < fuel →
      ∃ result, do_while D r summands fuel replacements = some result := by
  intro fuel
  induction fuel with
  | zero => intro m h; omega
  | succ fuel ih =>
    intro m h
    rw [do_while]
    split
    · rename_i hc
      have := (summands_loop_sublist D r summands m).2 hc
      exact ih _ (by omega)
    · exact ⟨_, rfl⟩

theorem assignments_loop_subst_sublist (D : old_data V E) (r_subst : E → List (V × E) → E)
    (rc : E) :
    ∀ (js : List (data_assignment V E)) (state : subst_state V E),
      (assignments_loop_subst D r_subst rc js state).replacements.Sublist state.replacements
      ∧ (assignments_loop_subst D r_subst rc js state).index.length ≤ state.index.length
      ∧ ((assignments_loop_subst D r_subst rc js state).has_changed = true →
          state.has_changed = true
          ∨ (assignments_loop_subst D r_subst rc js state).index.length < state.index.length) := by
  intro js
  induction js with
  | nil => intro state; exact ⟨List.Sublist.refl _, le_refl _, fun h => Or.inl h⟩
  | cons j js ih =>
    intro state
    rw [assignments_loop_subst]
    split
    · rename_i hin
      simp only
      split
      · obtain ⟨h1, h2, _⟩ := ih
          { replacements := map_erase state.replacements j.lhs
            substitutions := map_erase state.substitutions j.lhs
            index := state.index.erase j.lhs
            has_changed := true }
        have hl := List.length_erase_of_mem hin
        have hpos : 0 < state.index.length := List.length_pos_of_mem hin
        refine ⟨h1.trans (map_erase_sublist _ _), ?_, fun _ => Or.inr ?_⟩
        · simp only at h2 ⊢; omega
        · simp only at h2 ⊢; omega
      · exact ih _
    · exact ih _

theorem summands_loop_subst_sublist (D : old_data V E) (r_subst : E → List (V × E) → E) :
    ∀ (summands : List (summand V E)) (state : subst_state V E), state.has_changed = false →
      (summands_loop_subst D r_subst summands state).replacements.Sublist state.replacements
      ∧ (summands_loop_subst D r_subst summands state).index.length ≤ state.index.length
      ∧ ((summands_loop_subst D r_subst summands state).has_changed = true →
          (summands_loop_subst D r_subst summands state).index.length < state.index.length) := by
  intro summands
  induction summands with
  | nil =>
    intro state h0
    exact ⟨List.Sublist.refl _, le_refl _, fun h => by simp [summands_loop_subst, h0] at h⟩
  | cons i rest ih =>
    intro state h0
    rw [summands_loop_subst]
    simp only
    split
    · exact ih state h0
    · obtain ⟨h1, h2, h3⟩ := assignments_loop_subst_sublist D r_subst
        (r_subst i.condition state.substitutions) i.assignments state
      split
      · rename_i hc
        refine ⟨h1, h2, fun _ => ?_⟩
        rcases h3 hc with h | h
        · rw [h0] at h; simp at h
        · exact h
      · rename_i hc
        obtain ⟨e1, e2, e3⟩ := ih
          (assignments_loop_subst D r_subst (r_subst i.condition state.substitutions)
            i.assignments state) (by simpa using hc)
        exact ⟨e1.trans h1, Nat.le_trans e2 h2, fun h => Nat.lt_of_lt_of_le (e3 h) h2⟩

theorem do_while_subst_returns (D : old_data V E) (r_subst : E → List (V × E) → E)
    (summands : List (summand V E)) :
    ∀ (fuel : Nat) (state : subst_state V E), state.index.length < fuel →
      ∃ result, do_while_subst D r_subst summands fuel state = some result
        ∧ result.replacements.Sublist state.replacements := by
  intro fuel
  induction fuel with
  | zero => intro state h; omega
  | succ fuel ih =>
    intro state h
    rw [do_while_subst]
    obtain ⟨h1, h2, h3⟩ := summands_loop_subst_sublist D r_subst summands
      { state with has_changed := false } rfl
    simp only at h1 h2 h3
    split
    · rename_i hc
      have := h3 hc
      obtain ⟨res, e1, e2⟩ := ih (summands_loop_subst D r_subst summands
        { state with has_changed := false }) (by omega)
      exact ⟨res, e1, e2.trans h1⟩
    · exact ⟨_, rfl, h1⟩

/-- C24, as amended: for a linear process `p` whose process parameters are
pairwise distinct and `init` of the same length, `compute_constant_parameters(p,
init, r)` returns, once its loop may run one round more than there are
parameters, a map `m` whose entries are among the pairs of a process parameter
`d_j` and its rewritten initial value `r(init_j)`: every key is a process
parameter of `p`, and the value of a surviving parameter `d_j` is `r(init_j)`.
`compute_constant_parameters_subst` returns a map that holds `init_j` itself for
every surviving `d_j`.  In both functions the loop over the assignments only
removes entries from `replacements`; no value is changed. -/
theorem compute_constant_parameters_values (D : old_data V E) (r : E → E)
    (r_subst : E → List (V × E) → E) (p : linear_process V E) (init : List E) (fuel : Nat)
    (hlen : init.length = p.process_parameters.length) (hnd : p.process_parameters.Nodup)
    (hf : p.process_parameters.length < fuel) :
    (∃ m, compute_constant_parameters D r p init fuel = some m
      ∧ m.Sublist (List.zip p.process_parameters (init.map r))
      ∧ (∀ d e, map_find m d = some e → d ∈ p.process_parameters)
      ∧ ∀ (j : Nat) (h1 : j < p.process_parameters.length) (h2 : j < init.length) (e : E),
          map_find m (p.process_parameters.get ⟨j, h1⟩) = some e → e = r (init.get ⟨j, h2⟩))
    ∧ (∃ m, compute_constant_parameters_subst D r_subst p init fuel = some m
      ∧ m.Sublist (List.zip p.process_parameters init)
      ∧ (∀ d e, map_find m d = some e → d ∈ p.process_parameters)
      ∧ ∀ (j : Nat) (h1 : j < p.process_parameters.length) (h2 : j < init.length) (e : E),
          map_find m (p.process_parameters.get ⟨j, h1⟩) = some e → e = init.get ⟨j, h2⟩)
    ∧ (∀ (rc : E) (js : List (data_assignment V E)) (state : List (V × E) × Bool),
        (assignments_loop D r rc js state).1.Sublist state.1)
    ∧ (∀ (rc : E) (js : List (data_assignment V E)) (state : subst_state V E),
        (assignments_loop_subst D r_subst rc js state).replacements.Sublist
          state.replacements) := by
  have hzl : ∀ f : E → E, (List.zip p.process_parameters (init.map f)).length
      = p.process_parameters.length := by
    intro f
    rw [List.length_zip, List.length_map, hlen, Nat.min_self]
  have hinit : ∀ f : E → E, initial_replacements f p.process_parameters init []
      = some (List.zip p.process_parameters (init.map f)) := by
    intro f
    have := initial_replacements_zip f p.process_parameters init [] hnd (by simp) (by omega)
    simpa using this
  refine ⟨?_, ?_, fun rc js state => (assignments_loop_sublist D r rc js state).1,
    fun rc js state => (assignments_loop_subst_sublist D r_subst rc js state).1⟩
  · obtain ⟨m, hm⟩ := do_while_returns D r p.summands fuel
      (List.zip p.process_parameters (init.map r)) (by rw [hzl]; exact hf)
    have hs := do_while_sublist D r p.summands fuel _ m hm
    obtain ⟨k1, k2⟩ := sublist_zip_values _ _ m hnd hs
    refine ⟨m, ?_, hs, k1, ?_⟩
    · rw [compute_constant_parameters, hinit r]
      exact hm
    · intro j h1 h2 e h
      have := k2 j h1 (by rw [List.length_map]; exact h2) e h
      rw [this]
      simp
  · obtain ⟨res, hres, hs⟩ := do_while_subst_returns D r_subst p.summands fuel
      { replacements := List.zip p.process_parameters (init.map (fun e => e))
        substitutions := List.zip p.process_parameters (init.map (fun e => e))
        index := (List.zip p.process_parameters (init.map (fun e => e))).map Prod.fst
        has_changed := false }
      (by simp only [List.length_map]; rw [hzl]; exact hf)
    simp only [List.map_id'] at hs
    obtain ⟨k1, k2⟩ := sublist_zip_values _ _ res.replacements hnd hs
    refine ⟨res.replacements, ?_, hs, k1, k2⟩
    rw [compute_constant_parameters_subst, hinit (fun e => e)]
    simp only [hres, Option.map_some']

/-- C24, witness: the parameters `0` and `1` with initial values `3` and `4`,
and one summand with the assignment `0 := 7`, on a data library over the
natural numbers whose rewriter leaves every expression as it is. -/
theorem compute_constant_parameters_values_witness :
    ∃ m, compute_constant_parameters
          (⟨0, 1, fun a => a, fun a _ => a, fun a _ => a, fun a => a, fun a _ => a,
            fun a _ => a, fun a => a⟩ : old_data Nat Nat)
          (fun e => e) ⟨[0, 1], [⟨5, [⟨0, 7⟩]⟩]⟩ [3, 4] 3 = some m
      ∧ m.Sublist (List.zip [0, 1] ([3, 4].map (fun e => e))) :=
  (compute_constant_parameters_values
    (⟨0, 1, fun a => a, fun a _ => a, fun a _ => a, fun a => a, fun a _ => a,
      fun a _ => a, fun a => a⟩ : old_data Nat Nat)
    (fun e => e) (fun e _ => e) ⟨[0, 1], [⟨5, [⟨0, 7⟩]⟩]⟩ [3, 4] 3
    (by decide) (by decide) (by decide)).1.imp (fun _ h => ⟨h.1, h.2.1⟩)

/-- C24, counterexample: a process with the parameter list `[d, d]` and
`init = [1, 2]`, no summands, and a rewriter that leaves every expression as it
is.  The second store to `replacements[d]` overwrites the first, so the map
returned holds `2` for the surviving first parameter `d_0 = d`, not its initial
value `r(init_0) = 1`; `compute_constant_parameters_subst` does the same. -/
theorem compute_constant_parameters_duplicate_parameter :
    compute_constant_parameters
        (⟨0, 1, fun a => a, fun a _ => a, fun a _ => a, fun a => a, fun a _ => a,
          fun a _ => a, fun a => a⟩ : old_data Nat Nat)
        (fun e => e) ⟨[0, 0], []⟩ [1, 2] 3 = some [(0, 2)]
    ∧ compute_constant_parameters_subst
        (⟨0, 1, fun a => a, fun a _ => a, fun a _ => a, fun a => a, fun a _ => a,
          fun a _ => a, fun a => a⟩ : old_data Nat Nat)
        (fun e _ => e) ⟨[0, 0], []⟩ [1, 2] 3 = some [(0, 2)]
    ∧ map_find [(0, 2)] ([0, 0].get ⟨0, by decide⟩)
        ≠ some ((fun e : Nat => e) ([1, 2].get ⟨0, by decide⟩)) := by
  decide

/-! ## The fixpoint reached, and termination -/

theorem assignments_loop_changed (D : old_data V E) (r : E → E) (rc : E) :
    ∀ (js : List (data_assignment V E)) (replacements : List (V × E)),
      (assignments_loop D r rc js (replacements, true)).2 = true := by
  intro js
  induction js with
  | nil => intro m; rfl
  | cons j js ih =>
    intro m
    rw [assignments_loop]
    cases map_find m j.lhs with
    | none => exact ih m
    | some k_second =>
      simp only
      split
      · exact ih _
      · exact ih m

/-- A pass over the assignments of a summand that leaves `has_changed` false
has changed nothing and has seen every check fail. -/
theorem assignments_loop_unchanged (D : old_data V E) (r : E → E) (rc : E) :
    ∀ (js : List (data_assignment V E)) (replacements : List (V × E)),
      (assignments_loop D r rc js (replacements, false)).2 = false →
      (assignments_loop D r rc js (replacements, false)).1 = replacements
      ∧ ∀ j ∈ js, ∀ k_second, map_find replacements j.lhs = some k_second →
          r (D.or_ (D.not_ rc)
            (D.not_equal_to k_second (D.data_variable_map_replace j.rhs replacements)))
            ≠ D.true_ := by
  intro js
  induction js with
  | nil => intro m _; exact ⟨rfl, fun j hj => by simp at hj⟩
  | cons j js ih =>
    intro m h
    rw [assignments_loop] at h ⊢
    cases hf : map_find m j.lhs with
    | none =>
      rw [hf] at h
      simp only at h ⊢
      obtain ⟨h1, h2⟩ := ih m h
      refine ⟨h1, ?_⟩
      intro j' hj' v hv
      rcases List.mem_cons.mp hj' with e | e
      · subst e; rw [hf] at hv; simp at hv
      · exact h2 j' e v hv
    | some k_second =>
      rw [hf] at h
      simp only at h ⊢
      by_cases hc : r (D.or_ (D.not_ rc)
          (D.not_equal_to k_second (D.data_variable_map_replace j.rhs m))) = D.true_
      · rw [if_pos hc] at h
        rw [assignments_loop_changed] at h
        simp at h
      · rw [if_neg hc] at h ⊢
        obtain ⟨h1, h2⟩ := ih m h
        refine ⟨h1, ?_⟩
        intro j' hj' v hv
        rcases List.mem_cons.mp hj' with e | e
        · subst e
          rw [hf] at hv
          injection hv with hv
          subst hv
          exact hc
        · exact h2 j' e v hv

/-- A pass over the summands that leaves `has_changed` false has changed
nothing and has seen every check of every summand with a condition other than
`false` fail. -/
theorem summands_loop_unchanged (D : old_data V E) (r : E → E) :
    ∀ (summands : List (summand V E)) (replacements : List (V × E)),
      (summands_loop D r summands replacements).2 = false →
      (summands_loop D r summands replacements).1 = replacements
      ∧ ∀ i ∈ summands,
          r (D.data_variable_map_replace i.condition replacements) ≠ D.false_ →
          ∀ j ∈ i.assignments, ∀ k_second, map_find replacements j.lhs = some k_second →
            r (D.or_ (D.not_ (r (D.data_variable_map_replace i.condition replacements)))
              (D.not_equal_to k_second (D.data_variable_map_replace j.rhs replacements)))
              ≠ D.true_ := by
  intro summands
  induction summands with
  | nil => intro m _; exact ⟨rfl, fun i hi => by simp at hi⟩
  | cons i rest ih =>
    intro m h
    rw [summands_loop] at h ⊢
    simp only at h ⊢
    by_cases hrc : r (D.data_variable_map_replace i.condition m) = D.false_
    · rw [if_pos hrc] at h ⊢
      obtain ⟨h1, h2⟩ := ih m h
      refine ⟨h1, ?_⟩
      intro i' hi' hne
      rcases List.mem_cons.mp hi' with e | e
      · subst e; exact absurd hrc hne
      · exact h2 i' e hne
    · rw [if_neg hrc] at h ⊢
      by_cases hch : (assignments_loop D r (r (D.data_variable_map_replace i.condition m))
          i.assignments (m, false)).2 = true
      · rw [if_pos hch] at h
        rw [hch] at h
        simp at h
      · rw [if_neg hch] at h ⊢
        obtain ⟨a1, a2⟩ := assignments_loop_unchanged D r _ i.assignments m (by simpa using hch)
        rw [a1] at h ⊢
        obtain ⟨h1, h2⟩ := ih m h
        refine ⟨h1, ?_⟩
        intro i' hi' hne
        rcases List.mem_cons.mp hi' with e | e
        · subst e; exact a2
        · exact h2 i' e hne

/-- The map that the `do ... while` loop returns is one that a pass over the
summands leaves as it is. -/
theorem do_while_fixpoint (D : old_data V E) (r : E → E) (summands : List (summand V E)) :
    ∀ (fuel : Nat) (replacements result : List (V × E)),
      do_while D r summands fuel replacements = some result →
      summands_loop D r summands result = (result, false) := by
  intro fuel
  induction fuel with
  | zero => intro m res h; simp [do_while] at h
  | succ fuel ih =>
    intro m res h
    rw [do_while] at h
    split at h
    · exact ih _ _ h
    · rename_i hc
      injection h with h
      have hf : (summands_loop D r summands m).2 = false := by simpa using hc
      have h1 := (summands_loop_unchanged D r summands m hf).1
      rw [h1] at h
      subst h
      exact Prod.ext h1 hf

theorem assignments_loop_subst_index (D : old_data V E) (r_subst : E → List (V × E) → E)
    (rc : E) :
    ∀ (js : List (data_assignment V E)) (state : subst_state V E),
      state.index = state.replacements.map Prod.fst →
      (assignments_loop_subst D r_subst rc js state).index
        = (assignments_loop_subst D r_subst rc js state).replacements.map Prod.fst := by
  intro js
  induction js with
  | nil => intro state h; exact h
  | cons j js ih =>
    intro state h
    rw [assignments_loop_subst]
    split
    · simp only
      split
      · apply ih
        simp only
        rw [map_erase_keys, h]
      · exact ih state h
    · exact ih state h

theorem summands_loop_subst_index (D : old_data V E) (r_subst : E → List (V × E) → E) :
    ∀ (summands : List (summand V E)) (state : subst_state V E),
      state.index = state.replacements.map Prod.fst →
      (summands_loop_subst D r_subst summands state).index
        = (summands_loop_subst D r_subst summands state).replacements.map Prod.fst := by
  intro summands
  induction summands with
  | nil => intro state h; exact h
  | cons i rest ih =>
    intro state h
    rw [summands_loop_subst]
    simp only
    have h1 := assignments_loop_subst_index D r_subst
      (r_subst i.condition state.substitutions) i.assignments state h
    split
    · exact ih state h
    · split
      · exact h1
      · exact ih _ h1

/-- C33: the map `m` that `compute_constant_parameters(p, init, r)` returns is a
fixpoint of its loop, for a rewriter `r` that is a function of its argument.
For every summand whose condition `c` has `rc = r(c[m])` other than `false` and
every assignment `x := g` of that summand with `x` in the domain of `m`, the
check `r(not(rc) or (m[x] != g[m]))` is not `true`; a further pass over the
summands removes nothing and leaves `has_changed` false.  The map is returned
once `init` holds a value for every parameter and the loop may run one round
more than there are parameters. -/
theorem compute_constant_parameters_fixpoint (D : old_data V E) (r : E → E)
    (p : linear_process V E) (init : List E) (fuel : Nat)
    (hlen : p.process_parameters.length ≤ init.length)
    (hf : p.process_parameters.length < fuel) :
    ∃ m, compute_constant_parameters D r p init fuel = some m
      ∧ (∀ i ∈ p.summands, r (D.data_variable_map_replace i.condition m) ≠ D.false_ →
          ∀ j ∈ i.assignments, ∀ k_second, map_find m j.lhs = some k_second →
            r (D.or_ (D.not_ (r (D.data_variable_map_replace i.condition m)))
              (D.not_equal_to k_second (D.data_variable_map_replace j.rhs m))) ≠ D.true_)
      ∧ summands_loop D r p.summands m = (m, false) := by
  obtain ⟨m0, h0, hl0⟩ := initial_replacements_returns r p.process_parameters init [] hlen
  simp only [List.length_nil, Nat.zero_add] at hl0
  obtain ⟨m, hm⟩ := do_while_returns D r p.summands fuel m0 (by omega)
  have hfix := do_while_fixpoint D r p.summands fuel m0 m hm
  have hun := summands_loop_unchanged D r p.summands m (by rw [hfix])
  refine ⟨m, ?_, hun.2, hfix⟩
  rw [compute_constant_parameters, h0]
  exact hm

/-- C33, witness: on the natural numbers with `0` for `false`, `1` for `true`
and a rewriter that leaves every expression as it is, the parameters `0` and
`1` start at `3` and `4`, and the one summand, with condition `true`, assigns
`3` to the first and `5` to the second. -/
theorem compute_constant_parameters_fixpoint_witness :
    ∃ m, compute_constant_parameters
          (⟨0, 1, fun a => 1 - a, fun a b => max a b, fun a b => if a = b then 0 else 1,
            fun a => 1 - a, fun a b => max a b, fun a _ => a, fun a => a⟩ : old_data Nat Nat)
          (fun e => e) ⟨[0, 1], [⟨1, [⟨0, 3⟩, ⟨1, 5⟩]⟩]⟩ [3, 4] 3 = some m
      ∧ summands_loop
          (⟨0, 1, fun a => 1 - a, fun a b => max a b, fun a b => if a = b then 0 else 1,
            fun a => 1 - a, fun a b => max a b, fun a _ => a, fun a => a⟩ : old_data Nat Nat)
          (fun e => e) [⟨1, [⟨0, 3⟩, ⟨1, 5⟩]⟩] m = (m, false) :=
  (compute_constant_parameters_fixpoint
    (⟨0, 1, fun a => 1 - a, fun a b => max a b, fun a b => if a = b then 0 else 1,
      fun a => 1 - a, fun a b => max a b, fun a _ => a, fun a => a⟩ : old_data Nat Nat)
    (fun e => e) ⟨[0, 1], [⟨1, [⟨0, 3⟩, ⟨1, 5⟩]⟩]⟩ [3, 4] 3
    (by decide) (by decide)).imp (fun _ h => ⟨h.1, h.2.2⟩)

/-- C34: `compute_constant_parameters` and `compute_constant_parameters_subst`
terminate on every linear process, with a rewriter that returns: when `init`
holds a value for every process parameter, each returns a map with the body of
its `do ... while` loop run at most (number of process parameters + 1) times.
A pass over the summands that sets `has_changed`, and so asks for a repetition
of the loop, has removed at least one entry from the map `replacements`; from
any map the loop of `compute_constant_parameters` ends within one round more
than the map has entries. -/
theorem compute_constant_parameters_terminates (D : old_data V E) (r : E → E)
    (r_subst : E → List (V × E) → E) (p : linear_process V E) (init : List E)
    (hlen : p.process_parameters.length ≤ init.length) :
    (∃ m, compute_constant_parameters D r p init (p.process_parameters.length + 1) = some m)
    ∧ (∃ m, compute_constant_parameters_subst D r_subst p init
        (p.process_parameters.length + 1) = some m)
    ∧ (∀ replacements : List (V × E),
        (summands_loop D r p.summands replacements).2 = true →
        (summands_loop D r p.summands replacements).1.length < replacements.length)
    ∧ (∀ state : subst_state V E, state.index = state.replacements.map Prod.fst →
        state.has_changed = false →
        (summands_loop_subst D r_subst p.summands state).has_changed = true →
        (summands_loop_subst D r_subst p.summands state).replacements.length
          < state.replacements.length)
    ∧ (∀ replacements : List (V × E),
        ∃ result, do_while D r p.summands (replacements.length + 1) replacements
          = some result) := by
  refine ⟨?_, ?_, fun m => (summands_loop_sublist D r p.summands m).2, ?_,
    fun m => do_while_returns D r p.summands _ m (Nat.lt_succ_self _)⟩
  · obtain ⟨m0, h0, hl0⟩ := initial_replacements_returns r p.process_parameters init [] hlen
    simp only [List.length_nil, Nat.zero_add] at hl0
    obtain ⟨m, hm⟩ := do_while_returns D r p.summands (p.process_parameters.length + 1) m0
      (by omega)
    exact ⟨m, by rw [compute_constant_parameters, h0]; exact hm⟩
  · obtain ⟨m0, h0, hl0⟩ :=
      initial_replacements_returns (fun e => e) p.process_parameters init [] hlen
    simp only [List.length_nil, Nat.zero_add] at hl0
    obtain ⟨res, hres, _⟩ := do_while_subst_returns D r_subst p.summands
      (p.process_parameters.length + 1)
      { replacements := m0, substitutions := m0, index := m0.map Prod.fst,
        has_changed := false }
      (by simp only [List.length_map]; omega)
    refine ⟨res.replacements, ?_⟩
    rw [compute_constant_parameters_subst, h0]
    simp only [hres, Option.map_some']
  · intro state hi h0 hc
    have h1 := (summands_loop_subst_sublist D r_subst p.summands state h0).2.2 hc
    have h2 := summands_loop_subst_index D r_subst p.summands state hi
    rw [h2, hi, List.length_map, List.length_map] at h1
    exact h1

/-- C34, witness: the process of two parameters and one summand that assigns
`3` and `5`, with initial values `3` and `4`; three rounds are allowed. -/
theorem compute_constant_parameters_terminates_witness :
    (∃ m, compute_constant_parameters
          (⟨0, 1, fun a => 1 - a, fun a b => max a b, fun a b => if a = b then 0 else 1,
            fun a => 1 - a, fun a b => max a b, fun a _ => a, fun a => a⟩ : old_data Nat Nat)
          (fun e => e) ⟨[0, 1], [⟨1, [⟨0, 3⟩, ⟨1, 5⟩]⟩]⟩ [3, 4] ([0, 1].length + 1) = some m)
    ∧ (∃ m, compute_constant_parameters_subst
          (⟨0, 1, fun a => 1 - a, fun a b => max a b, fun a b => if a = b then 0 else 1,
            fun a => 1 - a, fun a b => max a b, fun a _ => a, fun a => a⟩ : old_data Nat Nat)
          (fun e _ => e) ⟨[0, 1], [⟨1, [⟨0, 3⟩, ⟨1, 5⟩]⟩]⟩ [3, 4] ([0, 1].length + 1) = some m) :=
  have h := compute_constant_parameters_terminates
    (⟨0, 1, fun a => 1 - a, fun a b => max a b, fun a b => if a = b then 0 else 1,
      fun a => 1 - a, fun a b => max a b, fun a _ => a, fun a => a⟩ : old_data Nat Nat)
    (fun e => e) (fun e _ => e) ⟨[0, 1], [⟨1, [⟨0, 3⟩, ⟨1, 5⟩]⟩]⟩ [3, 4] (by decide)
  ⟨h.1, h.2.1⟩

end mcrl2.lps
